import Mathlib

/-!
# IPTV playlist pipeline: parser, classifier, serializer

A shallow embedding of `frontend/src/utils/m3uParser.js` (class `M3UParser`) and of
`backend/server.js` (class `M3UManager`).

JavaScript strings are sequences of UTF-16 code units; they are modelled as `List Nat`
(`Str`).  Regular expressions are modelled by a small abstract syntax (`Regex`) with the
backtracking semantics of ECMAScript (a matcher takes a continuation, alternatives are
tried in priority order), so that each regular expression of the source is written down
as a term that can be compared with the source text.
-/

namespace IPTV

/-! ## Strings -/

/-- A JavaScript string: its UTF-16 code units. -/
abbrev Str := List Nat

/-- UTF-16 encoding of one code point. -/
def utf16 (c : Char) : List Nat :=
  if c.toNat < 65536 then [c.toNat]
  else [55296 + (c.toNat - 65536) / 1024, 56320 + (c.toNat - 65536) % 1024]

/-- The JavaScript string written as a Lean string literal. -/
def js (s : String) : Str := (s.toList.map utf16).flatten

/-- Line terminators of ECMAScript: LF, CR, LS, PS. -/
def isLineTerminator (u : Nat) : Bool :=
  u = 10 || u = 13 || u = 8232 || u = 8233

/-- White space as stripped by `String.prototype.trim` and matched by `\s`:
    the WhiteSpace and LineTerminator productions. -/
def isWhiteSpace (u : Nat) : Bool :=
  u = 9 || u = 10 || u = 11 || u = 12 || u = 13 || u = 32 || u = 160 || u = 5760 ||
  (8192 ≤ u && u ≤ 8202) || u = 8232 || u = 8233 || u = 8239 || u = 8287 ||
  u = 12288 || u = 65279

/-- The class `\d`. -/
def isDigit (u : Nat) : Bool := 48 ≤ u && u ≤ 57

/-- The class `\w`: ASCII letters, digits and underscore. -/
def isWordChar (u : Nat) : Bool :=
  (97 ≤ u && u ≤ 122) || (65 ≤ u && u ≤ 90) || isDigit u || u = 95

/-- `String.prototype.trim`. -/
def trim (s : Str) : Str := (s.dropWhile isWhiteSpace).rdropWhile isWhiteSpace

/-- `String.prototype.startsWith`. -/
def startsWith (s p : Str) : Bool := p.isPrefixOf s

/-- `String.prototype.split` with a one-character separator. -/
def split (sep : Nat) : Str → List Str
  | [] => [[]]
  | c :: cs =>
    if c = sep then [] :: split sep cs
    else
      match split sep cs with
      | [] => [[c]]
      | l :: ls => (c :: l) :: ls

/-- Truthiness of a string value: the empty string is falsy. -/
def truthy (s : Str) : Bool := !s.isEmpty

/-! ## Numbers

The numbers that occur are the ones read from decimal numerals.  A number is kept as an
exact finite decimal `mant / 10 ^ scale` in lowest form (`scale = 0`, or `mant` not a
multiple of `10`); the rounding of IEEE doubles (beyond `2^53`, or beyond 15 significant
digits) and the exponent notation of large and small magnitudes are not modelled. -/

/-- A finite decimal number `mant / 10 ^ scale`. -/
structure Decimal where
  mant : Int
  scale : Nat
  deriving DecidableEq, Repr

/-- The integer `n` as a number. -/
def Decimal.ofInt (n : Int) : Decimal := ⟨n, 0⟩

/-- Value of a string of decimal digits. -/
def parseDigits (s : Str) : Nat := s.foldl (fun a d => 10 * a + (d - 48)) 0

/-- `parseInt` on a numeral of the shape `-?\d+` (the argument is always such a
    capture): optional sign and the longest run of digits.  The value is the exact
    integer; the code has it rounded to a double, which is the same number below
    `2^53`. -/
def parseInt (s : Str) : Int :=
  if s.head? = some 45 then -((parseDigits ((s.drop 1).takeWhile isDigit) : Nat) : Int)
  else ((parseDigits (s.takeWhile isDigit) : Nat) : Int)

/-- `parseFloat` on a numeral of the shape `-?\d+(\.\d+)?` (the argument is always
    such a capture): sign, integer digits, optional fraction. -/
def parseFloat (s : Str) : Decimal :=
  let neg := s.head? = some 45
  let body := if neg then s.drop 1 else s
  let ip := body.takeWhile isDigit
  let after := body.dropWhile isDigit
  let fp := if after.head? = some 46 then (after.drop 1).takeWhile isDigit else []
  let fp := fp.rdropWhile (fun d => d = 48)
  let m : Int := ((parseDigits ip * 10 ^ fp.length + parseDigits fp : Nat) : Int)
  ⟨if neg then -m else m, fp.length⟩

/-- Decimal digits of a natural number, most significant first (`fuel` bounds the
    number of digits; `n + 1` is always enough). -/
def natDigitsAux : Nat → Nat → Str → Str
  | 0, _, acc => acc
  | fuel + 1, n, acc =>
    if n / 10 = 0 then (48 + n % 10) :: acc
    else natDigitsAux fuel (n / 10) ((48 + n % 10) :: acc)

/-- Decimal numeral of a natural number. -/
def natToString (n : Nat) : Str := natDigitsAux (n + 1) n []

/-- Decimal numeral of an integer. -/
def intToString (n : Int) : Str :=
  if n < 0 then 45 :: natToString n.natAbs else natToString n.natAbs

/-- `Number::toString` (radix 10) for a finite decimal. -/
def numberToString (d : Decimal) : Str :=
  if d.scale = 0 then intToString d.mant
  else
    let a := d.mant.natAbs
    let fp := natToString (a % 10 ^ d.scale)
    (if d.mant < 0 then [45] else []) ++ natToString (a / 10 ^ d.scale) ++ [46] ++
      List.replicate (d.scale - fp.length) 48 ++ fp

/-- `ToInt32`: wrap an integer into the signed 32-bit range. -/
def toInt32 (x : Int) : Int := (x + 2147483648) % 4294967296 - 2147483648

/-- One digit in radix 36. -/
def digit36 (d : Nat) : Nat := if d < 10 then 48 + d else 87 + d

/-- Digits in radix 36, most significant first. -/
def radix36Aux : Nat → Nat → Str → Str
  | 0, _, acc => acc
  | fuel + 1, n, acc =>
    if n / 36 = 0 then digit36 (n % 36) :: acc
    else radix36Aux fuel (n / 36) (digit36 (n % 36) :: acc)

/-- `Number.prototype.toString(36)` on a natural number. -/
def toString36 (n : Nat) : Str := radix36Aux (n + 1) n []

/-! ## Regular expressions -/

/-- A set of characters in a pattern. -/
inductive CharSet
  /-- a literal character -/
  | lit (c : Nat)
  /-- the class `\d` -/
  | digit
  /-- the class `\w` -/
  | word
  /-- the class `\s` -/
  | space
  /-- the wildcard `.`: anything but a line terminator -/
  | dot
  /-- the negated class `[^c]` -/
  | notLit (c : Nat)
  deriving DecidableEq, Repr

/-- Canonicalisation of the flag `i` (without the flag `u`): ASCII lower-case letters
    are compared as upper-case letters.  A character outside ASCII never becomes an
    ASCII character, so against the ASCII letters of the patterns only the two cases of
    the letter match. -/
def canonicalize (ignoreCase : Bool) (u : Nat) : Nat :=
  if ignoreCase && 97 ≤ u && u ≤ 122 then u - 32 else u

/-- Does the code unit `u` belong to the set? -/
def CharSet.test (ignoreCase : Bool) : CharSet → Nat → Bool
  | .lit c, u => canonicalize ignoreCase u = canonicalize ignoreCase c
  | .digit, u => isDigit u
  | .word, u => isWordChar u
  | .space, u => isWhiteSpace u
  | .dot, u => !isLineTerminator u
  | .notLit c, u => u ≠ c

/-- Abstract syntax of the regular expressions used by the program. -/
inductive Regex
  /-- the empty pattern -/
  | eps
  /-- one character of a set -/
  | cls (s : CharSet)
  /-- concatenation -/
  | seq (a b : Regex)
  /-- alternation `a|b` -/
  | alt (a b : Regex)
  /-- greedy repetition `r*` -/
  | star (r : Regex)
  /-- lazy repetition `r*?` -/
  | lazyStar (r : Regex)
  /-- capturing group number `k` -/
  | group (k : Nat) (r : Regex)
  /-- the assertion `^` -/
  | bol
  /-- the assertion `$` -/
  | eol
  /-- the assertion `\b` -/
  | wordB
  deriving DecidableEq, Repr

namespace Regex

/-- Concatenation of a list of patterns. -/
def cat : List Regex → Regex
  | [] => eps
  | [r] => r
  | r :: rs => seq r (cat rs)

/-- A literal string. -/
def lits (s : String) : Regex := cat ((js s).map (fun u => cls (.lit u)))

/-- Greedy `r+`. -/
def plus (r : Regex) : Regex := seq r (star r)

/-- Lazy `r+?`. -/
def lazyPlus (r : Regex) : Regex := seq r (lazyStar r)

/-- Greedy `r?`. -/
def opt (r : Regex) : Regex := alt r eps

end Regex

/-- A position in the subject string: the code unit before it (`none` at the start of
    the string) and the text after it. -/
structure Cursor where
  prev : Option Nat
  rest : Str
  deriving DecidableEq, Repr

/-- Captures recorded so far: group number and captured text, latest first. -/
abbrev Caps := List (Nat × Str)

/-- Is the optional code unit a word character (for `\b`)? -/
def isWordAt (u : Option Nat) : Bool :=
  match u with
  | some c => isWordChar c
  | none => false

/-- Repetition of a matcher `step`.  Each iteration must consume at least one code unit
    (an iteration that matches the empty string is rejected, as in ECMAScript), so at
    most `rest.length` iterations are possible: the first argument, which bounds the
    number of iterations, is never the reason for a failure when it is at least the
    length of the remaining text. -/
def repeatMatcher {α : Type} (greedy : Bool)
    (step : Cursor → Caps → (Cursor → Caps → Option α) → Option α) :
    Nat → Cursor → Caps → (Cursor → Caps → Option α) → Option α
  | 0, x, c, k => k x c
  | n + 1, x, c, k =>
    let again := fun (_ : Unit) =>
      step x c (fun y c1 =>
        if y.rest.length < x.rest.length then repeatMatcher greedy step n y c1 k else none)
    if greedy then
      match again () with
      | some r => some r
      | none => k x c
    else
      match k x c with
      | some r => some r
      | none => again ()

/-- The backtracking matcher: `run ic r x c k` matches `r` at the cursor `x` with the
    captures `c` and hands the cursor after the match to the continuation `k`; when the
    continuation fails the next alternative is tried. -/
def Regex.run {α : Type} (ic : Bool) :
    Regex → Cursor → Caps → (Cursor → Caps → Option α) → Option α
  | .eps, x, c, k => k x c
  | .cls s, x, c, k =>
    match x.rest with
    | [] => none
    | u :: rest => if s.test ic u then k ⟨some u, rest⟩ c else none
  | .seq a b, x, c, k => Regex.run ic a x c (fun y c1 => Regex.run ic b y c1 k)
  | .alt a b, x, c, k =>
    match Regex.run ic a x c k with
    | some r => some r
    | none => Regex.run ic b x c k
  | .star r, x, c, k => repeatMatcher true (Regex.run ic r) x.rest.length x c k
  | .lazyStar r, x, c, k => repeatMatcher false (Regex.run ic r) x.rest.length x c k
  | .group n r, x, c, k =>
    Regex.run ic r x c
      (fun y c1 => k y ((n, x.rest.take (x.rest.length - y.rest.length)) :: c1))
  | .bol, x, c, k => if x.prev.isNone then k x c else none
  | .eol, x, c, k => if x.rest.isEmpty then k x c else none
  | .wordB, x, c, k =>
    if isWordAt x.prev != isWordAt x.rest.head? then k x c else none

/-- The result of a successful match. -/
structure Match where
  /-- the text before the match -/
  before : Str
  /-- the matched text -/
  matched : Str
  /-- the captures -/
  caps : Caps
  /-- the cursor after the match -/
  after : Cursor
  deriving DecidableEq, Repr

/-- Text of capture group `k` (the empty string when the group did not take part). -/
def Match.group (m : Match) (k : Nat) : Str := (m.caps.lookup k).getD []

/-- Try to match at the cursor itself. -/
def Regex.matchHere (ic : Bool) (re : Regex) (before : Str) (x : Cursor) : Option Match :=
  re.run ic x []
    (fun y c => some ⟨before, x.rest.take (x.rest.length - y.rest.length), c, y⟩)

/-- Search for the leftmost match at or after the cursor (`before` is the text already
    passed, in reverse). -/
def Regex.searchFrom (ic : Bool) (re : Regex) : Str → Option Nat → Str → Option Match
  | before, prev, [] => re.matchHere ic before.reverse ⟨prev, []⟩
  | before, prev, u :: rest =>
    match re.matchHere ic before.reverse ⟨prev, u :: rest⟩ with
    | some m => some m
    | none => Regex.searchFrom ic re (u :: before) (some u) rest

/-- `RegExp.prototype.exec` / `String.prototype.match` without the flag `g`. -/
def Regex.exec (ic : Bool) (re : Regex) (s : Str) : Option Match :=
  re.searchFrom ic [] none s

/-- `RegExp.prototype.test`. -/
def Regex.test (ic : Bool) (re : Regex) (s : Str) : Bool := (re.exec ic s).isSome

/-- All matches from a cursor on, left to right, each search starting where the last
    match ended (one code unit further after an empty match).  The first argument bounds
    the number of matches; the length of the text plus one is always enough. -/
def Regex.matchAllFrom (ic : Bool) (re : Regex) : Nat → Option Nat → Str → List Str
  | 0, _, _ => []
  | n + 1, prev, s =>
    match re.searchFrom ic [] prev s with
    | none => []
    | some m =>
      if m.matched.isEmpty then
        match m.after.rest with
        | [] => [m.matched]
        | u :: rest => m.matched :: Regex.matchAllFrom ic re n (some u) rest
      else m.matched :: Regex.matchAllFrom ic re n m.after.prev m.after.rest

/-- `String.prototype.match` with the flag `g`: the list of matched texts, or `none`
    (for `null`) when there is no match. -/
def Regex.matchAll (ic : Bool) (re : Regex) (s : Str) : Option (List Str) :=
  match re.matchAllFrom ic (s.length + 1) none s with
  | [] => none
  | ms => some ms

/-! ## Frontend: `M3UParser` -/

/-- A playlist item of the frontend.  `attributes` is the JavaScript object of extra
    attributes, kept as the list of its properties in insertion order; `id` is absent on
    the object returned by `parseEXTINF` and set by `parse`. -/
structure Item where
  duration : Decimal
  tvgId : Str
  tvgName : Str
  logo : Str
  group : Str
  name : Str
  url : Str
  attributes : List (Str × Str)
  id : Option Str
  deriving DecidableEq, Repr

/-- Property assignment `o[k] = v` on an object with string keys, for a string `v`.  The
    key `__proto__` is the accessor of `Object.prototype`, whose setter ignores a value
    that is not an object: the assignment creates no property. -/
def objSet (o : List (Str × Str)) (k v : Str) : List (Str × Str) :=
  if k = js "__proto__" then o
  else if o.any (fun p => p.1 = k) then o.map (fun p => if p.1 = k then (k, v) else p)
  else o ++ [(k, v)]

/-- Is the key an array index (a canonical numeral below `2^32 - 1`)?  Such keys come
    first, in ascending numeric order, in `Object.keys`. -/
def isArrayIndex (k : Str) : Bool :=
  k.all isDigit && natToString (parseDigits k) = k && parseDigits k < 4294967295

/-- `Object.keys` with the property values: array-index keys in ascending order, then
    the other keys in insertion order. -/
def objEntries (o : List (Str × Str)) : List (Str × Str) :=
  (o.filter (fun p => isArrayIndex p.1)).insertionSort
      (fun p q => parseDigits p.1 ≤ parseDigits q.1) ++
    o.filter (fun p => !isArrayIndex p.1)

/-- The pattern `/#EXTINF:(-?\d+(?:\.\d+)?)/`. -/
def reDuration : Regex :=
  .seq (.lits "#EXTINF:")
    (.group 1 (.cat [.opt (.cls (.lit 45)), .plus (.cls .digit),
      .opt (.seq (.cls (.lit 46)) (.plus (.cls .digit)))]))

/-- The pattern `/key="([^"]*)"/` for a literal `key`. -/
def reAttr (key : String) : Regex :=
  .cat [.lits key, .lits "=\"", .group 1 (.star (.cls (.notLit 34))), .lits "\""]

/-- The pattern `/(\w+)="([^"]*)"/g`. -/
def reCustom : Regex :=
  .cat [.group 1 (.plus (.cls .word)), .lits "=\"", .group 2 (.star (.cls (.notLit 34))),
    .lits "\""]

/-- The pattern `/,(.+)$/`. -/
def reName : Regex :=
  .cat [.cls (.lit 44), .group 1 (.plus (.cls .dot)), .eol]

/-- The attribute names that `parseEXTINF` means to keep out of `attributes`. -/
def namedAttributes : List Str :=
  [js "tvg-id", js "tvg-name", js "tvg-logo", js "group-title"]

/-- The body of the `forEach` over the custom attributes in `parseEXTINF`. -/
def addCustomAttribute (attributes : List (Str × Str)) (attr : Str) : List (Str × Str) :=
  match split 61 attr with
  | key :: value :: _ =>
    let cleanKey := trim key
    let cleanValue := value.filter (fun u => u ≠ 34)
    if !namedAttributes.contains cleanKey then objSet attributes cleanKey cleanValue
    else attributes
  | _ => attributes

/-- `M3UParser.parseEXTINF`. -/
def parseEXTINF (line : Str) : Item :=
  let duration :=
    match reDuration.exec false line with
    | some m => parseFloat (m.group 1)
    | none => Decimal.ofInt (-1)
  let tvgId :=
    match (reAttr "tvg-id").exec false line with
    | some m => m.group 1
    | none => []
  let tvgName :=
    match (reAttr "tvg-name").exec false line with
    | some m => m.group 1
    | none => []
  let logo :=
    match (reAttr "tvg-logo").exec false line with
    | some m => m.group 1
    | none => []
  let group :=
    match (reAttr "group-title").exec false line with
    | some m => m.group 1
    | none => js "Outros"
  let attributes :=
    match reCustom.matchAll false line with
    | some customAttributes => customAttributes.foldl addCustomAttribute []
    | none => []
  let name :=
    match reName.exec false line with
    | some m => trim (m.group 1)
    | none => []
  { duration := duration, tvgId := tvgId, tvgName := tvgName, logo := logo, group := group,
    name := name, url := [], attributes := attributes, id := none }

/-- `M3UParser.generateId`: a 32-bit string hash of `name-url-group`, in radix 36. -/
def generateId (item : Item) : Str :=
  let str := item.name ++ js "-" ++ item.url ++ js "-" ++ item.group
  let hash := str.foldl (fun (hash : Int) (char : Nat) => toInt32 (toInt32 (hash * 32) - hash + char)) 0
  toString36 hash.natAbs

/-- Is `currentItem.name` truthy?  `none` stands for the empty object. -/
def hasName (currentItem : Option Item) : Bool :=
  match currentItem with
  | some item => truthy item.name
  | none => false

/-- The two assignments `currentItem.url = line` and
    `currentItem.id = this.generateId(currentItem)` of `parse`. -/
def completeItem (item : Item) (line : Str) : Item :=
  let item := { item with url := line }
  { item with id := some (generateId item) }

/-- The `for` loop of `M3UParser.parse` over the non-blank lines. -/
def parseLoop : List Str → Option Item → List Item → List Item
  | [], _, items => items
  | l :: ls, currentItem, items =>
    let line := trim l
    if startsWith line (js "#EXTINF:") then
      parseLoop ls (some (parseEXTINF line)) items
    else if startsWith line (js "http") && hasName currentItem then
      match currentItem with
      | some item => parseLoop ls none (items ++ [completeItem item line])
      | none => parseLoop ls currentItem items
    else parseLoop ls currentItem items

/-- `M3UParser.parse`. -/
def parse (content : Str) : List Item :=
  let lines := (split 10 content).filter (fun line => truthy (trim line))
  parseLoop lines none []

/-- `M3UParser.generateEXTINF`. -/
def generateEXTINF (item : Item) : Str :=
  let extinf := js "#EXTINF:" ++
    numberToString (if item.duration.mant = 0 then Decimal.ofInt (-1) else item.duration)
  let extinf := if truthy item.tvgId then extinf ++ js " tvg-id=\"" ++ item.tvgId ++ js "\"" else extinf
  let extinf := if truthy item.tvgName then extinf ++ js " tvg-name=\"" ++ item.tvgName ++ js "\"" else extinf
  let extinf := if truthy item.logo then extinf ++ js " tvg-logo=\"" ++ item.logo ++ js "\"" else extinf
  let extinf := if truthy item.group then extinf ++ js " group-title=\"" ++ item.group ++ js "\"" else extinf
  let extinf := (objEntries item.attributes).foldl
    (fun extinf p => extinf ++ js " " ++ p.1 ++ js "=\"" ++ p.2 ++ js "\"") extinf
  extinf ++ js "," ++ item.name ++ js "\n"

/-- `M3UParser.generate`; the title is not used. -/
def generate (items : List Item) (_title : Str) : Str :=
  items.foldl (fun m3u item => m3u ++ generateEXTINF item ++ (item.url ++ js "\n"))
    (js "#EXTM3U\n")

/-- A whole word: the pattern `/\bw\b/` for a literal `w`. -/
def reWord (w : String) : Regex := .cat [.wordB, .lits w, .wordB]

/-- The table `patterns` of `detectCategory`, in the order of its keys. -/
def patterns : List (String × List Regex) :=
  [("movies",
      [reWord "filme", reWord "movie", reWord "cinema",
       -- /\b(19|20)\d{2}\b/
       .cat [.wordB, .group 1 (.alt (.lits "19") (.lits "20")), .cls .digit, .cls .digit,
         .wordB],
       reWord "hd", reWord "fullhd", reWord "4k", reWord "blueray", reWord "dvdrip"]),
   ("series",
      [reWord "serie", reWord "series",
       -- /\bs\d+e\d+\b/
       .cat [.wordB, .lits "s", .plus (.cls .digit), .lits "e", .plus (.cls .digit), .wordB],
       reWord "temporada", reWord "episodio", reWord "episode",
       -- /\b\d+x\d+\b/
       .cat [.wordB, .plus (.cls .digit), .lits "x", .plus (.cls .digit), .wordB],
       -- /\bt\d+e\d+\b/
       .cat [.wordB, .lits "t", .plus (.cls .digit), .lits "e", .plus (.cls .digit), .wordB]]),
   ("cartoons",
      [reWord "desenho", reWord "cartoon", reWord "infantil", reWord "kids",
       reWord "animacao", reWord "animation", reWord "disney", reWord "pixar"]),
   ("sports",
      [reWord "esporte", reWord "sport", reWord "futebol", reWord "football",
       reWord "basket", reWord "volei", reWord "f1", reWord "mma", reWord "ufc"]),
   ("news",
      [reWord "news", reWord "noticia", reWord "jornal", reWord "informativo",
       reWord "reporter", reWord "globo", reWord "sbt", reWord "record", reWord "band"]),
   ("music",
      [reWord "music", reWord "musica", reWord "clip", reWord "mtv",
       reWord "radio", reWord "hits", reWord "rock", reWord "pop", reWord "sertanejo"]),
   ("documentaries",
      [reWord "documentario", reWord "documentary",
       -- /\bnational\s*geographic\b/
       .cat [.wordB, .lits "national", .star (.cls .space), .lits "geographic", .wordB],
       reWord "discovery", reWord "history", reWord "animal", reWord "nature"]),
   ("adult",
      [reWord "adult", reWord "xxx", reWord "sexy", reWord "18+", reWord "playboy"])]

/-- The loop of `detectCategory` over the entries of the pattern table: the first
    category one of whose patterns matches, and `channels` when there is none. -/
def detectLoop (combined : Str) : List (String × List Regex) → String
  | [] => "channels"
  | (category, categoryPatterns) :: rest =>
    if categoryPatterns.any (fun pattern => pattern.test false combined) then category
    else detectLoop combined rest

/-- `M3UParser.detectCategory`.  The Unicode case mapping of
    `String.prototype.toLowerCase` is a table of the language, not of the repository:
    it is the parameter `toLowerCase`. -/
def detectCategory (toLowerCase : Str → Str) (item : Item) : String :=
  let name := toLowerCase item.name
  let group := toLowerCase item.group
  let combined := name ++ js " " ++ group
  detectLoop combined patterns

/-- `String.prototype.toLowerCase` on ASCII text: the letters `A`-`Z` become `a`-`z`. -/
def asciiLowerCase (s : Str) : Str :=
  s.map (fun u => if 65 ≤ u && u ≤ 90 then u + 32 else u)

/-! ## Backend: `M3UManager` -/

/-- A playlist item of the backend: every property may be absent (`none` for
    `undefined`); the empty object has none. -/
structure BItem where
  duration : Option Int
  tvgId : Option Str
  tvgName : Option Str
  logo : Option Str
  group : Option Str
  name : Option Str
  url : Option Str
  deriving DecidableEq, Repr

/-- The empty object. -/
def BItem.empty : BItem := ⟨none, none, none, none, none, none, none⟩

/-- The header pattern of `M3UManager.parseM3U`:
    `#EXTINF:(-?\d+)`, then the optional groups `(?:\s+tvg-id="([^"]*)")?` and likewise
    `tvg-name`, `tvg-logo`, `group-title`, then `[^,]*,(.+)`. -/
def reHeader : Regex :=
  .cat [.lits "#EXTINF:",
    .group 1 (.seq (.opt (.cls (.lit 45))) (.plus (.cls .digit))),
    .opt (.cat [.plus (.cls .space), .lits "tvg-id=\"", .group 2 (.star (.cls (.notLit 34))), .lits "\""]),
    .opt (.cat [.plus (.cls .space), .lits "tvg-name=\"", .group 3 (.star (.cls (.notLit 34))), .lits "\""]),
    .opt (.cat [.plus (.cls .space), .lits "tvg-logo=\"", .group 4 (.star (.cls (.notLit 34))), .lits "\""]),
    .opt (.cat [.plus (.cls .space), .lits "group-title=\"", .group 5 (.star (.cls (.notLit 34))), .lits "\""]),
    .star (.cls (.notLit 44)), .cls (.lit 44), .group 6 (.plus (.cls .dot))]

/-- The value of `x || d` for a capture `x`: `d` when the capture is absent or empty. -/
def orDefault (x d : Str) : Str := if truthy x then x else d

/-- The `for` loop of `M3UManager.parseM3U` over the non-blank lines. -/
def parseM3ULoop : List Str → BItem → List BItem → List BItem
  | [], _, items => items
  | l :: ls, currentItem, items =>
    let line := trim l
    if startsWith line (js "#EXTINF:") then
      match reHeader.exec false line with
      | some m =>
        parseM3ULoop ls
          { duration := some (parseInt (m.group 1)),
            tvgId := some (orDefault (m.group 2) []),
            tvgName := some (orDefault (m.group 3) []),
            logo := some (orDefault (m.group 4) []),
            group := some (orDefault (m.group 5) (js "Outros")),
            name := some (orDefault (m.group 6) []),
            url := some [] } items
      | none => parseM3ULoop ls currentItem items
    else if startsWith line (js "http") then
      parseM3ULoop ls BItem.empty (items ++ [{ currentItem with url := some line }])
    else parseM3ULoop ls currentItem items

/-- `M3UManager.parseM3U`. -/
def parseM3U (content : Str) : List BItem :=
  let lines := (split 10 content).filter (fun line => truthy (trim line))
  parseM3ULoop lines BItem.empty []

/-! ## Series: `parseSeriesInfo` and `organizeSeries`

JavaScript objects used as dictionaries (`organized`, `organized[seriesName]`) are
modelled twice.  In this section a dictionary is the list of its own properties in the
order of creation, and a read sees the own properties only: this follows the code for
show names that are not properties of `Object.prototype`, and says nothing of the order
of `Object.keys`.  In the section on objects and the prototype chain the same code runs
on objects with their prototypes (`organizeSeriesHeap`), where a show called
`constructor` or `__proto__` is read from `Object.prototype`. -/

/-- The result of `parseSeriesInfo`. -/
structure SeriesInfo where
  seriesName : Str
  season : Int
  episode : Int
  deriving DecidableEq, Repr

/-- An entry of the table `patterns` of `parseSeriesInfo`. -/
structure SeriesPattern where
  regex : Regex
  seriesIndex : Nat
  seasonIndex : Nat
  episodeIndex : Nat

/-- The table `patterns` of `parseSeriesInfo`; every pattern has the flag `i`. -/
def seriesPatterns : List SeriesPattern :=
  [ -- /^(.+?)\s+S(\d+)E(\d+)/i
    ⟨.cat [.bol, .group 1 (.lazyPlus (.cls .dot)), .plus (.cls .space), .lits "S",
        .group 2 (.plus (.cls .digit)), .lits "E", .group 3 (.plus (.cls .digit))], 1, 2, 3⟩,
    -- /^(.+?)\s+(\d+)x(\d+)/i
    ⟨.cat [.bol, .group 1 (.lazyPlus (.cls .dot)), .plus (.cls .space),
        .group 2 (.plus (.cls .digit)), .lits "x", .group 3 (.plus (.cls .digit))], 1, 2, 3⟩,
    -- /^(.+?)\s+Temporada\s+(\d+)\s+Episodio\s+(\d+)/i
    ⟨.cat [.bol, .group 1 (.lazyPlus (.cls .dot)), .plus (.cls .space), .lits "Temporada",
        .plus (.cls .space), .group 2 (.plus (.cls .digit)), .plus (.cls .space),
        .lits "Episodio", .plus (.cls .space), .group 3 (.plus (.cls .digit))], 1, 2, 3⟩,
    -- /^(.+?)\s+T(\d+)E(\d+)/i
    ⟨.cat [.bol, .group 1 (.lazyPlus (.cls .dot)), .plus (.cls .space), .lits "T",
        .group 2 (.plus (.cls .digit)), .lits "E", .group 3 (.plus (.cls .digit))], 1, 2, 3⟩,
    -- /^(.+?)\s*-\s*S(\d+)E(\d+)/i
    ⟨.cat [.bol, .group 1 (.lazyPlus (.cls .dot)), .star (.cls .space), .lits "-",
        .star (.cls .space), .lits "S", .group 2 (.plus (.cls .digit)), .lits "E",
        .group 3 (.plus (.cls .digit))], 1, 2, 3⟩ ]

/-- The season indicators `(S\d+|Temporada|\d+x\d+)`, as capturing group `k`. -/
def reIndicator (k : Nat) : Regex :=
  .group k (.alt (.seq (.lits "S") (.plus (.cls .digit)))
    (.alt (.lits "Temporada") (.cat [.plus (.cls .digit), .lits "x", .plus (.cls .digit)])))

/-- The pattern `/^(.+?)\s+(S\d+|Temporada|\d+x\d+)/i` of the fallback. -/
def reClean : Regex :=
  .cat [.bol, .group 1 (.lazyPlus (.cls .dot)), .plus (.cls .space), reIndicator 2]

/-- The loop of `parseSeriesInfo` over the patterns: the first pattern that matches sets
    the three values and ends the loop. -/
def seriesLoop (name : Str) : List SeriesPattern → SeriesInfo → SeriesInfo
  | [], info => info
  | pattern :: rest, info =>
    match pattern.regex.exec true name with
    | some m =>
      { seriesName := trim (m.group pattern.seriesIndex),
        season := parseInt (m.group pattern.seasonIndex),
        episode := parseInt (m.group pattern.episodeIndex) }
    | none => seriesLoop name rest info

/-- `M3UParser.parseSeriesInfo`, as a function of the name of the item. -/
def parseSeriesInfo (name : Str) : SeriesInfo :=
  let info := seriesLoop name seriesPatterns { seriesName := name, season := 1, episode := 1 }
  let seriesName :=
    if info.seriesName = name then
      match reClean.exec true name with
      | some cleanMatch => trim (cleanMatch.group 1)
      | none => info.seriesName
    else info.seriesName
  { seriesName := seriesName, season := info.season, episode := info.episode }

/-- An item stored by `organizeSeries`: the item with the properties `seriesName`,
    `season`, `episode` and `sortOrder`. -/
structure SeriesItem where
  item : Item
  seriesName : Str
  season : Int
  episode : Int
  sortOrder : Int
  deriving DecidableEq, Repr

/-- The assignment pattern `if (!o[k]) o[k] = d; o[k] = f(o[k])` on a dictionary. -/
def alterKey {κ β : Type} [DecidableEq κ] (k : κ) (d : β) (f : β → β) :
    List (κ × β) → List (κ × β)
  | [] => [(k, f d)]
  | (k1, v) :: rest =>
    if k1 = k then (k1, f v) :: rest else (k1, v) :: alterKey k d f rest

/-- `Array.prototype.sort((a, b) => a.episode - b.episode)`: the sort of ECMAScript is
    stable, and the stable sort of a list by a total preorder is unique; it is computed
    here by insertion. -/
def sortByEpisode {β : Type} (episode : β → Int) (l : List β) : List β :=
  l.insertionSort (fun a b => episode a ≤ episode b)

/-- The object `{ ...item, seriesName, season, episode, sortOrder: episode }` pushed by
    `M3UParser.organizeSeries`. -/
def toSeriesItem (item : Item) : SeriesItem :=
  let seriesInfo := parseSeriesInfo item.name
  { item := item, seriesName := seriesInfo.seriesName, season := seriesInfo.season,
    episode := seriesInfo.episode, sortOrder := seriesInfo.episode }

/-- The body of the first `forEach` of `M3UParser.organizeSeries`, on the dictionary of
    the own properties. -/
def addSeriesItem (organized : List (Str × List (Int × List SeriesItem))) (item : Item) :
    List (Str × List (Int × List SeriesItem)) :=
  let seriesInfo := parseSeriesInfo item.name
  alterKey seriesInfo.seriesName []
    (alterKey seriesInfo.season [] (fun l => l ++ [toSeriesItem item])) organized

/-- `M3UParser.organizeSeries`, as the dictionary of the own properties in the order of
    creation. -/
def organizeSeries (seriesItems : List Item) : List (Str × List (Int × List SeriesItem)) :=
  (seriesItems.foldl addSeriesItem []).map
    (fun p => (p.1, p.2.map (fun q => (q.1, sortByEpisode SeriesItem.episode q.2))))

/-- The four patterns of the backend `organizeSeries`, each with the flag `i`. -/
def seriesPatternsBackend : List Regex :=
  [ -- /^(.+?)\s+S(\d+)E(\d+)/i
    .cat [.bol, .group 1 (.lazyPlus (.cls .dot)), .plus (.cls .space), .lits "S",
      .group 2 (.plus (.cls .digit)), .lits "E", .group 3 (.plus (.cls .digit))],
    -- /^(.+?)\s+(\d+)x(\d+)/i
    .cat [.bol, .group 1 (.lazyPlus (.cls .dot)), .plus (.cls .space),
      .group 2 (.plus (.cls .digit)), .lits "x", .group 3 (.plus (.cls .digit))],
    -- /^(.+?)\s+Temporada\s+(\d+)\s+Episodio\s+(\d+)/i
    .cat [.bol, .group 1 (.lazyPlus (.cls .dot)), .plus (.cls .space), .lits "Temporada",
      .plus (.cls .space), .group 2 (.plus (.cls .digit)), .plus (.cls .space),
      .lits "Episodio", .plus (.cls .space), .group 3 (.plus (.cls .digit))],
    -- /^(.+?)\s+T(\d+)E(\d+)/i
    .cat [.bol, .group 1 (.lazyPlus (.cls .dot)), .plus (.cls .space), .lits "T",
      .group 2 (.plus (.cls .digit)), .lits "E", .group 3 (.plus (.cls .digit))] ]

/-- The pattern `/\s+(S\d+|Temporada|\d+x\d+)/i` of the backend fallback. -/
def reSplit : Regex := .cat [.plus (.cls .space), reIndicator 1]

/-- The loop of the backend `organizeSeries` over its patterns; `none` when no pattern
    matches (the three variables stay `undefined`). -/
def seriesLoopBackend (name : Str) : List Regex → Option SeriesInfo
  | [] => none
  | pattern :: rest =>
    match pattern.exec true name with
    | some m =>
      some { seriesName := trim (m.group 1), season := parseInt (m.group 2),
             episode := parseInt (m.group 3) }
    | none => seriesLoopBackend name rest

/-- The first piece of `name.split(re)`: the text before the first match, the whole
    text when there is no match. -/
def splitFirst (re : Regex) (name : Str) : Str :=
  match re.exec true name with
  | some m => m.before
  | none => name

/-- The extraction of series name, season and episode in the backend `organizeSeries`:
    the fallback applies when `seriesName` is `undefined` or empty. -/
def seriesInfoBackend (name : Str) : SeriesInfo :=
  match seriesLoopBackend name seriesPatternsBackend with
  | some info =>
    if truthy info.seriesName then info
    else { seriesName := splitFirst reSplit name, season := 1, episode := 1 }
  | none => { seriesName := splitFirst reSplit name, season := 1, episode := 1 }

/-- An item stored by the backend `organizeSeries`. -/
structure BSeriesItem where
  item : BItem
  episode : Int
  seriesName : Str
  season : Int
  deriving DecidableEq, Repr

/-- The object `{ ...item, episode, seriesName, season }` pushed by the backend
    `organizeSeries` for an item with the name `name`. -/
def toSeriesItemBackend (item : BItem) (name : Str) : BSeriesItem :=
  let info := seriesInfoBackend name
  { item := item, episode := info.episode, seriesName := info.seriesName,
    season := info.season }

/-- The body of the first `forEach` of the backend `organizeSeries`, for an item with
    the name `name`. -/
def addSeriesItemBackend (organized : List (Str × List (Int × List BSeriesItem)))
    (item : BItem) (name : Str) : List (Str × List (Int × List BSeriesItem)) :=
  let info := seriesInfoBackend name
  alterKey info.seriesName []
    (alterKey info.season [] (fun l => l ++ [toSeriesItemBackend item name])) organized

/-- The first `forEach` of the backend `organizeSeries`; `none` when an item has no
    name (`name.match` throws a `TypeError`). -/
def organizeLoopBackend :
    List BItem → List (Str × List (Int × List BSeriesItem)) →
      Option (List (Str × List (Int × List BSeriesItem)))
  | [], organized => some organized
  | item :: rest, organized =>
    match item.name with
    | some name => organizeLoopBackend rest (addSeriesItemBackend organized item name)
    | none => none

/-- `M3UManager.organizeSeries`. -/
def organizeSeriesBackend (seriesItems : List BItem) :
    Option (List (Str × List (Int × List BSeriesItem))) :=
  (organizeLoopBackend seriesItems []).map (fun organized =>
    organized.map
      (fun p => (p.1, p.2.map (fun q => (q.1, sortByEpisode BSeriesItem.episode q.2)))))

/-- The filter of `removeDuplicates`, with the set `seen` as the list of its elements. -/
def removeDuplicatesLoop : List Item → List Str → List Item
  | [], _ => []
  | item :: rest, seen =>
    if seen.contains item.url then removeDuplicatesLoop rest seen
    else item :: removeDuplicatesLoop rest (seen ++ [item.url])

/-- `M3UParser.removeDuplicates`. -/
def removeDuplicates (items : List Item) : List Item := removeDuplicatesLoop items []

/-- Declarative reading of the patterns: `Matches ic r x c y c1` says that `r` can match
    the text between the cursors `x` and `y`, turning the captures `c` into `c1`.  Every
    result of the backtracking matcher is such a match (`run_sound`). -/
inductive Matches (ic : Bool) : Regex → Cursor → Caps → Cursor → Caps → Prop
  | eps (x : Cursor) (c : Caps) : Matches ic .eps x c x c
  | cls (s : CharSet) (p : Option Nat) (u : Nat) (rest : Str) (c : Caps)
      (h : s.test ic u = true) : Matches ic (.cls s) ⟨p, u :: rest⟩ c ⟨some u, rest⟩ c
  | seq {a b : Regex} {x y z : Cursor} {c c1 c2 : Caps} :
      Matches ic a x c y c1 → Matches ic b y c1 z c2 → Matches ic (.seq a b) x c z c2
  | altLeft {a : Regex} (b : Regex) {x y : Cursor} {c c1 : Caps} :
      Matches ic a x c y c1 → Matches ic (.alt a b) x c y c1
  | altRight (a : Regex) {b : Regex} {x y : Cursor} {c c1 : Caps} :
      Matches ic b x c y c1 → Matches ic (.alt a b) x c y c1
  | starStop (r : Regex) (x : Cursor) (c : Caps) : Matches ic (.star r) x c x c
  | starStep {r : Regex} {x y z : Cursor} {c c1 c2 : Caps} :
      Matches ic r x c y c1 → Matches ic (.star r) y c1 z c2 → Matches ic (.star r) x c z c2
  | lazyStop (r : Regex) (x : Cursor) (c : Caps) : Matches ic (.lazyStar r) x c x c
  | lazyStep {r : Regex} {x y z : Cursor} {c c1 c2 : Caps} :
      Matches ic r x c y c1 → Matches ic (.lazyStar r) y c1 z c2 →
        Matches ic (.lazyStar r) x c z c2
  | group (n : Nat) {r : Regex} {x y : Cursor} {c c1 : Caps} :
      Matches ic r x c y c1 →
        Matches ic (.group n r) x c y
          ((n, x.rest.take (x.rest.length - y.rest.length)) :: c1)
  | bol (x : Cursor) (c : Caps) (h : x.prev = none) : Matches ic .bol x c x c
  | eol (x : Cursor) (c : Caps) (h : x.rest = []) : Matches ic .eol x c x c
  | wordB (x : Cursor) (c : Caps) (h : isWordAt x.prev ≠ isWordAt x.rest.head?) :
      Matches ic .wordB x c x c

/-- The property read `o[k]` on a dictionary (`none` for `undefined`). -/
def getKey {κ β : Type} [DecidableEq κ] (k : κ) : List (κ × β) → Option β
  | [] => none
  | (k1, v) :: rest => if k1 = k then some v else getKey k rest

/-- The season list `organized[seriesName][season]`. -/
def seasonList {β : Type} (organized : List (Str × List (Int × List β))) (seriesName : Str)
    (season : Int) : Option (List β) :=
  (getKey seriesName organized).bind (getKey season)

/-- Do the capturing groups 2 and 3 of the pattern capture runs of digits (`(\d+)`)? -/
def digitCaptures : Regex → Bool
  | .group k r =>
    if k = 2 ∨ k = 3 then decide (r = Regex.plus (.cls .digit)) else digitCaptures r
  | .seq a b => digitCaptures a && digitCaptures b
  | .alt a b => digitCaptures a && digitCaptures b
  | .star r => digitCaptures r
  | .lazyStar r => digitCaptures r
  | _ => true

/-- The series items of the input that `parseSeriesInfo` sends to a show and season, in
    the order of the input. -/
def seriesGroup (seriesItems : List Item) (seriesName : Str) (season : Int) :
    List SeriesItem :=
  (seriesItems.map toSeriesItem).filter
    (fun x => decide (x.seriesName = seriesName) && decide (x.season = season))

/-- The method `String.prototype.includes`: does `sub` occur in `s`? -/
def includes (s sub : Str) : Bool := s.tails.any (fun t => sub.isPrefixOf t)

/-- Does the text begin with an optionally signed decimal number (`-?\d`)? -/
def startsWithNumber : Str → Bool
  | [] => false
  | [u] => isDigit u
  | u :: v :: _ => isDigit u || (decide (u = 45) && isDigit v)

/-- Is some occurrence of `#EXTINF:` in the line immediately followed by an optionally
    signed decimal number? -/
def numberAfterMarker (line : Str) : Bool :=
  line.tails.any (fun t =>
    (js "#EXTINF:").isPrefixOf t && startsWithNumber (t.drop (js "#EXTINF:").length))

/-! ## Categories and the backend serializer -/

/-- The object `categories` of `M3UParser.categorize` before the loop. -/
def categorizeInit : List (String × List Item) :=
  [("channels", []), ("movies", []), ("series", []), ("cartoons", []), ("sports", []),
   ("news", []), ("music", []), ("documentaries", []), ("adult", []), ("others", [])]

/-- The body of the `forEach` of `M3UParser.categorize`: the item is pushed on the list
    of its category when `categories[category]` exists, on `others` otherwise. -/
def categorizeStep (toLowerCase : Str → Str) (categories : List (String × List Item))
    (item : Item) : List (String × List Item) :=
  let category := detectCategory toLowerCase item
  match getKey category categories with
  | some _ => alterKey category [] (fun l => l ++ [item]) categories
  | none => alterKey "others" [] (fun l => l ++ [item]) categories

/-- `M3UParser.categorize`. -/
def categorize (toLowerCase : Str → Str) (items : List Item) : List (String × List Item) :=
  items.foldl (categorizeStep toLowerCase) categorizeInit

/-- Truthiness of a property that may be absent. -/
def optTruthy (x : Option Str) : Bool :=
  match x with
  | some s => truthy s
  | none => false

/-- A property in a template literal: `undefined` is written as the text `undefined`. -/
def template (x : Option Str) : Str :=
  match x with
  | some s => s
  | none => js "undefined"

/-- The value of `item.duration || -1` in the backend. -/
def durationOrDefault (duration : Option Int) : Int :=
  match duration with
  | some d => if d = 0 then -1 else d
  | none => -1

/-- The text that `M3UManager.generateM3U` appends for one item. -/
def generateM3UItem (item : BItem) : Str :=
  let m3u := js "#EXTINF:" ++ intToString (durationOrDefault item.duration)
  let m3u := if optTruthy item.tvgId then m3u ++ js " tvg-id=\"" ++ template item.tvgId ++ js "\"" else m3u
  let m3u := if optTruthy item.tvgName then m3u ++ js " tvg-name=\"" ++ template item.tvgName ++ js "\"" else m3u
  let m3u := if optTruthy item.logo then m3u ++ js " tvg-logo=\"" ++ template item.logo ++ js "\"" else m3u
  let m3u := if optTruthy item.group then m3u ++ js " group-title=\"" ++ template item.group ++ js "\"" else m3u
  m3u ++ js "," ++ template item.name ++ js "\n" ++ template item.url ++ js "\n"

/-- `M3UManager.generateM3U`; the title is not used. -/
def generateM3U (items : List BItem) (_title : Str) : Str :=
  items.foldl (fun m3u item => m3u ++ generateM3UItem item) (js "#EXTM3U\n")

/-- The record `categorized` of `M3UManager.categorizeContent`. -/
structure Categorized where
  channels : List BItem
  movies : List BItem
  series : List BItem
  cartoons : List BItem
  deriving DecidableEq, Repr

/-- The property `M3UManager.detectCategory`: the class `M3UManager` declares the static
    methods `parseM3U`, `generateM3U`, `categorizeContent` and `organizeSeries` only, so
    the property read gives `undefined` (`none`). -/
def detectCategoryBackend : Option (BItem → String) := none

/-- The `forEach` of `M3UManager.categorizeContent`.  The call `this.detectCategory(item)`
    throws a `TypeError` when the property is not a function. -/
def categorizeContentLoop : List BItem → Categorized → Except String Categorized
  | [], categorized => .ok categorized
  | item :: rest, categorized =>
    match detectCategoryBackend with
    | none => .error "TypeError: this.detectCategory is not a function"
    | some detectCategory =>
      let category := detectCategory item
      if category = "series" then
        categorizeContentLoop rest { categorized with series := categorized.series ++ [item] }
      else if category = "cartoons" then
        categorizeContentLoop rest { categorized with cartoons := categorized.cartoons ++ [item] }
      else if category = "movies" then
        categorizeContentLoop rest { categorized with movies := categorized.movies ++ [item] }
      else
        categorizeContentLoop rest { categorized with channels := categorized.channels ++ [item] }

/-- `M3UManager.categorizeContent`. -/
def categorizeContent (items : List BItem) : Except String Categorized :=
  categorizeContentLoop items { channels := [], movies := [], series := [], cartoons := [] }

/-- `Array.prototype.join('\n')`: the text whose lines are the given ones. -/
def joinLines : List Str → Str
  | [] => []
  | [l] => l
  | l :: ls => l ++ 10 :: joinLines ls

/-- The text ` key="value"` of one attribute. -/
def renderAttribute (key value : Str) : Str := js " " ++ key ++ js "=\"" ++ value ++ js "\""

/-- The named attribute ` key="value"` as the spec words it: written only if the value
    is not empty. -/
def renderNamed (key : String) (value : Str) : Str :=
  if value = [] then [] else renderAttribute (js key) value

/-- The header line of an item as the spec words it: `#EXTINF:` and the duration (`-1`
    when it is zero), the four named attributes in their order, each only if not empty,
    the extra attributes, a comma and the name. -/
def headerLineSpec (item : Item) : Str :=
  js "#EXTINF:" ++
    numberToString (if item.duration.mant = 0 then Decimal.ofInt (-1) else item.duration) ++
    renderNamed "tvg-id" item.tvgId ++ renderNamed "tvg-name" item.tvgName ++
    renderNamed "tvg-logo" item.logo ++ renderNamed "group-title" item.group ++
    ((objEntries item.attributes).map (fun p => renderAttribute p.1 p.2)).flatten ++
    js "," ++ item.name

/-- Does the pattern contain the capturing group `k`? -/
def hasGroup (k : Nat) : Regex → Bool
  | .group n r => decide (n = k) || hasGroup k r
  | .seq a b => hasGroup k a || hasGroup k b
  | .alt a b => hasGroup k a || hasGroup k b
  | .star r => hasGroup k r
  | .lazyStar r => hasGroup k r
  | _ => false

/-- The least number of code units that a match of the pattern takes. -/
def minLength : Regex → Nat
  | .cls _ => 1
  | .seq a b => minLength a + minLength b
  | .alt a b => min (minLength a) (minLength b)
  | .group _ r => minLength r
  | _ => 0

/-- Has the pattern the form `^(...)tail`, where `tail` takes at least one code unit and
    does not contain the group 1? -/
def capturesPrefix : Regex → Bool
  | .seq .bol (.seq (.group 1 _) tail) => !hasGroup 1 tail && decide (1 ≤ minLength tail)
  | _ => false

/-- What the stored items of the two organizers have in common: the name of the item, and
    the series name, season and episode given to it. -/
def SeriesItem.entry (x : SeriesItem) : Option Str × Str × Int × Int :=
  (some x.item.name, x.seriesName, x.season, x.episode)

/-- The same for a stored item of the backend. -/
def BSeriesItem.entry (x : BSeriesItem) : Option Str × Str × Int × Int :=
  (x.item.name, x.seriesName, x.season, x.episode)

/-- The grouping show → season → entries, each stored item reduced by `entry`. -/
def grouping {β γ : Type} (entry : β → γ) (organized : List (Str × List (Int × List β))) :
    List (Str × List (Int × List γ)) :=
  organized.map (fun p => (p.1, p.2.map (fun q => (q.1, q.2.map entry))))

/-- The fields that the round trip of the named fields is about: name, url, duration,
    tvgId, tvgName, logo and group. -/
def namedFields (item : Item) : Str × Str × Decimal × Str × Str × Str × Str :=
  (item.name, item.url, item.duration, item.tvgId, item.tvgName, item.logo, item.group)

/-- The named attributes that the serializer writes for an item: the ones whose value is
    not empty, in the order of the header line. -/
def namedPairs (item : Item) : List (Str × Str) :=
  [(js "tvg-id", item.tvgId), (js "tvg-name", item.tvgName), (js "tvg-logo", item.logo),
   (js "group-title", item.group)].filter (fun p => !p.2.isEmpty)

/-- A value that can stand between the quotes of an attribute: it holds no double quote,
    no comma, no equals sign and no line feed. -/
@[reducible] def PlainValue (v : Str) : Prop := 34 ∉ v ∧ 44 ∉ v ∧ 61 ∉ v ∧ 10 ∉ v

/-- A well-formed entry.  The name is not empty, has no white space at its ends, no
    double quote and no line terminator; the url starts with `http`, has no white space
    at its ends and no line feed; `tvgId`, `tvgName`, `logo` and `group` are plain values
    and the group is not empty; the duration is an integer other than zero, within the
    range in which a number is an exact integer; there are no extra attributes. -/
@[reducible] def WellFormed (item : Item) : Prop :=
  item.name ≠ [] ∧ trim item.name = item.name ∧ 34 ∉ item.name ∧
  (∀ u ∈ item.name, isLineTerminator u = false) ∧
  startsWith item.url (js "http") = true ∧ trim item.url = item.url ∧ 10 ∉ item.url ∧
  PlainValue item.tvgId ∧ PlainValue item.tvgName ∧ PlainValue item.logo ∧
  PlainValue item.group ∧ item.group ≠ [] ∧
  item.duration.scale = 0 ∧ item.duration.mant ≠ 0 ∧
  item.duration.mant.natAbs < 9007199254740992 ∧
  item.attributes = []

/-- Does the text begin with `S` and a digit (the letter in either case)? -/
def startsWithSeason (t : Str) : Bool :=
  match t with
  | s :: d :: _ => decide (canonicalize true s = 83) && isDigit d
  | _ => false

/-- Does the text begin with the word `Temporada` (the letters in either case)? -/
def startsWithTemporada (t : Str) : Bool :=
  decide ((t.take 9).map (canonicalize true) = (js "Temporada").map (canonicalize true))

/-- Does the text begin with digits, `x` and a digit (the letter in either case)? -/
def startsWithEpisode (t : Str) : Bool :=
  match t, t.dropWhile isDigit with
  | d :: _, x :: e :: _ => isDigit d && decide (canonicalize true x = 88) && isDigit e
  | _, _ => false

/-- Does the text begin with a season indicator: `S<digits>`, `Temporada` or
    `<digits>x<digits>`? -/
def startsWithIndicator (t : Str) : Bool :=
  startsWithSeason t || startsWithTemporada t || startsWithEpisode t

/-- Does the text begin with white space that is followed by a season indicator? -/
def indicatorAhead (t : Str) : Bool :=
  match t with
  | u :: _ => isWhiteSpace u && startsWithIndicator (t.dropWhile isWhiteSpace)
  | [] => false

/-- The text before the first season indicator, as the fallback reads it: the shortest
    prefix of the name that is not empty, holds no line terminator, and is followed by
    white space and a season indicator; `none` when there is no such prefix. -/
def fallbackPrefix : Str → Option Str
  | [] => none
  | u :: rest =>
    if isLineTerminator u then none
    else if indicatorAhead rest then some [u]
    else (fallbackPrefix rest).map (fun w => u :: w)

/-! ## Objects and the prototype chain

`organizeSeries` keeps its result in plain objects, and a read `o[k]` looks the property
up on the object and then along its prototype chain.  The heap below holds the objects
that these reads and the writes `o[k] = v` can reach: `Object.prototype` with its built-in
functions, `Function.prototype`, `Array.prototype`, and the objects, arrays and entries
that the code creates.  Every property value that occurs is an object, so a value is the
address of an object, or `none` for `undefined`. -/

/-- The kinds of objects: plain objects, arrays, built-in functions, and the entries
    `{ ...item, seriesName, season, episode, sortOrder }` that `organizeSeries` pushes. -/
inductive ObjKind
  | plain
  | array
  | function
  | entry (x : SeriesItem)
  deriving DecidableEq, Repr

/-- An object: its kind, its prototype, its own properties in the order of creation and,
    for an array, its length.  Of a built-in function, of `Function.prototype`, of
    `Array.prototype` and of an entry only the properties that the code adds are listed:
    their other properties have names that are not numerals, and `organizeSeries` reads
    these objects with the numeral of a season only. -/
structure Obj where
  kind : ObjKind
  proto : Option Nat
  props : List (Str × Nat)
  length : Nat
  deriving DecidableEq, Repr

/-- The heap: the object at address `a` is the element `a` of the list. -/
abbrev Heap := List Obj

/-- The function-valued properties of `Object.prototype`. -/
def objectPrototypeFunctions : List String :=
  ["constructor", "__defineGetter__", "__defineSetter__", "hasOwnProperty",
   "__lookupGetter__", "__lookupSetter__", "isPrototypeOf", "propertyIsEnumerable",
   "toString", "valueOf", "toLocaleString"]

/-- The heap before the program has written to it: `Object.prototype` at address 0,
    `Function.prototype` at 1, `Array.prototype` at 2, and from address 3 on the functions
    that are the values of the properties of `Object.prototype`. -/
def freshHeap : Heap :=
  [ Obj.mk .plain none ((objectPrototypeFunctions.enumFrom 3).map (fun p => (js p.2, p.1))) 0,
    Obj.mk .function (some 0) [] 0,
    Obj.mk .array (some 0) [] 0 ] ++
  objectPrototypeFunctions.map (fun _ => Obj.mk .function (some 1) [] 0)

/-- The own property `k` of an object. -/
def ownProp (o : Obj) (k : Str) : Option Nat :=
  (o.props.find? (fun p => p.1 = k)).map Prod.snd

/-- The read `receiver[k]` from the object at address `a` of the prototype chain on:
    the own property if there is one, else the accessor `__proto__` of
    `Object.prototype`, which returns the prototype of the receiver (`null` is written
    `none`, it is falsy like `undefined`), else the prototype.  The first argument bounds
    the length of the chain. -/
def getFrom (h : Heap) (receiver : Nat) (k : Str) : Nat → Nat → Option Nat
  | 0, _ => none
  | fuel + 1, a =>
    match h[a]? with
    | none => none
    | some o =>
      match ownProp o k with
      | some v => some v
      | none =>
        if a = 0 ∧ k = js "__proto__" then (h[receiver]?).bind (fun r => r.proto)
        else
          match o.proto with
          | some p => getFrom h receiver k fuel p
          | none => none

/-- The read `o[k]` on the object at address `a`. -/
def getProp (h : Heap) (a : Nat) (k : Str) : Option Nat := getFrom h a k (h.length + 1) a

/-- The object after the assignment of an own property: the value of an existing
    property is replaced, a new property comes last, and the length of an array grows
    with an array index. -/
def Obj.assign (o : Obj) (k : Str) (v : Nat) : Obj :=
  Obj.mk o.kind o.proto
    (if o.props.any (fun p => p.1 = k) then o.props.map (fun p => if p.1 = k then (k, v) else p)
     else o.props ++ [(k, v)])
    (if o.kind = .array ∧ isArrayIndex k = true then max o.length (parseDigits k + 1)
     else o.length)

/-- The write `o[k] = v` on the object at address `a`, for an object `v`.  The code
    writes only after the read `o[k]` gave `undefined`, so no property `k` lies on the
    prototype chain and the write creates an own property. -/
def setProp (h : Heap) (a : Nat) (k : Str) (v : Nat) : Heap :=
  match h[a]? with
  | some o => h.set a (o.assign k v)
  | none => h

/-- The call `target.push(v)`: on an array the value becomes the element at the index
    `length`; any other object that the code can reach has no method `push`, and the call
    throws. -/
def push (h : Heap) (target v : Nat) : Except String Heap :=
  match h[target]? with
  | some o =>
    if o.kind = .array then
      .ok (h.set target (Obj.mk o.kind o.proto (o.props ++ [(natToString o.length, v)])
        (o.length + 1)))
    else .error "TypeError: organized[seriesName][season].push is not a function"
  | none => .error "TypeError: organized[seriesName][season].push is not a function"

/-- The own properties in the order of `Object.keys`: array indices in ascending order,
    then the other keys in the order of creation. -/
def ownEntries {β : Type} (props : List (Str × β)) : List (Str × β) :=
  (props.filter (fun p => isArrayIndex p.1)).insertionSort
      (fun p q => parseDigits p.1 ≤ parseDigits q.1) ++
    props.filter (fun p => !isArrayIndex p.1)

/-- The body of the first `forEach` of `M3UParser.organizeSeries`, on the heap; the key
    of a season is the numeral of the number. -/
def organizeStepHeap (organized : Nat) (h : Heap) (item : Item) : Except String Heap :=
  let seriesInfo := parseSeriesInfo item.name
  let season := intToString seriesInfo.season
  let h :=
    match getProp h organized seriesInfo.seriesName with
    | some _ => h
    | none =>
      setProp (h ++ [Obj.mk .plain (some 0) [] 0]) organized seriesInfo.seriesName h.length
  match getProp h organized seriesInfo.seriesName with
  | none => .error "TypeError: Cannot read properties of undefined"
  | some seasons =>
    let h :=
      match getProp h seasons season with
      | some _ => h
      | none => setProp (h ++ [Obj.mk .array (some 2) [] 0]) seasons season h.length
    match getProp h seasons season with
    | none => .error "TypeError: Cannot read properties of undefined (reading 'push')"
    | some list =>
      push (h ++ [Obj.mk (.entry (toSeriesItem item)) (some 0) [] 0]) list h.length

/-- The first `forEach` of `M3UParser.organizeSeries`, on the heap. -/
def organizeLoopHeap (organized : Nat) : List Item → Heap → Except String Heap
  | [], h => .ok h
  | item :: rest, h =>
    match organizeStepHeap organized h item with
    | .ok h1 => organizeLoopHeap organized rest h1
    | .error e => .error e

/-- The entry at an address, if the object there is an entry. -/
def entryAt (h : Heap) (a : Nat) : Option SeriesItem :=
  match h[a]? with
  | some o =>
    match o.kind with
    | .entry x => some x
    | _ => none
  | none => none

/-- The elements of an array, in the order of their indices. -/
def arrayElements (o : Obj) : List Nat :=
  ((ownEntries o.props).filter (fun p => isArrayIndex p.1)).map Prod.snd

/-- The call `list.sort((a, b) => a.episode - b.episode)` on the array at an address:
    the elements are put in the stable order of their episodes.  On an object that is not
    an array the call throws; with an element that is not an entry the comparator is not
    consistent and the language leaves the order to the implementation. -/
def sortArray (h : Heap) (a : Nat) : Except String Heap :=
  match h[a]? with
  | some o =>
    if o.kind = .array then
      if (arrayElements o).all (fun r => (entryAt h r).isSome) then
        .ok (h.set a (Obj.mk o.kind o.proto
          (((sortByEpisode (fun r => ((entryAt h r).map (fun x => x.episode)).getD 0)
              (arrayElements o)).enum.map (fun p => (natToString p.1, p.2))) ++
            o.props.filter (fun p => !isArrayIndex p.1))
          o.length))
      else .error "the order of sort is implementation-defined"
    else .error "TypeError: organized[seriesName][season].sort is not a function"
  | none => .error "TypeError: organized[seriesName][season].sort is not a function"

/-- The own properties of the object at an address, in the order of `Object.keys`. -/
def ownEntriesAt (h : Heap) (a : Nat) : List (Str × Nat) :=
  match h[a]? with
  | some o => ownEntries o.props
  | none => []

/-- The values `organized[seriesName][season]` that the second loop of `organizeSeries`
    visits: for each own key of `organized` and each own key of its value. -/
def seasonLists (h : Heap) (organized : Nat) : List Nat :=
  ((ownEntriesAt h organized).map
    (fun p => (ownEntriesAt h p.2).map Prod.snd)).flatten

/-- The second loop of `M3UParser.organizeSeries`: every season list is sorted. -/
def sortLoopHeap : List Nat → Heap → Except String Heap
  | [], h => .ok h
  | a :: rest, h =>
    match sortArray h a with
    | .ok h1 => sortLoopHeap rest h1
    | .error e => .error e

/-- `M3UParser.organizeSeries` on the heap: the address of the object `organized` that
    the call returns, and the heap that it leaves. -/
def organizeSeriesHeap (h : Heap) (seriesItems : List Item) : Except String (Nat × Heap) :=
  match organizeLoopHeap h.length seriesItems (h ++ [Obj.mk .plain (some 0) [] 0]) with
  | .error e => .error e
  | .ok h1 =>
    match sortLoopHeap (seasonLists h1 h.length) h1 with
    | .error e => .error e
    | .ok h2 => .ok (h.length, h2)

/-- The entries that the array at an address holds, in the order of their indices. -/
def entriesAt (h : Heap) (a : Nat) : List SeriesItem :=
  match h[a]? with
  | some o => (arrayElements o).filterMap (entryAt h)
  | none => []

/-- The object at an address read as a dictionary show → season → entries, in the order
    in which `Object.keys` walks it. -/
def readOrganized (h : Heap) (organized : Nat) : List (Str × List (Str × List SeriesItem)) :=
  (ownEntriesAt h organized).map
    (fun p => (p.1, (ownEntriesAt h p.2).map (fun q => (q.1, entriesAt h q.2))))

/-- The result of `organizeSeries` in the heap before the program has written to it, read
    as a dictionary; `none` when the call throws. -/
def organizeSeriesResult (seriesItems : List Item) :
    Option (List (Str × List (Str × List SeriesItem))) :=
  match organizeSeriesHeap freshHeap seriesItems with
  | .ok r => some (readOrganized r.2 r.1)
  | .error _ => none

/-- The flattening of the route `generate-m3u`,
    `items.push(...series[seriesName][season])` over `Object.keys`, with each entry as the
    item it holds. -/
def flattenOrganized (organized : List (Str × List (Str × List SeriesItem))) : List Item :=
  ((organized.map (fun p => (p.2.map (fun q => q.2.map SeriesItem.item)).flatten)).flatten)

/-! ## Items used in the examples -/

/-- An item with the given name and group, and every other field at the default of
    `parseEXTINF`. -/
def itemNamed (name group : String) : Item :=
  { duration := Decimal.ofInt (-1), tvgId := [], tvgName := [], logo := [],
    group := js group, name := js name, url := [], attributes := [], id := none }

/-- The nine categories. -/
def categories : List String :=
  ["movies", "series", "cartoons", "sports", "news", "music", "documentaries", "adult",
   "channels"]

/-- The year pattern `/\b(19|20)\d{2}\b/` of the category `movies`. -/
def reYear : Regex :=
  .cat [.wordB, .group 1 (.alt (.lits "19") (.lits "20")), .cls .digit, .cls .digit, .wordB]

/-- The episode patterns `/\bs\d+e\d+\b/` and `/\b\d+x\d+\b/` of the category `series`. -/
def reEpisode : List Regex :=
  [.cat [.wordB, .lits "s", .plus (.cls .digit), .lits "e", .plus (.cls .digit), .wordB],
   .cat [.wordB, .plus (.cls .digit), .lits "x", .plus (.cls .digit), .wordB]]

/-- The code unit before the cursor once the text `w` has been passed. -/
def prevAfter (p : Option Nat) (w : Str) : Option Nat :=
  match w.getLast? with
  | some u => some u
  | none => p

/-! ## The classifier -/

/-- The category loop returns the first entry of the table with a matching pattern. -/
theorem detectLoop_spec (combined : Str) (table : List (String × List Regex)) :
    (∃ before category pats after,
        table = before ++ (category, pats) :: after ∧
        (∀ q ∈ before, ∀ p ∈ q.2, p.test false combined = false) ∧
        (∃ p ∈ pats, p.test false combined = true) ∧
        detectLoop combined table = category) ∨
    ((∀ q ∈ table, ∀ p ∈ q.2, p.test false combined = false) ∧
        detectLoop combined table = "channels") := by
  induction table with
  | nil => right; simp [detectLoop]
  | cons q rest ih =>
    obtain ⟨category, pats⟩ := q
    by_cases h : pats.any (fun pattern => pattern.test false combined) = true
    · left
      refine ⟨[], category, pats, rest, rfl, by simp, ?_, by simp [detectLoop, h]⟩
      obtain ⟨p, hp, hpt⟩ := List.any_eq_true.mp h
      exact ⟨p, hp, hpt⟩
    · have hnone : ∀ p ∈ pats, p.test false combined = false := by
        intro p hp
        by_contra hc
        exact h (List.any_eq_true.mpr ⟨p, hp, by simpa using hc⟩)
      have hstep : detectLoop combined ((category, pats) :: rest) = detectLoop combined rest := by
        simp only [detectLoop]
        rw [if_neg h]
      rcases ih with ⟨before, c, ps, after, htab, hbefore, hmatch, hres⟩ | ⟨hall, hres⟩
      · left
        refine ⟨(category, pats) :: before, c, ps, after, by simp [htab], ?_, hmatch, by rw [hstep, hres]⟩
        intro q hq
        rcases List.mem_cons.mp hq with rfl | hq
        · exact hnone
        · exact hbefore q hq
      · right
        refine ⟨?_, by rw [hstep, hres]⟩
        intro q hq
        rcases List.mem_cons.mp hq with rfl | hq
        · exact hnone
        · exact hall q hq

/-- A pattern of the first category that matches decides the result. -/
theorem detectLoop_head (combined : Str) (category : String) (pats : List Regex)
    (rest : List (String × List Regex)) (p : Regex) (hp : p ∈ pats)
    (hm : p.test false combined = true) :
    detectLoop combined ((category, pats) :: rest) = category := by
  have : pats.any (fun pattern => pattern.test false combined) = true :=
    List.any_eq_true.mpr ⟨p, hp, hm⟩
  simp [detectLoop, this]

/-- C3: `detectCategory` returns the first category, in the order movies, series,
    cartoons, sports, news, music, documentaries, adult, one of whose patterns matches the
    lower-cased text `name group`, and `channels` when no category matches; the result is
    one of the nine categories; `The Matrix 1999 HD` in group `Outros` gives `movies`. -/
theorem detectCategory_first_match (toLowerCase : Str → Str) (item : Item) :
    patterns.map Prod.fst =
        ["movies", "series", "cartoons", "sports", "news", "music", "documentaries", "adult"] ∧
    ((∃ before category pats after,
        patterns = before ++ (category, pats) :: after ∧
        (∀ q ∈ before, ∀ p ∈ q.2,
          p.test false (toLowerCase item.name ++ js " " ++ toLowerCase item.group) = false) ∧
        (∃ p ∈ pats,
          p.test false (toLowerCase item.name ++ js " " ++ toLowerCase item.group) = true) ∧
        detectCategory toLowerCase item = category) ∨
      ((∀ q ∈ patterns, ∀ p ∈ q.2,
          p.test false (toLowerCase item.name ++ js " " ++ toLowerCase item.group) = false) ∧
        detectCategory toLowerCase item = "channels")) ∧
    detectCategory toLowerCase item ∈ categories ∧
    detectCategory asciiLowerCase (itemNamed "The Matrix 1999 HD" "Outros") = "movies" := by
  have hkeys : patterns.map Prod.fst =
      ["movies", "series", "cartoons", "sports", "news", "music", "documentaries", "adult"] := rfl
  have hspec := detectLoop_spec
    (toLowerCase item.name ++ js " " ++ toLowerCase item.group) patterns
  refine ⟨hkeys, hspec, ?_, by decide!⟩
  rcases hspec with ⟨before, c, ps, after, htab, -, -, hres⟩ | ⟨-, hres⟩
  · have hc : c ∈ patterns.map Prod.fst := by
      rw [htab]; simp
    have hres2 : detectCategory toLowerCase item = c := hres
    rw [hres2]
    rw [hkeys] at hc
    simp only [categories]
    simp only [List.mem_cons] at hc ⊢
    tauto
  · have hres2 : detectCategory toLowerCase item = "channels" := hres
    rw [hres2]
    simp [categories]

/-- C2 (as the code has it): the category `movies` is checked before `series`, so an
    entry whose lower-cased text matches the year pattern is classified `movies` also when
    an episode pattern matches it; the episode pattern would give `series` only if the
    `movies` entry of the table were skipped. -/
theorem detectCategory_year_before_episode (toLowerCase : Str → Str) (item : Item)
    (hyear : reYear.test false
      (toLowerCase item.name ++ js " " ++ toLowerCase item.group) = true)
    (hepisode : ∃ p ∈ reEpisode,
      p.test false (toLowerCase item.name ++ js " " ++ toLowerCase item.group) = true) :
    detectCategory toLowerCase item = "movies" ∧
    detectLoop (toLowerCase item.name ++ js " " ++ toLowerCase item.group)
      (patterns.drop 1) = "series" := by
  constructor
  · exact detectLoop_head _ _ _ _ reYear
      (List.mem_cons_of_mem _ (List.mem_cons_of_mem _ (List.mem_cons_of_mem _
        (List.mem_cons_self _ _)))) hyear
  · obtain ⟨p, hp, hm⟩ := hepisode
    refine detectLoop_head _ _ _ _ p ?_ hm
    simp only [reEpisode, List.mem_cons, List.mem_singleton, List.not_mem_nil, or_false] at hp
    rcases hp with rfl | rfl
    · exact List.mem_cons_of_mem _ (List.mem_cons_of_mem _ (List.mem_cons_self _ _))
    · exact List.mem_cons_of_mem _ (List.mem_cons_of_mem _ (List.mem_cons_of_mem _
        (List.mem_cons_of_mem _ (List.mem_cons_of_mem _ (List.mem_cons_of_mem _
          (List.mem_cons_self _ _))))))

/-- Witness of C2 as amended: `Um Drama 1999 3x07`. -/
theorem detectCategory_year_before_episode_witness :
    detectCategory asciiLowerCase (itemNamed "Um Drama 1999 3x07" "Outros") = "movies" ∧
    detectLoop (asciiLowerCase (itemNamed "Um Drama 1999 3x07" "Outros").name ++ js " " ++
        asciiLowerCase (itemNamed "Um Drama 1999 3x07" "Outros").group)
      (patterns.drop 1) = "series" :=
  detectCategory_year_before_episode asciiLowerCase (itemNamed "Um Drama 1999 3x07" "Outros")
    (by decide!)
    ⟨_, List.mem_cons_of_mem _ (List.mem_cons_self _ _), by decide!⟩

/-- C2, counterexample: the name `Show 2020 S01E02` (group `Outros`) carries the episode
    marker `S01E02` and the year marker `2020`, and is classified `movies`, not `series`. -/
theorem detectCategory_episode_and_year_counterexample :
    reYear.test false (js "show 2020 s01e02") = true ∧
    (∃ p ∈ reEpisode, p.test false (js "show 2020 s01e02") = true) ∧
    detectCategory asciiLowerCase (itemNamed "Show 2020 S01E02" "Outros") = "movies" ∧
    detectCategory asciiLowerCase (itemNamed "Show 2020 S01E02" "Outros") ≠ "series" := by
  refine ⟨by decide!, ⟨_, List.mem_cons_self _ _, by decide!⟩, by decide!, by decide!⟩

/-- C4 (as the code has it): the entry of Example 1, name `CNN HD` and group `News`, is
    classified `movies`: its text matches the `movies` pattern `/\bhd\b/`, and `movies` is
    checked before `news`, whose pattern `/\bnews\b/` matches too. -/
theorem detectCategory_example1 (toLowerCase : Str → Str)
    (hname : toLowerCase (js "CNN HD") = js "cnn hd")
    (hgroup : toLowerCase (js "News") = js "news") :
    detectCategory toLowerCase (itemNamed "CNN HD" "News") = "movies" ∧
    (reWord "hd").test false (js "cnn hd news") = true ∧
    (reWord "news").test false (js "cnn hd news") = true := by
  refine ⟨?_, by decide!, by decide!⟩
  have h : detectCategory toLowerCase (itemNamed "CNN HD" "News") =
      detectLoop (toLowerCase (js "CNN HD") ++ js " " ++ toLowerCase (js "News")) patterns := rfl
  rw [h, hname, hgroup]
  decide!

/-- Witness of C4 as amended, with the ASCII case mapping. -/
theorem detectCategory_example1_witness :
    detectCategory asciiLowerCase (itemNamed "CNN HD" "News") = "movies" ∧
    (reWord "hd").test false (js "cnn hd news") = true ∧
    (reWord "news").test false (js "cnn hd news") = true :=
  detectCategory_example1 asciiLowerCase (by decide!) (by decide!)

/-- C4, counterexample: the entry of Example 1 is not classified `news`. -/
theorem detectCategory_example1_counterexample :
    detectCategory asciiLowerCase (itemNamed "CNN HD" "News") ≠ "news" := by
  decide!

/-! ## The parser -/

/-- C5: the text of Example 1 parses to exactly one entry, with name `CNN HD`, url
    `http://stream/cnn`, group `News`, logo `http://x/l.png` and duration `-1`. -/
theorem parse_example1 :
    (parse (js
        "#EXTM3U\n#EXTINF:-1 tvg-logo=\"http://x/l.png\" group-title=\"News\",CNN HD\nhttp://stream/cnn")).map
      (fun e => (e.name, e.url, e.group, e.logo, e.duration)) =
    [(js "CNN HD", js "http://stream/cnn", js "News", js "http://x/l.png",
      Decimal.ofInt (-1))] := by
  decide!

/-! ## Constants and strings -/

theorem js_extinf : js "#EXTINF:" = [35, 69, 88, 84, 73, 78, 70, 58] := by decide!

theorem js_http : js "http" = [104, 116, 116, 112] := by decide!

theorem js_newline : js "\n" = [10] := by decide!

/-- A text without the separator is one piece. -/
theorem split_of_not_mem (sep : Nat) (l : Str) (h : sep ∉ l) : split sep l = [l] := by
  induction l with
  | nil => rfl
  | cons c cs ih =>
    have hc : c ≠ sep := fun e => h (by simp [e])
    have hcs : sep ∉ cs := fun e => h (List.mem_cons_of_mem _ e)
    simp [split, hc, ih hcs]

/-- Splitting at the first separator. -/
theorem split_append (sep : Nat) (l r : Str) (h : sep ∉ l) :
    split sep (l ++ sep :: r) = l :: split sep r := by
  induction l with
  | nil => simp [split]
  | cons c cs ih =>
    have hc : c ≠ sep := fun e => h (by simp [e])
    have hcs : sep ∉ cs := fun e => h (List.mem_cons_of_mem _ e)
    simp [split, hc, ih hcs]

/-- Dropping at the right keeps a prefix that ends outside the dropped set. -/
theorem prefix_rdropWhile (p : Nat → Bool) (a r : Str) (ha : ∀ x ∈ a.getLast?, p x = false) :
    a <+: (a ++ r).rdropWhile p := by
  induction r using List.reverseRecOn with
  | nil =>
    have : a.rdropWhile p = a := by
      rw [List.rdropWhile_eq_self_iff]
      intro hne
      have := ha (a.getLast hne) (by simp [List.getLast?_eq_getLast _ hne])
      simp [this]
    simp [this]
  | append_singleton r x ih =>
    rw [← List.append_assoc, List.rdropWhile_concat]
    split
    · exact ih
    · exact ⟨r ++ [x], by simp⟩

/-- Trimming keeps a prefix that begins and ends with characters that are not white
    space. -/
theorem startsWith_trim (s p : Str) (h : startsWith s p = true)
    (hfirst : ∀ x ∈ p.head?, isWhiteSpace x = false)
    (hlast : ∀ x ∈ p.getLast?, isWhiteSpace x = false) (hne : p ≠ []) :
    startsWith (trim s) p = true := by
  simp only [startsWith, List.isPrefixOf_iff_prefix] at h ⊢
  obtain ⟨r, rfl⟩ := h
  cases p with
  | nil => exact absurd rfl hne
  | cons c cs =>
    have hc : isWhiteSpace c = false := hfirst c (by simp)
    have : (c :: cs ++ r).dropWhile isWhiteSpace = c :: cs ++ r := by
      simp [List.dropWhile, hc]
    rw [trim, this]
    exact prefix_rdropWhile _ _ _ hlast

/-- A line that starts with `http` is not blank and is not a header. -/
theorem http_line (u : Str) (hu : startsWith u (js "http") = true) :
    startsWith (trim u) (js "http") = true ∧ truthy (trim u) = true ∧
      startsWith (trim u) (js "#EXTINF:") = false := by
  have h1 : startsWith (trim u) (js "http") = true :=
    startsWith_trim u _ hu (by rw [js_http]; decide) (by rw [js_http]; decide)
      (by rw [js_http]; decide)
  refine ⟨h1, ?_, ?_⟩
  · rw [js_http] at h1
    simp only [startsWith, List.isPrefixOf_iff_prefix] at h1
    obtain ⟨r, hr⟩ := h1
    rw [← hr]; rfl
  · rw [js_http] at h1
    simp only [startsWith, List.isPrefixOf_iff_prefix] at h1
    obtain ⟨r, hr⟩ := h1
    rw [← hr, js_extinf]; rfl

/-- A header line is not blank. -/
theorem header_line (l : Str) (h : startsWith l (js "#EXTINF:") = true) :
    truthy l = true := by
  rw [js_extinf] at h
  simp only [startsWith, List.isPrefixOf_iff_prefix] at h
  obtain ⟨r, hr⟩ := h
  rw [← hr]; rfl

theorem parseLoop_cons (l : Str) (ls : List Str) (cur : Option Item) (items : List Item) :
    parseLoop (l :: ls) cur items =
      if startsWith (trim l) (js "#EXTINF:") then
        parseLoop ls (some (parseEXTINF (trim l))) items
      else if startsWith (trim l) (js "http") && hasName cur then
        match cur with
        | some item => parseLoop ls none (items ++ [completeItem item (trim l)])
        | none => parseLoop ls cur items
      else parseLoop ls cur items := by
  cases cur <;> rfl

/-- Every item pushed by the loop satisfies what holds of a named item completed by a
    URL line. -/
theorem parseLoop_invariant (P : Item → Prop)
    (hP : ∀ (item : Item) (line : Str), item.name ≠ [] → startsWith line (js "http") = true →
      P (completeItem item line))
    (ls : List Str) : ∀ (cur : Option Item) (items : List Item),
      (∀ e ∈ items, P e) → ∀ e ∈ parseLoop ls cur items, P e := by
  induction ls with
  | nil => intro cur items h e he; exact h e (by simpa [parseLoop] using he)
  | cons l ls ih =>
    intro cur items h e he
    rw [parseLoop_cons] at he
    split at he
    · exact ih _ _ h e he
    · split at he
      · rename_i hc
        cases cur with
        | none => exact ih _ _ h e he
        | some item =>
          simp only at he
          refine ih _ _ ?_ e he
          intro e1 he1
          rcases List.mem_append.mp he1 with h1 | h1
          · exact h e1 h1
          · simp only [List.mem_singleton] at h1
            subst h1
            simp only [Bool.and_eq_true] at hc
            refine hP item _ ?_ hc.1
            have := hc.2
            simp only [hasName, truthy, Bool.not_eq_true', List.isEmpty_eq_false] at this
            simpa using this
      · exact ih _ _ h e he

/-- C6: every entry returned by `parse` has a non-empty name and a non-empty url. -/
theorem parse_entries_have_name_and_url (content : Str) :
    ∀ e ∈ parse content, e.name ≠ [] ∧ e.url ≠ [] := by
  intro e he
  refine parseLoop_invariant (fun e => e.name ≠ [] ∧ e.url ≠ []) ?_ _ none [] (by simp) e he
  intro item line hname hline
  refine ⟨hname, ?_⟩
  show line ≠ []
  intro h
  subst h
  revert hline
  decide!

/-- Witness of C6: the entry read from the text `#EXTINF:-1,A` / `http://a`. -/
theorem parse_entries_have_name_and_url_witness :
    completeItem (parseEXTINF (js "#EXTINF:-1,A")) (js "http://a") ∈
        parse (js "#EXTM3U\n#EXTINF:-1,A\nhttp://a") ∧
      (completeItem (parseEXTINF (js "#EXTINF:-1,A")) (js "http://a")).name ≠ [] ∧
      (completeItem (parseEXTINF (js "#EXTINF:-1,A")) (js "http://a")).url ≠ [] :=
  ⟨by decide!, parse_entries_have_name_and_url (js "#EXTM3U\n#EXTINF:-1,A\nhttp://a") _
    (by decide!)⟩

/-- C7: last header wins.  For header lines `h1` and `h2` (lines that start with
    `#EXTINF:` once trimmed), the name read from `h2` being non-empty, and a line `u` that
    starts with `http`, the text `h1`, `h2`, `u` (one per line) parses to exactly one
    entry: the one read from `h2`, with the trimmed `u` as url.  The two headers without
    the URL line give no entry. -/
theorem parse_last_header_wins (h1 h2 u : Str)
    (hn1 : 10 ∉ h1) (hn2 : 10 ∉ h2) (hnu : 10 ∉ u)
    (hh1 : startsWith (trim h1) (js "#EXTINF:") = true)
    (hh2 : startsWith (trim h2) (js "#EXTINF:") = true)
    (hname : (parseEXTINF (trim h2)).name ≠ [])
    (hu : startsWith u (js "http") = true) :
    parse (h1 ++ js "\n" ++ h2 ++ js "\n" ++ u) =
        [completeItem (parseEXTINF (trim h2)) (trim u)] ∧
    (completeItem (parseEXTINF (trim h2)) (trim u)).name = (parseEXTINF (trim h2)).name ∧
    (completeItem (parseEXTINF (trim h2)) (trim u)).attributes =
        (parseEXTINF (trim h2)).attributes ∧
    (completeItem (parseEXTINF (trim h2)) (trim u)).url = trim u ∧
    parse (h1 ++ js "\n" ++ h2) = [] := by
  obtain ⟨hu1, hu2, hu3⟩ := http_line u hu
  have hb1 := header_line _ hh1
  have hb2 := header_line _ hh2
  have hnm : hasName (some (parseEXTINF (trim h2))) = true := by
    simp only [hasName, truthy, Bool.not_eq_true', List.isEmpty_eq_false]
    simpa using hname
  refine ⟨?_, rfl, rfl, rfl, ?_⟩
  · have hs : split 10 (h1 ++ js "\n" ++ h2 ++ js "\n" ++ u) = [h1, h2, u] := by
      rw [js_newline]
      simp only [List.append_assoc, List.singleton_append, List.cons_append, List.nil_append]
      rw [split_append 10 h1 _ hn1, split_append 10 h2 _ hn2, split_of_not_mem 10 u hnu]
    simp only [parse, hs, List.filter, hb1, hb2, hu2]
    rw [parseLoop_cons, if_pos hh1, parseLoop_cons, if_pos hh2, parseLoop_cons]
    simp [hu3, hu1, hnm, parseLoop]
  · have hs : split 10 (h1 ++ js "\n" ++ h2) = [h1, h2] := by
      rw [js_newline]
      simp only [List.append_assoc, List.singleton_append, List.cons_append, List.nil_append]
      rw [split_append 10 h1 _ hn1, split_of_not_mem 10 h2 hn2]
    simp only [parse, hs, List.filter, hb1, hb2]
    rw [parseLoop_cons, if_pos hh1, parseLoop_cons, if_pos hh2]
    rfl

/-- Witness of C7: two headers and one URL line. -/
theorem parse_last_header_wins_witness :
    parse (js "#EXTINF:-1,First" ++ js "\n" ++ js "#EXTINF:-1 tvg-id=\"b\",Second" ++ js "\n" ++
        js "http://host/b") =
        [completeItem (parseEXTINF (trim (js "#EXTINF:-1 tvg-id=\"b\",Second")))
          (trim (js "http://host/b"))] ∧
    (completeItem (parseEXTINF (trim (js "#EXTINF:-1 tvg-id=\"b\",Second")))
        (trim (js "http://host/b"))).name =
      (parseEXTINF (trim (js "#EXTINF:-1 tvg-id=\"b\",Second"))).name ∧
    (completeItem (parseEXTINF (trim (js "#EXTINF:-1 tvg-id=\"b\",Second")))
        (trim (js "http://host/b"))).attributes =
      (parseEXTINF (trim (js "#EXTINF:-1 tvg-id=\"b\",Second"))).attributes ∧
    (completeItem (parseEXTINF (trim (js "#EXTINF:-1 tvg-id=\"b\",Second")))
        (trim (js "http://host/b"))).url = trim (js "http://host/b") ∧
    parse (js "#EXTINF:-1,First" ++ js "\n" ++ js "#EXTINF:-1 tvg-id=\"b\",Second") = [] :=
  parse_last_header_wins (js "#EXTINF:-1,First") (js "#EXTINF:-1 tvg-id=\"b\",Second")
    (js "http://host/b") (by decide!) (by decide!) (by decide!) (by decide!) (by decide!)
    (by decide!) (by decide!)


/-- C8, failing input: a URL line with no header before it.  The backend parser emits an
    entry for it, and the entry has no name. -/
theorem parseM3U_url_without_header :
    parseM3U (js "#EXTM3U\nhttp://stream/a") =
      [{ BItem.empty with url := some (js "http://stream/a") }] ∧
    (∃ e ∈ parseM3U (js "#EXTM3U\nhttp://stream/a"), e.name = none) ∧
    parse (js "#EXTM3U\nhttp://stream/a") = [] := by
  refine ⟨by decide!,
    ⟨{ BItem.empty with url := some (js "http://stream/a") }, by decide!, rfl⟩, by decide!⟩

/-- C10, failing input: a line whose only attribute is `tvg-id="abc"`.  The pattern
    `(\w+)="([^"]*)"` matches `id="abc"` (the hyphen is not a word character), the key
    `id` is not in the list of named attributes, and the attributes map gets `id`. -/
theorem parseEXTINF_named_attribute_leaks :
    (parseEXTINF (js "#EXTINF:-1 tvg-id=\"abc\",X")).attributes = [(js "id", js "abc")] ∧
    reCustom.matchAll false (js "#EXTINF:-1 tvg-id=\"abc\",X") = some [js "id=\"abc\""] := by
  refine ⟨by decide!, by decide!⟩

/-- C9, counterexample: on `#EXTINF:-1,Show, The` the name is `Show, The`, the text after
    the first comma, and not `The`, the text after the last comma. -/
theorem parseEXTINF_name_counterexample :
    (parseEXTINF (js "#EXTINF:-1,Show, The")).name = js "Show, The" ∧
    (parseEXTINF (js "#EXTINF:-1,Show, The")).name ≠ js "The" := by
  refine ⟨by decide!, by decide!⟩

/-! ## The matcher -/

theorem run_cat_cons {α : Type} (ic : Bool) (r : Regex) (rs : List Regex) (x : Cursor)
    (c : Caps) (k : Cursor → Caps → Option α) :
    (Regex.cat (r :: rs)).run ic x c k =
      r.run ic x c (fun y c1 => (Regex.cat rs).run ic y c1 k) := by
  cases rs with
  | nil => rfl
  | cons r2 rs => rfl

theorem run_cls_cons {α : Type} (ic : Bool) (s : CharSet) (p : Option Nat) (u : Nat)
    (rest : Str) (c : Caps) (k : Cursor → Caps → Option α) :
    (Regex.cls s).run ic ⟨p, u :: rest⟩ c k =
      if s.test ic u then k ⟨some u, rest⟩ c else none := rfl

theorem run_cls_nil {α : Type} (ic : Bool) (s : CharSet) (p : Option Nat)
    (c : Caps) (k : Cursor → Caps → Option α) :
    (Regex.cls s).run ic ⟨p, []⟩ c k = none := rfl

theorem prevAfter_nil (p : Option Nat) : prevAfter p [] = p := rfl

theorem prevAfter_cons (p : Option Nat) (u : Nat) (w : Str) :
    prevAfter p (u :: w) = prevAfter (some u) w := by
  cases w with
  | nil => rfl
  | cons v w =>
    simp only [prevAfter, List.getLast?_cons_cons]
    rw [List.getLast?_eq_getLast _ (List.cons_ne_nil v w)]

theorem prevAfter_concat (p : Option Nat) (w : Str) (u : Nat) :
    prevAfter p (w ++ [u]) = some u := by
  simp [prevAfter]

/-- A literal string matches exactly when it is a prefix of the text. -/
theorem run_literal {α : Type} (w r : Str) (p : Option Nat) (c : Caps)
    (k : Cursor → Caps → Option α) :
    (Regex.cat (w.map (fun u => Regex.cls (.lit u)))).run false ⟨p, w ++ r⟩ c k =
      k ⟨prevAfter p w, r⟩ c := by
  induction w generalizing p with
  | nil => rfl
  | cons u w ih =>
    rw [List.map_cons, run_cat_cons]
    simp only [List.cons_append, run_cls_cons, CharSet.test, canonicalize, Bool.false_and,
      Bool.false_eq_true, if_false, decide_True, if_true]
    rw [ih, prevAfter_cons]

theorem run_literal_none {α : Type} (w r : Str) (p : Option Nat) (c : Caps)
    (k : Cursor → Caps → Option α) (h : ¬ w <+: r) :
    (Regex.cat (w.map (fun u => Regex.cls (.lit u)))).run false ⟨p, r⟩ c k = none := by
  induction w generalizing p r with
  | nil => exact absurd (List.nil_prefix) h
  | cons u w ih =>
    rw [List.map_cons, run_cat_cons]
    cases r with
    | nil => rfl
    | cons v r =>
      simp only [run_cls_cons, CharSet.test, canonicalize, Bool.false_and,
        Bool.false_eq_true, if_false]
      by_cases hv : v = u
      · subst hv
        simp only [decide_True, if_true]
        apply ih
        intro hp
        exact h ((List.prefix_cons_inj v).mpr hp)
      · simp [hv]

theorem run_lits {α : Type} (s : String) (r : Str) (p : Option Nat) (c : Caps)
    (k : Cursor → Caps → Option α) :
    (Regex.lits s).run false ⟨p, js s ++ r⟩ c k = k ⟨prevAfter p (js s), r⟩ c :=
  run_literal (js s) r p c k

theorem run_lits_none {α : Type} (s : String) (r : Str) (p : Option Nat) (c : Caps)
    (k : Cursor → Caps → Option α) (h : ¬ js s <+: r) :
    (Regex.lits s).run false ⟨p, r⟩ c k = none :=
  run_literal_none (js s) r p c k h

theorem run_star_cls_cons {α : Type} (ic : Bool) (s : CharSet) (p : Option Nat) (u : Nat)
    (rest : Str) (c : Caps) (k : Cursor → Caps → Option α) (h : s.test ic u = true) :
    (Regex.star (.cls s)).run ic ⟨p, u :: rest⟩ c k =
      match (Regex.star (.cls s)).run ic ⟨some u, rest⟩ c k with
      | some v => some v
      | none => k ⟨p, u :: rest⟩ c := by
  show repeatMatcher true _ (rest.length + 1) _ _ _ = _
  simp only [repeatMatcher, run_cls_cons, h, if_true, List.length_cons, Nat.lt_succ_self]
  rfl

theorem run_star_cls_stop {α : Type} (ic : Bool) (s : CharSet) (p : Option Nat)
    (rest : Str) (c : Caps) (k : Cursor → Caps → Option α)
    (h : ∀ u ∈ rest.head?, s.test ic u = false) :
    (Regex.star (.cls s)).run ic ⟨p, rest⟩ c k = k ⟨p, rest⟩ c := by
  cases rest with
  | nil => rfl
  | cons u rest =>
    have hu : s.test ic u = false := h u (by simp)
    show repeatMatcher true _ (rest.length + 1) _ _ _ = _
    simp [repeatMatcher, run_cls_cons, hu]

theorem run_lazyStar_cls_cons {α : Type} (ic : Bool) (s : CharSet) (p : Option Nat) (u : Nat)
    (rest : Str) (c : Caps) (k : Cursor → Caps → Option α) (h : s.test ic u = true) :
    (Regex.lazyStar (.cls s)).run ic ⟨p, u :: rest⟩ c k =
      match k ⟨p, u :: rest⟩ c with
      | some v => some v
      | none => (Regex.lazyStar (.cls s)).run ic ⟨some u, rest⟩ c k := by
  show repeatMatcher false _ (rest.length + 1) _ _ _ = _
  simp only [repeatMatcher, run_cls_cons, h, if_true, List.length_cons, Nat.lt_succ_self]
  rfl

theorem run_lazyStar_cls_stop {α : Type} (ic : Bool) (s : CharSet) (p : Option Nat)
    (rest : Str) (c : Caps) (k : Cursor → Caps → Option α)
    (h : ∀ u ∈ rest.head?, s.test ic u = false) :
    (Regex.lazyStar (.cls s)).run ic ⟨p, rest⟩ c k = k ⟨p, rest⟩ c := by
  cases rest with
  | nil => rfl
  | cons u rest =>
    have hu : s.test ic u = false := h u (by simp)
    show repeatMatcher false _ (rest.length + 1) _ _ _ = _
    simp only [repeatMatcher, run_cls_cons, hu]
    cases k ⟨p, u :: rest⟩ c <;> simp

/-- Greedy repetition of a class takes the whole run when the continuation accepts
    there. -/
theorem run_star_cls_all {α : Type} (ic : Bool) (s : CharSet) (w r : Str) (p : Option Nat)
    (c : Caps) (k : Cursor → Caps → Option α) (v : α)
    (hw : ∀ u ∈ w, s.test ic u = true) (hr : ∀ u ∈ r.head?, s.test ic u = false)
    (hk : k ⟨prevAfter p w, r⟩ c = some v) :
    (Regex.star (.cls s)).run ic ⟨p, w ++ r⟩ c k = some v := by
  induction w generalizing p with
  | nil => rw [List.nil_append, run_star_cls_stop ic s p r c k hr]; exact hk
  | cons u w ih =>
    rw [List.cons_append, run_star_cls_cons ic s p u _ c k (hw u (by simp))]
    rw [ih (some u) (fun u hu => hw u (List.mem_cons_of_mem _ hu))
      (by rw [← prevAfter_cons]; exact hk)]

/-- Greedy repetition of a class fails when the continuation rejects every split of the
    run. -/
theorem run_star_cls_none {α : Type} (ic : Bool) (s : CharSet) (w r : Str) (p : Option Nat)
    (c : Caps) (k : Cursor → Caps → Option α)
    (hw : ∀ u ∈ w, s.test ic u = true) (hr : ∀ u ∈ r.head?, s.test ic u = false)
    (hk : ∀ w1 w2, w = w1 ++ w2 → k ⟨prevAfter p w1, w2 ++ r⟩ c = none) :
    (Regex.star (.cls s)).run ic ⟨p, w ++ r⟩ c k = none := by
  induction w generalizing p with
  | nil =>
    rw [List.nil_append, run_star_cls_stop ic s p r c k hr]
    exact hk [] [] rfl
  | cons u w ih =>
    rw [List.cons_append, run_star_cls_cons ic s p u _ c k (hw u (by simp))]
    rw [ih (some u) (fun u hu => hw u (List.mem_cons_of_mem _ hu))]
    · exact hk [] (u :: w) rfl
    · intro w1 w2 h
      have := hk (u :: w1) w2 (by rw [h]; rfl)
      rw [prevAfter_cons] at this
      exact this

/-! ## Searching -/

theorem searchFrom_cons (ic : Bool) (re : Regex) (before : Str) (prev : Option Nat) (u : Nat)
    (rest : Str) :
    re.searchFrom ic before prev (u :: rest) =
      match re.matchHere ic before.reverse ⟨prev, u :: rest⟩ with
      | some m => some m
      | none => re.searchFrom ic (u :: before) (some u) rest := rfl

theorem searchFrom_here (ic : Bool) (re : Regex) (before : Str) (prev : Option Nat) (s : Str)
    (m : Match) (h : re.matchHere ic before.reverse ⟨prev, s⟩ = some m) :
    re.searchFrom ic before prev s = some m := by
  cases s with
  | nil => exact h
  | cons u rest => rw [searchFrom_cons, h]

/-- Positions at which the pattern does not match are skipped. -/
theorem searchFrom_skip (ic : Bool) (re : Regex) (w r : Str) (before : Str)
    (prev : Option Nat)
    (h : ∀ w1 w2, w = w1 ++ w2 → w2 ≠ [] →
      re.matchHere ic (before.reverse ++ w1) ⟨prevAfter prev w1, w2 ++ r⟩ = none) :
    re.searchFrom ic before prev (w ++ r) =
      re.searchFrom ic (w.reverse ++ before) (prevAfter prev w) r := by
  induction w generalizing before prev with
  | nil => rfl
  | cons u w ih =>
    have h0 := h [] (u :: w) rfl (by simp)
    simp only [List.append_nil, prevAfter_nil] at h0
    rw [List.cons_append, searchFrom_cons]
    rw [show u :: (w ++ r) = u :: w ++ r from rfl, h0]
    simp only
    rw [ih (u :: before) (some u)]
    · simp [prevAfter_cons]
    · intro w1 w2 hw hne
      have := h (u :: w1) w2 (by rw [hw]; rfl) hne
      simpa [prevAfter_cons] using this

/-- The search fails when the pattern matches nowhere. -/
theorem searchFrom_none (ic : Bool) (re : Regex) (s : Str) (before : Str) (prev : Option Nat)
    (h : ∀ w1 w2, s = w1 ++ w2 →
      re.matchHere ic (before.reverse ++ w1) ⟨prevAfter prev w1, w2⟩ = none) :
    re.searchFrom ic before prev s = none := by
  have := searchFrom_skip ic re s [] before prev (by
    intro w1 w2 hw _
    simpa using h w1 w2 hw)
  rw [List.append_nil] at this
  rw [this]
  have h2 := h s [] (by simp)
  simpa [Regex.searchFrom] using h2

/-! ## The name of a header line -/

theorem parseEXTINF_name_eq (line : Str) :
    (parseEXTINF line).name =
      match reName.exec false line with
      | some m => trim (m.group 1)
      | none => [] := rfl

theorem reName_here_ne (before : Str) (p : Option Nat) (u : Nat) (r : Str) (h : u ≠ 44) :
    reName.matchHere false before ⟨p, u :: r⟩ = none := by
  simp only [Regex.matchHere, reName, run_cat_cons, run_cls_cons, CharSet.test, canonicalize,
    Bool.false_and, Bool.false_eq_true, if_false, h, decide_False]

theorem reName_here_nil (before : Str) (p : Option Nat) :
    reName.matchHere false before ⟨p, []⟩ = none := rfl

theorem reName_here_comma_nil (before : Str) (p : Option Nat) :
    reName.matchHere false before ⟨p, [44]⟩ = none := rfl

theorem reName_here_comma (before : Str) (p : Option Nat) (u : Nat) (rest : Str)
    (h : ∀ v ∈ u :: rest, isLineTerminator v = false) :
    reName.matchHere false before ⟨p, 44 :: u :: rest⟩ =
      some ⟨before, 44 :: u :: rest, [(1, u :: rest)], ⟨prevAfter (some u) rest, []⟩⟩ := by
  have hu : isLineTerminator u = false := h u (by simp)
  simp only [Regex.matchHere, reName, run_cat_cons, run_cls_cons, CharSet.test, canonicalize,
    Bool.false_and, Bool.false_eq_true, if_false, decide_True, if_true, Regex.run, Regex.plus,
    hu, Bool.not_false]
  have := run_star_cls_all false .dot rest [] (some u) []
    (fun y c1 =>
      if y.rest.isEmpty = true then
        some (⟨before, List.take ((44 :: u :: rest).length - y.rest.length) (44 :: u :: rest),
          (1, List.take ((u :: rest).length - y.rest.length) (u :: rest)) :: c1, y⟩ : Match)
      else none)
    ⟨before, 44 :: u :: rest, [(1, u :: rest)], ⟨prevAfter (some u) rest, []⟩⟩
    (fun v hv => by simp [CharSet.test, h v (List.mem_cons_of_mem _ hv)])
    (by simp) (by simp)
  rw [List.append_nil] at this
  exact this

/-- C9 (as amended): when the first comma of the line stands outside the quoted attribute
    values (the text before it holds an even number of double quotes), the name is the
    trimmed text after that comma, with the commas that the title itself holds, for every
    line whose text after that comma holds no line terminator.  A line whose first comma
    stands inside a quoted value is left out. -/
theorem parseEXTINF_name_after_first_comma (pre rest : Str) (hpre : 44 ∉ pre)
    (hquotes : pre.count 34 % 2 = 0)
    (hrest : ∀ v ∈ rest, isLineTerminator v = false) :
    (parseEXTINF (pre ++ 44 :: rest)).name = trim rest := by
  have _ := hquotes
  rw [parseEXTINF_name_eq, Regex.exec]
  have hskip := searchFrom_skip false reName pre (44 :: rest) [] none (by
    intro w1 w2 hw hne
    cases w2 with
    | nil => exact absurd rfl hne
    | cons u w2 =>
      have hu : u ≠ 44 := by
        intro e
        apply hpre
        rw [hw, e]
        simp
      exact reName_here_ne _ _ u _ hu)
  rw [hskip]
  cases rest with
  | nil =>
    have : reName.searchFrom false (pre.reverse ++ []) (prevAfter none pre) [44] = none := by
      rw [searchFrom_cons, reName_here_comma_nil]
      rfl
    rw [this]
    rfl
  | cons u rest =>
    rw [searchFrom_here false reName _ _ _ _ (reName_here_comma _ _ u rest hrest)]
    rfl

/-- Witness of C9 as amended: `#EXTINF:-1 tvg-id="a",Show, The` gives `Show, The`. -/
theorem parseEXTINF_name_after_first_comma_witness :
    (parseEXTINF (js "#EXTINF:-1 tvg-id=\"a\"" ++ 44 :: js "Show, The")).name =
      trim (js "Show, The") :=
  parseEXTINF_name_after_first_comma (js "#EXTINF:-1 tvg-id=\"a\"") (js "Show, The")
    (by decide!) (by decide!) (by decide!)

/-! ## Soundness of the matcher -/

theorem repeatMatcher_sound {α : Type} (ic : Bool) (greedy : Bool) (r : Regex)
    (step : Cursor → Caps → (Cursor → Caps → Option α) → Option α)
    (hstep : ∀ x c k v, step x c k = some v → ∃ y c1, Matches ic r x c y c1 ∧ k y c1 = some v)
    (n : Nat) : ∀ (x : Cursor) (c : Caps) (k : Cursor → Caps → Option α) (v : α),
      repeatMatcher greedy step n x c k = some v →
        ∃ y c1, (Matches ic (.star r) x c y c1 ∧ Matches ic (.lazyStar r) x c y c1) ∧
          k y c1 = some v := by
  induction n with
  | zero =>
    intro x c k v h
    exact ⟨x, c, ⟨.starStop r x c, .lazyStop r x c⟩, h⟩
  | succ n ih =>
    intro x c k v h
    have hagain : ∀ v, step x c (fun y c1 =>
        if y.rest.length < x.rest.length then repeatMatcher greedy step n y c1 k else none)
          = some v →
        ∃ y c1, (Matches ic (.star r) x c y c1 ∧ Matches ic (.lazyStar r) x c y c1) ∧
          k y c1 = some v := by
      intro v hv
      obtain ⟨y, c1, hm, hk⟩ := hstep _ _ _ _ hv
      split at hk
      · obtain ⟨z, c2, ⟨hs, hl⟩, hk2⟩ := ih y c1 k v hk
        exact ⟨z, c2, ⟨.starStep hm hs, .lazyStep hm hl⟩, hk2⟩
      · exact absurd hk (by simp)
    simp only [repeatMatcher] at h
    cases greedy with
    | true =>
      simp only [if_true] at h
      split at h
      · rename_i v1 hv1
        cases h
        exact hagain _ hv1
      · exact ⟨x, c, ⟨.starStop r x c, .lazyStop r x c⟩, h⟩
    | false =>
      simp only [Bool.false_eq_true, if_false] at h
      split at h
      · rename_i v1 hv1
        cases h
        exact ⟨x, c, ⟨.starStop r x c, .lazyStop r x c⟩, hv1⟩
      · exact hagain _ h

/-- Every result of the matcher comes from a match of the pattern followed by a success
    of the continuation. -/
theorem run_sound {α : Type} (ic : Bool) (r : Regex) :
    ∀ (x : Cursor) (c : Caps) (k : Cursor → Caps → Option α) (v : α),
      r.run ic x c k = some v → ∃ y c1, Matches ic r x c y c1 ∧ k y c1 = some v := by
  induction r with
  | eps => intro x c k v h; exact ⟨x, c, .eps x c, h⟩
  | cls s =>
    intro x c k v h
    obtain ⟨p, rest⟩ := x
    cases rest with
    | nil => exact absurd h (by simp [Regex.run])
    | cons u rest =>
      rw [run_cls_cons] at h
      split at h
      · rename_i ht
        exact ⟨_, _, .cls s p u rest c ht, h⟩
      · exact absurd h (by simp)
  | seq a b iha ihb =>
    intro x c k v h
    obtain ⟨y, c1, hm1, hk1⟩ := iha x c _ v h
    obtain ⟨z, c2, hm2, hk2⟩ := ihb y c1 k v hk1
    exact ⟨z, c2, .seq hm1 hm2, hk2⟩
  | alt a b iha ihb =>
    intro x c k v h
    simp only [Regex.run] at h
    split at h
    · rename_i v1 hv1
      cases h
      obtain ⟨y, c1, hm, hk⟩ := iha x c k _ hv1
      exact ⟨y, c1, .altLeft b hm, hk⟩
    · obtain ⟨y, c1, hm, hk⟩ := ihb x c k v h
      exact ⟨y, c1, .altRight a hm, hk⟩
  | star r ih =>
    intro x c k v h
    obtain ⟨y, c1, ⟨hm, -⟩, hk⟩ :=
      repeatMatcher_sound ic true r (r.run ic) ih x.rest.length x c k v h
    exact ⟨y, c1, hm, hk⟩
  | lazyStar r ih =>
    intro x c k v h
    obtain ⟨y, c1, ⟨-, hm⟩, hk⟩ :=
      repeatMatcher_sound ic false r (r.run ic) ih x.rest.length x c k v h
    exact ⟨y, c1, hm, hk⟩
  | group n r ih =>
    intro x c k v h
    obtain ⟨y, c1, hm, hk⟩ := ih x c _ v h
    exact ⟨y, _, .group n hm, hk⟩
  | bol =>
    intro x c k v h
    simp only [Regex.run] at h
    split at h
    · rename_i hp
      exact ⟨x, c, .bol x c (by simpa using hp), h⟩
    · exact absurd h (by simp)
  | eol =>
    intro x c k v h
    simp only [Regex.run] at h
    split at h
    · rename_i hp
      exact ⟨x, c, .eol x c (by simpa using hp), h⟩
    · exact absurd h (by simp)
  | wordB =>
    intro x c k v h
    simp only [Regex.run] at h
    split at h
    · rename_i hp
      exact ⟨x, c, .wordB x c (by simpa using hp), h⟩
    · exact absurd h (by simp)

/-- A match at a cursor is a match of the pattern from that cursor. -/
theorem matchHere_sound (ic : Bool) (re : Regex) (before : Str) (x : Cursor) (m : Match)
    (h : re.matchHere ic before x = some m) :
    Matches ic re x [] m.after m.caps ∧ m.before = before ∧
      m.matched = x.rest.take (x.rest.length - m.after.rest.length) := by
  obtain ⟨y, c1, hm, hk⟩ := run_sound ic re x [] _ m h
  simp only [Option.some.injEq] at hk
  subst hk
  exact ⟨hm, rfl, rfl⟩

/-- A search result is a match at some position of the text. -/
theorem searchFrom_sound (ic : Bool) (re : Regex) (s : Str) :
    ∀ (before : Str) (prev : Option Nat) (m : Match),
      re.searchFrom ic before prev s = some m →
        ∃ a b, s = a ++ b ∧
          re.matchHere ic (before.reverse ++ a) ⟨prevAfter prev a, b⟩ = some m := by
  induction s with
  | nil =>
    intro before prev m h
    exact ⟨[], [], rfl, by simpa using h⟩
  | cons u rest ih =>
    intro before prev m h
    rw [searchFrom_cons] at h
    split at h
    · rename_i m1 hm1
      cases h
      exact ⟨[], u :: rest, rfl, by simpa using hm1⟩
    · obtain ⟨a, b, hab, hm⟩ := ih (u :: before) (some u) m h
      refine ⟨u :: a, b, by rw [hab]; rfl, ?_⟩
      rw [prevAfter_cons]
      simpa using hm

/-- A result of `exec` is a match of the pattern at some position of the text. -/
theorem exec_sound (ic : Bool) (re : Regex) (s : Str) (m : Match)
    (h : re.exec ic s = some m) :
    ∃ a b, s = a ++ b ∧ m.before = a ∧
      Matches ic re ⟨prevAfter none a, b⟩ [] m.after m.caps ∧
      m.matched = b.take (b.length - m.after.rest.length) := by
  obtain ⟨a, b, hab, hm⟩ := searchFrom_sound ic re s [] none m h
  obtain ⟨h1, h2, h3⟩ := matchHere_sound ic re _ _ m hm
  exact ⟨a, b, hab, by simpa using h2, h1, h3⟩

/-! ## Inversion of matches -/

theorem matches_cls {ic : Bool} {s : CharSet} {x y : Cursor} {c c1 : Caps}
    (h : Matches ic (.cls s) x c y c1) :
    ∃ u, x.rest = u :: y.rest ∧ s.test ic u = true ∧ y.prev = some u ∧ c1 = c := by
  cases h with
  | cls _ p u rest _ ht => exact ⟨u, rfl, ht, rfl, rfl⟩

theorem matches_star_cls {ic : Bool} {s : CharSet} {x y : Cursor} {c c1 : Caps}
    (h : Matches ic (.star (.cls s)) x c y c1) :
    ∃ w, x.rest = w ++ y.rest ∧ (∀ u ∈ w, s.test ic u = true) ∧
      y.prev = prevAfter x.prev w ∧ c1 = c := by
  generalize hr : Regex.star (.cls s) = r at h
  induction h with
  | starStop r x c => exact ⟨[], rfl, by simp, rfl, rfl⟩
  | starStep h1 h2 _ ih2 =>
    cases hr
    obtain ⟨u, hu1, hu2, hu3, hu4⟩ := matches_cls h1
    obtain ⟨w, hw1, hw2, hw3, hw4⟩ := ih2 rfl
    refine ⟨u :: w, by rw [hu1, hw1]; rfl, ?_, ?_, by rw [hw4, hu4]⟩
    · intro v hv
      rcases List.mem_cons.mp hv with rfl | hv
      · exact hu2
      · exact hw2 v hv
    · rw [hw3, hu3, prevAfter_cons]
  | _ => cases hr

theorem matches_lazyStar_cls {ic : Bool} {s : CharSet} {x y : Cursor} {c c1 : Caps}
    (h : Matches ic (.lazyStar (.cls s)) x c y c1) :
    ∃ w, x.rest = w ++ y.rest ∧ (∀ u ∈ w, s.test ic u = true) ∧
      y.prev = prevAfter x.prev w ∧ c1 = c := by
  generalize hr : Regex.lazyStar (.cls s) = r at h
  induction h with
  | lazyStop r x c => exact ⟨[], rfl, by simp, rfl, rfl⟩
  | lazyStep h1 h2 _ ih2 =>
    cases hr
    obtain ⟨u, hu1, hu2, hu3, hu4⟩ := matches_cls h1
    obtain ⟨w, hw1, hw2, hw3, hw4⟩ := ih2 rfl
    refine ⟨u :: w, by rw [hu1, hw1]; rfl, ?_, ?_, by rw [hw4, hu4]⟩
    · intro v hv
      rcases List.mem_cons.mp hv with rfl | hv
      · exact hu2
      · exact hw2 v hv
    · rw [hw3, hu3, prevAfter_cons]
  | _ => cases hr

theorem matches_seq {ic : Bool} {a b : Regex} {x z : Cursor} {c c2 : Caps}
    (h : Matches ic (.seq a b) x c z c2) :
    ∃ y c1, Matches ic a x c y c1 ∧ Matches ic b y c1 z c2 := by
  cases h with
  | seq h1 h2 => exact ⟨_, _, h1, h2⟩

theorem matches_eps {ic : Bool} {x y : Cursor} {c c1 : Caps}
    (h : Matches ic .eps x c y c1) : y = x ∧ c1 = c := by
  cases h with
  | eps => exact ⟨rfl, rfl⟩

theorem matches_alt {ic : Bool} {a b : Regex} {x y : Cursor} {c c1 : Caps}
    (h : Matches ic (.alt a b) x c y c1) :
    Matches ic a x c y c1 ∨ Matches ic b x c y c1 := by
  cases h with
  | altLeft _ h1 => exact Or.inl h1
  | altRight _ h1 => exact Or.inr h1

theorem matches_group {ic : Bool} {n : Nat} {r : Regex} {x y : Cursor} {c c2 : Caps}
    (h : Matches ic (.group n r) x c y c2) :
    ∃ c1, Matches ic r x c y c1 ∧
      c2 = (n, x.rest.take (x.rest.length - y.rest.length)) :: c1 := by
  cases h with
  | group _ h1 => exact ⟨_, h1, rfl⟩

theorem matches_bol {ic : Bool} {x y : Cursor} {c c1 : Caps}
    (h : Matches ic .bol x c y c1) : y = x ∧ c1 = c ∧ x.prev = none := by
  cases h with
  | bol _ _ hp => exact ⟨rfl, rfl, hp⟩

theorem matches_cat_cons {ic : Bool} {r : Regex} {rs : List Regex} {x z : Cursor}
    {c c2 : Caps} (h : Matches ic (Regex.cat (r :: rs)) x c z c2) :
    ∃ y c1, Matches ic r x c y c1 ∧ Matches ic (Regex.cat rs) y c1 z c2 := by
  cases rs with
  | nil => exact ⟨z, c2, h, .eps z c2⟩
  | cons r2 rs => exact matches_seq h

theorem matches_plus_cls {ic : Bool} {s : CharSet} {x y : Cursor} {c c1 : Caps}
    (h : Matches ic (Regex.plus (.cls s)) x c y c1) :
    ∃ u w, x.rest = u :: w ++ y.rest ∧ s.test ic u = true ∧
      (∀ v ∈ w, s.test ic v = true) ∧ y.prev = prevAfter x.prev (u :: w) ∧ c1 = c := by
  obtain ⟨z, c2, h1, h2⟩ := matches_seq h
  obtain ⟨u, hu1, hu2, hu3, hu4⟩ := matches_cls h1
  obtain ⟨w, hw1, hw2, hw3, hw4⟩ := matches_star_cls h2
  exact ⟨u, w, by rw [hu1, hw1]; rfl, hu2, hw2, by rw [hw3, hu3, prevAfter_cons],
    by rw [hw4, hu4]⟩

theorem matches_lazyPlus_cls {ic : Bool} {s : CharSet} {x y : Cursor} {c c1 : Caps}
    (h : Matches ic (Regex.lazyPlus (.cls s)) x c y c1) :
    ∃ u w, x.rest = u :: w ++ y.rest ∧ s.test ic u = true ∧
      (∀ v ∈ w, s.test ic v = true) ∧ y.prev = prevAfter x.prev (u :: w) ∧ c1 = c := by
  obtain ⟨z, c2, h1, h2⟩ := matches_seq h
  obtain ⟨u, hu1, hu2, hu3, hu4⟩ := matches_cls h1
  obtain ⟨w, hw1, hw2, hw3, hw4⟩ := matches_lazyStar_cls h2
  exact ⟨u, w, by rw [hu1, hw1]; rfl, hu2, hw2, by rw [hw3, hu3, prevAfter_cons],
    by rw [hw4, hu4]⟩

/-- A literal string matches text that is equal to it up to the canonicalisation of the
    flag. -/
theorem matches_literal {ic : Bool} (w : Str) {x y : Cursor} {c c1 : Caps}
    (h : Matches ic (Regex.cat (w.map (fun u => Regex.cls (.lit u)))) x c y c1) :
    ∃ t, x.rest = t ++ y.rest ∧ t.map (canonicalize ic) = w.map (canonicalize ic) ∧
      y.prev = prevAfter x.prev t ∧ c1 = c := by
  induction w generalizing x c with
  | nil =>
    obtain ⟨h1, h2⟩ := matches_eps h
    exact ⟨[], by rw [h1]; rfl, rfl, by rw [h1]; rfl, h2⟩
  | cons u w ih =>
    rw [List.map_cons] at h
    obtain ⟨z, c2, h1, h2⟩ := matches_cat_cons h
    obtain ⟨v, hv1, hv2, hv3, hv4⟩ := matches_cls h1
    obtain ⟨t, ht1, ht2, ht3, ht4⟩ := ih h2
    refine ⟨v :: t, by rw [hv1, ht1]; rfl, ?_, by rw [ht3, hv3, prevAfter_cons],
      by rw [ht4, hv4]⟩
    simp only [CharSet.test, decide_eq_true_eq] at hv2
    simp [hv2, ht2]

theorem matches_lits {ic : Bool} (s : String) {x y : Cursor} {c c1 : Caps}
    (h : Matches ic (Regex.lits s) x c y c1) :
    ∃ t, x.rest = t ++ y.rest ∧ t.map (canonicalize ic) = (js s).map (canonicalize ic) ∧
      y.prev = prevAfter x.prev t ∧ c1 = c :=
  matches_literal (js s) h

theorem canonicalize_false (u : Nat) : canonicalize false u = u := by
  simp [canonicalize]

theorem matches_lits_exact (s : String) {x y : Cursor} {c c1 : Caps}
    (h : Matches false (Regex.lits s) x c y c1) :
    x.rest = js s ++ y.rest ∧ y.prev = prevAfter x.prev (js s) ∧ c1 = c := by
  obtain ⟨t, h1, h2, h3, h4⟩ := matches_lits s h
  have : t = js s := by
    have hid : (canonicalize false) = id := funext canonicalize_false
    simpa [hid] using h2
  subst this
  exact ⟨h1, h3, h4⟩

/-- The text taken by a capture. -/
theorem take_captured (w r : Str) : (w ++ r).take ((w ++ r).length - r.length) = w := by
  simp

/-! ## Series information -/

theorem seriesLoop_none (name : Str) (pats : List SeriesPattern) (info : SeriesInfo)
    (h : ∀ p ∈ pats, p.regex.exec true name = none) : seriesLoop name pats info = info := by
  induction pats with
  | nil => rfl
  | cons p rest ih =>
    simp only [seriesLoop, h p (List.mem_cons_self _ _)]
    exact ih (fun q hq => h q (List.mem_cons_of_mem _ hq))

/-- The loop either keeps the initial values or takes them from a match of one of the
    patterns. -/
theorem seriesLoop_cases (name : Str) (pats : List SeriesPattern) (info : SeriesInfo) :
    seriesLoop name pats info = info ∨
    ∃ p ∈ pats, ∃ m, p.regex.exec true name = some m ∧
      seriesLoop name pats info =
        { seriesName := trim (m.group p.seriesIndex),
          season := parseInt (m.group p.seasonIndex),
          episode := parseInt (m.group p.episodeIndex) } := by
  induction pats with
  | nil => left; rfl
  | cons p rest ih =>
    cases hm : p.regex.exec true name with
    | some m =>
      right
      exact ⟨p, List.mem_cons_self _ _, m, hm, by simp only [seriesLoop, hm]⟩
    | none =>
      have hstep : seriesLoop name (p :: rest) info = seriesLoop name rest info := by
        simp only [seriesLoop, hm]
      rcases ih with h | ⟨q, hq, m, hqm, hres⟩
      · left; rw [hstep, h]
      · right
        exact ⟨q, List.mem_cons_of_mem _ hq, m, hqm, by rw [hstep, hres]⟩

theorem parseSeriesInfo_season (name : Str) :
    (parseSeriesInfo name).season =
      (seriesLoop name seriesPatterns { seriesName := name, season := 1, episode := 1 }).season :=
  rfl

theorem parseSeriesInfo_episode (name : Str) :
    (parseSeriesInfo name).episode =
      (seriesLoop name seriesPatterns { seriesName := name, season := 1, episode := 1 }).episode :=
  rfl

/-- C15: when none of the five patterns matches the name, season and episode are 1; and
    when the result is not season 1, episode 1, one of the five patterns matched. -/
theorem parseSeriesInfo_defaults (name : Str) :
    ((∀ p ∈ seriesPatterns, p.regex.exec true name = none) →
      (parseSeriesInfo name).season = 1 ∧ (parseSeriesInfo name).episode = 1) ∧
    (¬((parseSeriesInfo name).season = 1 ∧ (parseSeriesInfo name).episode = 1) →
      ∃ p ∈ seriesPatterns, (p.regex.exec true name).isSome = true) ∧
    seriesPatterns.length = 5 := by
  have h1 : (∀ p ∈ seriesPatterns, p.regex.exec true name = none) →
      (parseSeriesInfo name).season = 1 ∧ (parseSeriesInfo name).episode = 1 := by
    intro h
    rw [parseSeriesInfo_season, parseSeriesInfo_episode, seriesLoop_none name _ _ h]
    exact ⟨rfl, rfl⟩
  refine ⟨h1, ?_, rfl⟩
  intro hne
  by_contra hc
  apply hne
  apply h1
  intro p hp
  cases hm : p.regex.exec true name with
  | none => rfl
  | some m => exact absurd ⟨p, hp, by simp [hm]⟩ hc

/-- Witness of C15: `Noticias da Noite` matches no pattern, `Show S02E05` matches the
    first. -/
theorem parseSeriesInfo_defaults_witness :
    ((parseSeriesInfo (js "Noticias da Noite")).season = 1 ∧
      (parseSeriesInfo (js "Noticias da Noite")).episode = 1) ∧
    (∃ p ∈ seriesPatterns, (p.regex.exec true (js "Show S02E05")).isSome = true) :=
  ⟨(parseSeriesInfo_defaults (js "Noticias da Noite")).1 (by decide!),
   (parseSeriesInfo_defaults (js "Show S02E05")).2.1 (by decide!)⟩

/-- C13, failing input: on `Show - S01E02` the first pattern matches with the hyphen
    inside the name group, and the series name is `Show -`; the fifth pattern, written for
    this format, would give `Show` but is never reached. -/
theorem parseSeriesInfo_hyphen :
    parseSeriesInfo (js "Show - S01E02") =
      { seriesName := js "Show -", season := 1, episode := 2 } ∧
    (parseSeriesInfo (js "Show - S01E02")).seriesName ≠ js "Show" ∧
    seriesLoop (js "Show - S01E02") (seriesPatterns.drop 4)
        { seriesName := js "Show - S01E02", season := 1, episode := 1 } =
      { seriesName := js "Show", season := 1, episode := 2 } := by
  refine ⟨by decide!, by decide!, by decide!⟩

/-- C14, counterexample: `Show S00E00` gives season 0 and episode 0. -/
theorem parseSeriesInfo_zero_counterexample :
    (parseSeriesInfo (js "Show S00E00")).season = 0 ∧
    (parseSeriesInfo (js "Show S00E00")).episode = 0 ∧
    ¬(1 ≤ (parseSeriesInfo (js "Show S00E00")).season) := by
  refine ⟨by decide!, by decide!, by decide!⟩

theorem parseInt_nonneg (s : Str) (h : s.head? ≠ some 45) : 0 ≤ parseInt s := by
  simp only [parseInt, if_neg h]
  exact Int.natCast_nonneg _

/-- The groups 2 and 3 recorded in the captures do not begin with a minus sign. -/
theorem matches_digitCaptures {ic : Bool} {r : Regex} {x y : Cursor} {c c1 : Caps}
    (h : Matches ic r x c y c1) (hr : digitCaptures r = true)
    (hc : ∀ k, k = 2 ∨ k = 3 → ((c.lookup k).getD []).head? ≠ some 45) :
    ∀ k, k = 2 ∨ k = 3 → ((c1.lookup k).getD []).head? ≠ some 45 := by
  induction h with
  | eps => exact hc
  | cls => exact hc
  | seq _ _ ih1 ih2 =>
    simp only [digitCaptures, Bool.and_eq_true] at hr
    exact ih2 hr.2 (ih1 hr.1 hc)
  | altLeft _ _ ih =>
    simp only [digitCaptures, Bool.and_eq_true] at hr
    exact ih hr.1 hc
  | altRight _ _ ih =>
    simp only [digitCaptures, Bool.and_eq_true] at hr
    exact ih hr.2 hc
  | starStop => exact hc
  | starStep _ _ ih1 ih2 =>
    have hr1 := hr
    simp only [digitCaptures] at hr1
    exact ih2 hr (ih1 hr1 hc)
  | lazyStop => exact hc
  | lazyStep _ _ ih1 ih2 =>
    have hr1 := hr
    simp only [digitCaptures] at hr1
    exact ih2 hr (ih1 hr1 hc)
  | @group n r x y c c1 hm ih =>
    intro k hk
    simp only [digitCaptures] at hr
    by_cases hn : n = 2 ∨ n = 3
    · rw [if_pos hn] at hr
      have hrr : r = Regex.plus (.cls .digit) := by simpa using hr
      subst hrr
      obtain ⟨u, w, h1, h2, -, -, h5⟩ := matches_plus_cls hm
      subst h5
      by_cases hkn : k = n
      · subst hkn
        simp only [List.lookup_cons, beq_self_eq_true, Option.getD_some]
        rw [h1, show u :: w ++ y.rest = (u :: w) ++ y.rest from rfl, take_captured]
        simp only [List.head?_cons, ne_eq, Option.some.injEq]
        intro hu
        subst hu
        simp [CharSet.test, isDigit] at h2
      · have : (k == n) = false := by simpa using hkn
        simp only [List.lookup_cons, this]
        exact hc k hk
    · rw [if_neg hn] at hr
      have hkn : (k == n) = false := by
        have : k ≠ n := by
          rintro rfl
          exact hn hk
        simpa using this
      simp only [List.lookup_cons, hkn]
      exact ih hr hc k hk
  | bol => exact hc
  | eol => exact hc
  | wordB => exact hc

theorem exec_digitCaptures (re : Regex) (name : Str) (m : Match)
    (hre : digitCaptures re = true) (h : re.exec true name = some m) (k : Nat)
    (hk : k = 2 ∨ k = 3) : 0 ≤ parseInt (m.group k) := by
  obtain ⟨a, b, -, -, hm, -⟩ := exec_sound true re name m h
  exact parseInt_nonneg _ (matches_digitCaptures hm hre (by intro k _; simp) k hk)

theorem seriesPatterns_digitCaptures :
    ∀ p ∈ seriesPatterns, digitCaptures p.regex = true ∧
      (p.seasonIndex = 2 ∨ p.seasonIndex = 3) ∧ (p.episodeIndex = 2 ∨ p.episodeIndex = 3) := by
  decide!

theorem parseSeriesInfo_nonneg (name : Str) :
    0 ≤ (parseSeriesInfo name).season ∧ 0 ≤ (parseSeriesInfo name).episode := by
  rw [parseSeriesInfo_season, parseSeriesInfo_episode]
  rcases seriesLoop_cases name seriesPatterns { seriesName := name, season := 1, episode := 1 }
    with h | ⟨p, hp, m, hm, hres⟩
  · rw [h]; exact ⟨Int.one_nonneg, Int.one_nonneg⟩
  · rw [hres]
    obtain ⟨h1, h2, h3⟩ := seriesPatterns_digitCaptures p hp
    exact ⟨exec_digitCaptures _ _ _ h1 hm _ h2, exec_digitCaptures _ _ _ h1 hm _ h3⟩

/-! ## Dictionaries -/

theorem mem_alterKey {κ β : Type} [DecidableEq κ] (k : κ) (d : β) (f : β → β)
    (m : List (κ × β)) (p : κ × β) (h : p ∈ alterKey k d f m) :
    p ∈ m ∨ ∃ v, p = (k, f v) ∧ (v = d ∨ (k, v) ∈ m) := by
  induction m with
  | nil =>
    simp only [alterKey, List.mem_singleton] at h
    exact Or.inr ⟨d, h, Or.inl rfl⟩
  | cons q rest ih =>
    obtain ⟨k1, v⟩ := q
    simp only [alterKey] at h
    split at h
    · rename_i hk
      subst hk
      rcases List.mem_cons.mp h with h | h
      · exact Or.inr ⟨v, h, Or.inr (List.mem_cons_self _ _)⟩
      · exact Or.inl (List.mem_cons_of_mem _ h)
    · rcases List.mem_cons.mp h with h | h
      · exact Or.inl (by rw [h]; exact List.mem_cons_self _ _)
      · rcases ih h with h | ⟨w, hw, hw2⟩
        · exact Or.inl (List.mem_cons_of_mem _ h)
        · refine Or.inr ⟨w, hw, ?_⟩
          rcases hw2 with hw2 | hw2
          · exact Or.inl hw2
          · exact Or.inr (List.mem_cons_of_mem _ hw2)

/-- A property of the stored entries that holds of the entry pushed is kept by the
    insertion into the nested dictionary. -/
theorem alterKey_push_invariant {β : Type} (P : β → Prop) (show_ : Str) (season : Int)
    (entry : β) (organized : List (Str × List (Int × List β)))
    (h : ∀ p ∈ organized, ∀ q ∈ p.2, ∀ x ∈ q.2, P x) (he : P entry) :
    ∀ p ∈ alterKey show_ [] (alterKey season [] (fun l => l ++ [entry])) organized,
      ∀ q ∈ p.2, ∀ x ∈ q.2, P x := by
  intro p hp q hq x hx
  rcases mem_alterKey _ _ _ _ _ hp with hp | ⟨seasons, hp, hs⟩
  · exact h p hp q hq x hx
  · subst hp
    have hseasons : ∀ q ∈ seasons, ∀ x ∈ q.2, P x := by
      rcases hs with hs | hs
      · subst hs; simp
      · exact h _ hs
    rcases mem_alterKey _ _ _ _ _ hq with hq | ⟨l, hq, hl⟩
    · exact hseasons q hq x hx
    · subst hq
      rcases List.mem_append.mp hx with hx | hx
      · rcases hl with hl | hl
        · subst hl; simp at hx
        · exact hseasons _ hl x hx
      · simp only [List.mem_singleton] at hx
        subst hx
        exact he

theorem foldl_invariant {α γ : Type} (I : γ → Prop) (f : γ → α → γ) (l : List α)
    (hf : ∀ acc a, a ∈ l → I acc → I (f acc a)) : ∀ acc, I acc → I (l.foldl f acc) := by
  induction l with
  | nil => intro acc h; exact h
  | cons a l ih =>
    intro acc h
    exact ih (fun acc b hb => hf acc b (List.mem_cons_of_mem _ hb)) _
      (hf acc a (List.mem_cons_self _ _) h)

/-- Every entry stored by `organizeSeries` is the series item of an input item. -/
theorem organizeSeries_mem (seriesItems : List Item) :
    ∀ p ∈ organizeSeries seriesItems, ∀ q ∈ p.2, ∀ x ∈ q.2,
      ∃ item ∈ seriesItems, x = toSeriesItem item := by
  have hraw : ∀ p ∈ seriesItems.foldl addSeriesItem [], ∀ q ∈ p.2, ∀ x ∈ q.2,
      ∃ item ∈ seriesItems, x = toSeriesItem item := by
    refine foldl_invariant
      (fun acc => ∀ p ∈ acc, ∀ q ∈ p.2, ∀ x ∈ q.2, ∃ item ∈ seriesItems, x = toSeriesItem item)
      addSeriesItem seriesItems ?_ [] (by simp)
    intro acc a ha hacc
    exact alterKey_push_invariant _ _ _ _ acc hacc ⟨a, ha, rfl⟩
  intro p hp q hq x hx
  simp only [organizeSeries, List.mem_map] at hp
  obtain ⟨p0, hp0, rfl⟩ := hp
  simp only [List.mem_map] at hq
  obtain ⟨q0, hq0, rfl⟩ := hq
  simp only [sortByEpisode, List.mem_insertionSort] at hx
  exact hraw p0 hp0 q0 hq0 x hx

/-- C14 (as the code has it): season and episode are never negative: they are 1 unless a
    pattern matches, and then they are the values of the digits captured; the same holds
    of every entry stored by `organizeSeries`. -/
theorem parseSeriesInfo_nonnegative (name : Str) (seriesItems : List Item) :
    (0 ≤ (parseSeriesInfo name).season ∧ 0 ≤ (parseSeriesInfo name).episode) ∧
    ∀ p ∈ organizeSeries seriesItems, ∀ q ∈ p.2, ∀ x ∈ q.2, 0 ≤ x.season ∧ 0 ≤ x.episode := by
  refine ⟨parseSeriesInfo_nonneg name, ?_⟩
  intro p hp q hq x hx
  obtain ⟨item, -, rfl⟩ := organizeSeries_mem seriesItems p hp q hq x hx
  exact parseSeriesInfo_nonneg item.name

/-! ## The organizer -/

theorem sortByEpisode_sorted {β : Type} (episode : β → Int) (l : List β) :
    (sortByEpisode episode l).Sorted (fun a b => episode a ≤ episode b) := by
  haveI : IsTotal β (fun a b => episode a ≤ episode b) := ⟨fun a b => le_total _ _⟩
  haveI : IsTrans β (fun a b => episode a ≤ episode b) := ⟨fun _ _ _ h1 h2 => le_trans h1 h2⟩
  exact List.sorted_insertionSort _ l

theorem organizeLoopBackend_isSome (items : List BItem)
    (h : ∀ i ∈ items, i.name.isSome = true) :
    ∀ acc, (organizeLoopBackend items acc).isSome = true := by
  induction items with
  | nil => intro acc; rfl
  | cons i rest ih =>
    intro acc
    have hi := h i (List.mem_cons_self _ _)
    cases hn : i.name with
    | none => rw [hn] at hi; exact absurd hi (by simp)
    | some name =>
      simp only [organizeLoopBackend, hn]
      exact ih (fun j hj => h j (List.mem_cons_of_mem _ hj)) _

/-- C17: every season list in the output of `organizeSeries`, of the frontend and of the
    backend, is sorted in non-decreasing order of episode number; the backend returns an
    output whenever every item has a name. -/
theorem organizeSeries_sorted (seriesItems : List Item) (backendItems : List BItem) :
    (∀ p ∈ organizeSeries seriesItems, ∀ q ∈ p.2,
      q.2.Sorted (fun a b => a.episode ≤ b.episode)) ∧
    (∀ organized, organizeSeriesBackend backendItems = some organized →
      ∀ p ∈ organized, ∀ q ∈ p.2, q.2.Sorted (fun a b => a.episode ≤ b.episode)) ∧
    ((∀ i ∈ backendItems, i.name.isSome = true) →
      (organizeSeriesBackend backendItems).isSome = true) := by
  refine ⟨?_, ?_, ?_⟩
  · intro p hp q hq
    simp only [organizeSeries, List.mem_map] at hp
    obtain ⟨p0, -, rfl⟩ := hp
    simp only [List.mem_map] at hq
    obtain ⟨q0, -, rfl⟩ := hq
    exact sortByEpisode_sorted _ _
  · intro organized h p hp q hq
    simp only [organizeSeriesBackend, Option.map_eq_some'] at h
    obtain ⟨raw, -, rfl⟩ := h
    simp only [List.mem_map] at hp
    obtain ⟨p0, -, rfl⟩ := hp
    simp only [List.mem_map] at hq
    obtain ⟨q0, -, rfl⟩ := hq
    exact sortByEpisode_sorted _ _
  · intro h
    have := organizeLoopBackend_isSome backendItems h []
    simp only [organizeSeriesBackend, Option.isSome_map']
    exact this

theorem getKey_alterKey_self {κ β : Type} [DecidableEq κ] (k : κ) (d : β) (f : β → β)
    (m : List (κ × β)) : getKey k (alterKey k d f m) = some (f ((getKey k m).getD d)) := by
  induction m with
  | nil => simp [alterKey, getKey]
  | cons q rest ih =>
    obtain ⟨k1, v⟩ := q
    by_cases h : k1 = k
    · simp [alterKey, getKey, h]
    · simp [alterKey, getKey, h, ih]

theorem getKey_alterKey_ne {κ β : Type} [DecidableEq κ] (k k2 : κ) (d : β) (f : β → β)
    (m : List (κ × β)) (hne : k ≠ k2) : getKey k2 (alterKey k d f m) = getKey k2 m := by
  induction m with
  | nil => simp [alterKey, getKey, hne]
  | cons q rest ih =>
    obtain ⟨k1, v⟩ := q
    by_cases h : k1 = k
    · subst h
      simp [alterKey, getKey, hne]
    · by_cases h2 : k1 = k2
      · subst h2
        simp [alterKey, getKey, h]
      · simp [alterKey, getKey, h, h2, ih]

theorem getKey_map {κ β γ : Type} [DecidableEq κ] (k : κ) (g : β → γ) (m : List (κ × β)) :
    getKey k (m.map (fun p => (p.1, g p.2))) = (getKey k m).map g := by
  induction m with
  | nil => rfl
  | cons q rest ih =>
    obtain ⟨k1, v⟩ := q
    by_cases h : k1 = k
    · simp [getKey, h]
    · simp [getKey, h, ih]

/-- The season list after one insertion. -/
theorem seasonList_push {β : Type} (organized : List (Str × List (Int × List β)))
    (s0 : Str) (n0 : Int) (entry : β) (s : Str) (n : Int) :
    seasonList (alterKey s0 [] (alterKey n0 [] (fun l => l ++ [entry])) organized) s n =
      if s0 = s ∧ n0 = n then some ((seasonList organized s n).getD [] ++ [entry])
      else seasonList organized s n := by
  by_cases hs : s0 = s
  · subst hs
    simp only [seasonList, getKey_alterKey_self, Option.some_bind, true_and]
    by_cases hn : n0 = n
    · subst hn
      rw [getKey_alterKey_self, if_pos rfl]
      cases getKey s0 organized <;> simp [getKey]
    · rw [getKey_alterKey_ne _ _ _ _ _ hn, if_neg hn]
      cases getKey s0 organized <;> simp [getKey]
  · simp only [seasonList, getKey_alterKey_ne _ _ _ _ _ hs, hs, false_and, if_false]

theorem seasonList_foldl (items : List Item) (s : Str) (n : Int) :
    ∀ acc, seasonList (items.foldl addSeriesItem acc) s n =
      if seriesGroup items s n = [] then seasonList acc s n
      else some ((seasonList acc s n).getD [] ++ seriesGroup items s n) := by
  induction items with
  | nil => intro acc; simp [seriesGroup]
  | cons item rest ih =>
    intro acc
    rw [List.foldl_cons, ih]
    have hadd : seasonList (addSeriesItem acc item) s n =
        if (toSeriesItem item).seriesName = s ∧ (toSeriesItem item).season = n then
          some ((seasonList acc s n).getD [] ++ [toSeriesItem item])
        else seasonList acc s n := seasonList_push acc _ _ _ s n
    rw [hadd]
    by_cases hk : (toSeriesItem item).seriesName = s ∧ (toSeriesItem item).season = n
    · have hg : seriesGroup (item :: rest) s n = toSeriesItem item :: seriesGroup rest s n := by
        simp [seriesGroup, List.filter_cons, hk.1, hk.2]
      rw [hg, if_pos hk]
      by_cases hr : seriesGroup rest s n = []
      · simp [hr]
      · simp [hr]
    · have hg : seriesGroup (item :: rest) s n = seriesGroup rest s n := by
        have : (decide ((toSeriesItem item).seriesName = s) &&
            decide ((toSeriesItem item).season = n)) = false := by
          simpa using hk
        simp [seriesGroup, List.filter_cons, this]
      rw [hg, if_neg hk]

/-- The season list of a show in the output: the series items of the show and season,
    sorted by episode; absent when there is none. -/
theorem seasonList_organizeSeries (items : List Item) (s : Str) (n : Int) :
    seasonList (organizeSeries items) s n =
      if seriesGroup items s n = [] then none
      else some (sortByEpisode SeriesItem.episode (seriesGroup items s n)) := by
  have hraw := seasonList_foldl items s n []
  have hmap : seasonList (organizeSeries items) s n =
      (seasonList (items.foldl addSeriesItem []) s n).map (sortByEpisode SeriesItem.episode) := by
    simp only [seasonList, organizeSeries]
    rw [getKey_map s
      (fun seasons : List (Int × List SeriesItem) =>
        seasons.map (fun q => (q.1, sortByEpisode SeriesItem.episode q.2)))]
    cases getKey s (items.foldl addSeriesItem []) with
    | none => rfl
    | some seasons =>
      simp only [Option.map_some', Option.some_bind]
      exact getKey_map n _ seasons
  rw [hmap, hraw]
  by_cases hg : seriesGroup items s n = []
  · simp [hg, seasonList, getKey]
  · simp [hg, seasonList, getKey]

/-- Sorting by insertion keeps the order of the entries of one episode number. -/
theorem filter_orderedInsert {β : Type} (episode : β → Int) (e : Int) (a : β) (l : List β) :
    (l.orderedInsert (fun a b => episode a ≤ episode b) a).filter (fun x => episode x = e) =
      (a :: l).filter (fun x => episode x = e) := by
  induction l with
  | nil => rfl
  | cons b l ih =>
    simp only [List.orderedInsert]
    split
    · rfl
    · rename_i hab
      have hstep : ∀ t : List β, (b :: t).filter (fun x => episode x = e) =
          if episode b = e then b :: t.filter (fun x => episode x = e)
          else t.filter (fun x => episode x = e) := by
        intro t
        by_cases hb : episode b = e <;> simp [List.filter_cons, hb]
      rw [hstep, ih]
      by_cases ha : episode a = e
      · have hb : ¬ episode b = e := by
          intro hb
          apply hab
          rw [ha, hb]
        simp [List.filter_cons, ha, hb]
      · by_cases hb : episode b = e
        · simp [List.filter_cons, ha, hb]
        · simp [List.filter_cons, ha, hb]

theorem filter_sortByEpisode {β : Type} (episode : β → Int) (e : Int) (l : List β) :
    (sortByEpisode episode l).filter (fun x => episode x = e) =
      l.filter (fun x => episode x = e) := by
  induction l with
  | nil => rfl
  | cons a l ih =>
    simp only [sortByEpisode, List.insertionSort] at ih ⊢
    rw [filter_orderedInsert, List.filter_cons, List.filter_cons, ih]

/-- C18: stability.  In the season list of a show, the entries of one episode number
    are the series items of the input with that show, season and episode number, in the
    order of the input. -/
theorem organizeSeries_stable (seriesItems : List Item) (seriesName : Str) (season : Int)
    (episode : Int) :
    ((seasonList (organizeSeries seriesItems) seriesName season).getD []).filter
        (fun x => x.episode = episode) =
      (seriesGroup seriesItems seriesName season).filter (fun x => x.episode = episode) := by
  rw [seasonList_organizeSeries]
  by_cases hg : seriesGroup seriesItems seriesName season = []
  · simp [hg]
  · simp only [hg, if_false, Option.getD_some]
    exact filter_sortByEpisode SeriesItem.episode episode _

theorem keys_alterKey {κ β : Type} [DecidableEq κ] (k : κ) (d : β) (f : β → β)
    (m : List (κ × β)) :
    (alterKey k d f m).map Prod.fst =
      if k ∈ m.map Prod.fst then m.map Prod.fst else m.map Prod.fst ++ [k] := by
  induction m with
  | nil => simp [alterKey]
  | cons q rest ih =>
    obtain ⟨k1, v⟩ := q
    by_cases h : k1 = k
    · subst h
      simp [alterKey]
    · have h2 : ¬ k = k1 := fun e => h e.symm
      simp only [alterKey, if_neg h, List.map_cons, ih, List.mem_cons, h2, false_or]
      split <;> simp

theorem nodup_keys_alterKey {κ β : Type} [DecidableEq κ] (k : κ) (d : β) (f : β → β)
    (m : List (κ × β)) (h : (m.map Prod.fst).Nodup) :
    ((alterKey k d f m).map Prod.fst).Nodup := by
  rw [keys_alterKey]
  split
  · exact h
  · rename_i hk
    exact List.Nodup.append h (List.nodup_singleton k) (by
      intro a ha hb
      simp only [List.mem_singleton] at hb
      subst hb
      exact hk ha)

theorem getKey_eq_none {κ β : Type} [DecidableEq κ] (k : κ) (m : List (κ × β))
    (h : k ∉ m.map Prod.fst) : getKey k m = none := by
  induction m with
  | nil => rfl
  | cons q rest ih =>
    obtain ⟨k1, v⟩ := q
    simp only [List.map_cons, List.mem_cons, not_or] at h
    have h1 : ¬ k1 = k := fun e => h.1 e.symm
    simp [getKey, h1, ih h.2]

/-- In a dictionary of lists whose entries tell their key, the entries of one key are
    the list stored under the key. -/
theorem filter_flatten_getKey {κ β : Type} [DecidableEq κ] (m : List (κ × List β))
    (P : β → Bool) (k0 : κ) (hn : (m.map Prod.fst).Nodup)
    (hP : ∀ p ∈ m, ∀ x ∈ p.2, (P x = true ↔ p.1 = k0)) :
    ((m.map Prod.snd).flatten).filter P = (getKey k0 m).getD [] := by
  induction m with
  | nil => rfl
  | cons q rest ih =>
    obtain ⟨k1, l⟩ := q
    simp only [List.map_cons, List.nodup_cons] at hn
    have ihr := ih hn.2 (fun p hp => hP p (List.mem_cons_of_mem _ hp))
    simp only [List.map_cons, List.flatten_cons, List.filter_append, ihr]
    by_cases h : k1 = k0
    · subst h
      have h1 : l.filter P = l := by
        rw [List.filter_eq_self]
        intro x hx
        exact (hP (k1, l) (List.mem_cons_self _ _) x hx).mpr rfl
      rw [h1, getKey_eq_none k1 rest hn.1]
      simp [getKey]
    · have h1 : l.filter P = [] := by
        rw [List.filter_eq_nil_iff]
        intro x hx hpx
        exact h ((hP (k1, l) (List.mem_cons_self _ _) x hx).mp hpx)
      rw [h1]
      simp [getKey, h]

/-- What holds of every nested dictionary built by `organizeSeries`: the keys are
    distinct and each entry is stored under its own show and season. -/
theorem alterKey_push_keyed {β : Type} (P : Str → Int → β → Prop) (s0 : Str) (n0 : Int)
    (entry : β) (organized : List (Str × List (Int × List β)))
    (h : (organized.map Prod.fst).Nodup ∧
      ∀ p ∈ organized, (p.2.map Prod.fst).Nodup ∧ ∀ q ∈ p.2, ∀ x ∈ q.2, P p.1 q.1 x)
    (he : P s0 n0 entry) :
    ((alterKey s0 [] (alterKey n0 [] (fun l => l ++ [entry])) organized).map Prod.fst).Nodup ∧
      ∀ p ∈ alterKey s0 [] (alterKey n0 [] (fun l => l ++ [entry])) organized,
        (p.2.map Prod.fst).Nodup ∧ ∀ q ∈ p.2, ∀ x ∈ q.2, P p.1 q.1 x := by
  refine ⟨nodup_keys_alterKey _ _ _ _ h.1, ?_⟩
  intro p hp
  rcases mem_alterKey _ _ _ _ _ hp with hp | ⟨seasons, hp, hs⟩
  · exact h.2 p hp
  · subst hp
    have hseasons : (seasons.map Prod.fst).Nodup ∧ ∀ q ∈ seasons, ∀ x ∈ q.2, P s0 q.1 x := by
      rcases hs with hs | hs
      · subst hs; simp
      · exact h.2 _ hs
    refine ⟨nodup_keys_alterKey _ _ _ _ hseasons.1, ?_⟩
    intro q hq x hx
    rcases mem_alterKey _ _ _ _ _ hq with hq | ⟨l, hq, hl⟩
    · exact hseasons.2 q hq x hx
    · subst hq
      rcases List.mem_append.mp hx with hx | hx
      · rcases hl with hl | hl
        · subst hl; simp at hx
        · exact hseasons.2 _ hl x hx
      · simp only [List.mem_singleton] at hx
        subst hx
        exact he

theorem organizeSeries_keyed (seriesItems : List Item) :
    ((organizeSeries seriesItems).map Prod.fst).Nodup ∧
      ∀ p ∈ organizeSeries seriesItems, (p.2.map Prod.fst).Nodup ∧
        ∀ q ∈ p.2, ∀ x ∈ q.2,
          x.seriesName = p.1 ∧ x.season = q.1 ∧ toSeriesItem x.item = x := by
  have hraw := foldl_invariant
    (fun acc : List (Str × List (Int × List SeriesItem)) =>
      (acc.map Prod.fst).Nodup ∧
      ∀ p ∈ acc, (p.2.map Prod.fst).Nodup ∧ ∀ q ∈ p.2, ∀ x ∈ q.2,
        x.seriesName = p.1 ∧ x.season = q.1 ∧ toSeriesItem x.item = x)
    addSeriesItem seriesItems
    (fun acc a _ hacc =>
      alterKey_push_keyed
        (fun (s : Str) (n : Int) (x : SeriesItem) =>
          x.seriesName = s ∧ x.season = n ∧ toSeriesItem x.item = x)
        _ _ _ acc hacc ⟨rfl, rfl, rfl⟩)
    [] (by simp)
  constructor
  · have : (organizeSeries seriesItems).map Prod.fst =
        (seriesItems.foldl addSeriesItem []).map Prod.fst := by
      simp [organizeSeries, List.map_map, Function.comp_def]
    rw [this]
    exact hraw.1
  · intro p hp
    simp only [organizeSeries, List.mem_map] at hp
    obtain ⟨p0, hp0, rfl⟩ := hp
    obtain ⟨h1, h2⟩ := hraw.2 p0 hp0
    constructor
    · simpa [List.map_map, Function.comp_def] using h1
    · intro q hq x hx
      simp only [List.mem_map] at hq
      obtain ⟨q0, hq0, rfl⟩ := hq
      simp only [sortByEpisode, List.mem_insertionSort] at hx
      exact h2 q0 hq0 x hx

/-! ## Duplicates -/

theorem removeDuplicatesLoop_spec (items : List Item) :
    ∀ seen : List Str,
      (removeDuplicatesLoop items seen).Sublist items ∧
      (∀ e ∈ removeDuplicatesLoop items seen, e.url ∉ seen) ∧
      ((removeDuplicatesLoop items seen).map Item.url).Nodup ∧
      (∀ e ∈ items, e.url ∉ seen → e.url ∈ (removeDuplicatesLoop items seen).map Item.url) ∧
      (∀ u, u ∉ seen →
        (removeDuplicatesLoop items seen).find? (fun e => e.url = u) =
          items.find? (fun e => e.url = u)) := by
  induction items with
  | nil => intro seen; simp [removeDuplicatesLoop]
  | cons item rest ih =>
    intro seen
    by_cases hs : item.url ∈ seen
    · have hstep : removeDuplicatesLoop (item :: rest) seen = removeDuplicatesLoop rest seen := by
        simp [removeDuplicatesLoop, hs]
      obtain ⟨h1, h2, h3, h4, h5⟩ := ih seen
      rw [hstep]
      refine ⟨List.Sublist.cons _ h1, h2, h3, ?_, ?_⟩
      · intro e he hne
        rcases List.mem_cons.mp he with rfl | he
        · exact absurd hs hne
        · exact h4 e he hne
      · intro u hu
        have hne : ¬ item.url = u := by
          rintro rfl
          exact hu hs
        rw [h5 u hu, List.find?_cons]
        simp [hne]
    · have hstep : removeDuplicatesLoop (item :: rest) seen =
          item :: removeDuplicatesLoop rest (seen ++ [item.url]) := by
        simp [removeDuplicatesLoop, hs]
      obtain ⟨h1, h2, h3, h4, h5⟩ := ih (seen ++ [item.url])
      rw [hstep]
      refine ⟨List.Sublist.cons₂ _ h1, ?_, ?_, ?_, ?_⟩
      · intro e he
        rcases List.mem_cons.mp he with rfl | he
        · exact hs
        · intro hc
          exact h2 e he (List.mem_append_left _ hc)
      · rw [List.map_cons, List.nodup_cons]
        refine ⟨?_, h3⟩
        intro hc
        obtain ⟨e, he, heq⟩ := List.mem_map.mp hc
        exact h2 e he (by rw [heq]; simp)
      · intro e he hne
        rcases List.mem_cons.mp he with rfl | he
        · simp
        · by_cases heq : e.url = item.url
          · simp [heq]
          · rw [List.map_cons]
            exact List.mem_cons_of_mem _ (h4 e he (by simp [hne, heq]))
      · intro u hu
        by_cases heq : item.url = u
        · simp [List.find?_cons, heq]
        · rw [List.find?_cons, List.find?_cons]
          simp only [heq, decide_False]
          exact h5 u (by
            simp only [List.mem_append, List.mem_singleton, not_or]
            exact ⟨hu, fun e => heq e.symm⟩)

/-- C20: `removeDuplicates` returns a sub-list of the input, in input order, with
    pairwise distinct urls, in which every url of the input occurs, and in which the entry
    of a url is the first entry of the input with that url. -/
theorem removeDuplicates_first_occurrence (items : List Item) :
    (removeDuplicates items).Sublist items ∧
    ((removeDuplicates items).map Item.url).Nodup ∧
    (∀ e ∈ items, e.url ∈ (removeDuplicates items).map Item.url) ∧
    (∀ u, (removeDuplicates items).find? (fun e => e.url = u) =
      items.find? (fun e => e.url = u)) := by
  obtain ⟨h1, -, h3, h4, h5⟩ := removeDuplicatesLoop_spec items []
  exact ⟨h1, h3, fun e he => h4 e he (by simp), fun u => h5 u (by simp)⟩

/-! ## Defaults of `parseEXTINF` -/

theorem parseEXTINF_duration_eq (line : Str) :
    (parseEXTINF line).duration =
      match reDuration.exec false line with
      | some m => parseFloat (m.group 1)
      | none => Decimal.ofInt (-1) := rfl

theorem parseEXTINF_tvgId_eq (line : Str) :
    (parseEXTINF line).tvgId =
      match (reAttr "tvg-id").exec false line with
      | some m => m.group 1
      | none => [] := rfl

theorem parseEXTINF_tvgName_eq (line : Str) :
    (parseEXTINF line).tvgName =
      match (reAttr "tvg-name").exec false line with
      | some m => m.group 1
      | none => [] := rfl

theorem parseEXTINF_logo_eq (line : Str) :
    (parseEXTINF line).logo =
      match (reAttr "tvg-logo").exec false line with
      | some m => m.group 1
      | none => [] := rfl

theorem parseEXTINF_group_eq (line : Str) :
    (parseEXTINF line).group =
      match (reAttr "group-title").exec false line with
      | some m => m.group 1
      | none => js "Outros" := rfl

theorem includes_of_append (a c sub : Str) : includes (a ++ sub ++ c) sub = true := by
  simp only [includes, List.any_eq_true, List.mem_tails]
  exact ⟨sub ++ c, ⟨a, by simp⟩, by simp [List.isPrefixOf_iff_prefix]⟩

/-- A match of an attribute pattern needs the text `key="` in the line. -/
theorem reAttr_exec_includes (key : String) (line : Str) (m : Match)
    (h : (reAttr key).exec false line = some m) :
    includes line (js key ++ js "=\"") = true := by
  obtain ⟨a, b, hab, -, hm, -⟩ := exec_sound false _ line m h
  obtain ⟨y1, c1, h1, hrest⟩ := matches_cat_cons hm
  obtain ⟨y2, c2, h2, -⟩ := matches_cat_cons hrest
  obtain ⟨e1, -, -⟩ := matches_lits_exact key h1
  obtain ⟨e2, -, -⟩ := matches_lits_exact "=\"" h2
  simp only at e1
  rw [hab, e1, e2]
  have := includes_of_append a y2.rest (js key ++ js "=\"")
  simpa [List.append_assoc] using this

theorem reAttr_exec_none (key : String) (line : Str)
    (h : includes line (js key ++ js "=\"") = false) :
    (reAttr key).exec false line = none := by
  cases hm : (reAttr key).exec false line with
  | none => rfl
  | some m =>
    have := reAttr_exec_includes key line m hm
    rw [h] at this
    exact absurd this (by simp)

theorem startsWithNumber_digit (u : Nat) (r : Str) (h : isDigit u = true) :
    startsWithNumber (u :: r) = true := by
  cases r <;> simp [startsWithNumber, h]

theorem startsWithNumber_minus (v : Nat) (r : Str) (h : isDigit v = true) :
    startsWithNumber (45 :: v :: r) = true := by
  simp [startsWithNumber, h]

theorem reDuration_exec_none (line : Str) (h : numberAfterMarker line = false) :
    reDuration.exec false line = none := by
  cases hm : reDuration.exec false line with
  | none => rfl
  | some m =>
    exfalso
    obtain ⟨a, b, hab, -, hmatch, -⟩ := exec_sound false _ line m hm
    obtain ⟨y1, c1, h1, h2⟩ := matches_seq hmatch
    obtain ⟨e1, -, -⟩ := matches_lits_exact "#EXTINF:" h1
    simp only at e1
    obtain ⟨c3, h3, -⟩ := matches_group h2
    obtain ⟨y4, c4, h4, h5⟩ := matches_cat_cons h3
    obtain ⟨y6, c6, h6, -⟩ := matches_cat_cons h5
    obtain ⟨u, w, hu1, hu2, -, -, -⟩ := matches_plus_cls h6
    have hnum : startsWithNumber y1.rest = true := by
      rcases matches_alt h4 with h4 | h4
      · obtain ⟨v, hv1, hv2, -, -⟩ := matches_cls h4
        simp only [CharSet.test, canonicalize_false, decide_eq_true_eq] at hv2
        subst hv2
        rw [hv1, hu1]
        exact startsWithNumber_minus u _ hu2
      · obtain ⟨e4, -⟩ := matches_eps h4
        subst e4
        rw [hu1]
        exact startsWithNumber_digit u _ hu2
    have : numberAfterMarker line = true := by
      simp only [numberAfterMarker, List.any_eq_true, List.mem_tails, Bool.and_eq_true]
      refine ⟨b, ⟨a, hab.symm⟩, ?_, ?_⟩
      · rw [e1]; simp [List.isPrefixOf_iff_prefix]
      · rw [e1]; simpa using hnum
    rw [h] at this
    exact absurd this (by simp)

/-- C11: defaults of `parseEXTINF`.  When no occurrence of `#EXTINF:` in the line is
    immediately followed by an optionally signed decimal number the duration is `-1`; when
    the line lacks `tvg-id="`, `tvg-name="` or `tvg-logo="` the corresponding field is the
    empty string; when it lacks `group-title="` the group is `Outros`. -/
theorem parseEXTINF_defaults (line : Str) :
    (numberAfterMarker line = false → (parseEXTINF line).duration = Decimal.ofInt (-1)) ∧
    (includes line (js "tvg-id=\"") = false → (parseEXTINF line).tvgId = []) ∧
    (includes line (js "tvg-name=\"") = false → (parseEXTINF line).tvgName = []) ∧
    (includes line (js "tvg-logo=\"") = false → (parseEXTINF line).logo = []) ∧
    (includes line (js "group-title=\"") = false → (parseEXTINF line).group = js "Outros") := by
  refine ⟨?_, ?_, ?_, ?_, ?_⟩
  · intro h
    rw [parseEXTINF_duration_eq, reDuration_exec_none line h]
  · intro h
    rw [parseEXTINF_tvgId_eq, reAttr_exec_none "tvg-id" line (by rw [← h]; rfl)]
  · intro h
    rw [parseEXTINF_tvgName_eq, reAttr_exec_none "tvg-name" line (by rw [← h]; rfl)]
  · intro h
    rw [parseEXTINF_logo_eq, reAttr_exec_none "tvg-logo" line (by rw [← h]; rfl)]
  · intro h
    rw [parseEXTINF_group_eq, reAttr_exec_none "group-title" line (by rw [← h]; rfl)]

/-- Witness of C11: the header `#EXTINF:abc,Name` has no number and no attribute. -/
theorem parseEXTINF_defaults_witness :
    (parseEXTINF (js "#EXTINF:abc,Name")).duration = Decimal.ofInt (-1) ∧
    (parseEXTINF (js "#EXTINF:abc,Name")).tvgId = [] ∧
    (parseEXTINF (js "#EXTINF:abc,Name")).tvgName = [] ∧
    (parseEXTINF (js "#EXTINF:abc,Name")).logo = [] ∧
    (parseEXTINF (js "#EXTINF:abc,Name")).group = js "Outros" :=
  ⟨(parseEXTINF_defaults (js "#EXTINF:abc,Name")).1 (by decide!),
   (parseEXTINF_defaults (js "#EXTINF:abc,Name")).2.1 (by decide!),
   (parseEXTINF_defaults (js "#EXTINF:abc,Name")).2.2.1 (by decide!),
   (parseEXTINF_defaults (js "#EXTINF:abc,Name")).2.2.2.1 (by decide!),
   (parseEXTINF_defaults (js "#EXTINF:abc,Name")).2.2.2.2 (by decide!)⟩

/-! ## Matching forwards -/

theorem run_seq {α : Type} (ic : Bool) (a b : Regex) (x : Cursor) (c : Caps)
    (k : Cursor → Caps → Option α) :
    (Regex.seq a b).run ic x c k = a.run ic x c (fun y c1 => b.run ic y c1 k) := rfl

theorem run_group {α : Type} (ic : Bool) (n : Nat) (r : Regex) (x : Cursor) (c : Caps)
    (k : Cursor → Caps → Option α) :
    (Regex.group n r).run ic x c k =
      r.run ic x c
        (fun y c1 => k y ((n, x.rest.take (x.rest.length - y.rest.length)) :: c1)) := rfl

/-- A literal string matches its own text, with or without the flag `i`. -/
theorem run_literal_self {α : Type} (ic : Bool) (w r : Str) (p : Option Nat) (c : Caps)
    (k : Cursor → Caps → Option α) :
    (Regex.cat (w.map (fun u => Regex.cls (.lit u)))).run ic ⟨p, w ++ r⟩ c k =
      k ⟨prevAfter p w, r⟩ c := by
  induction w generalizing p with
  | nil => rfl
  | cons u w ih =>
    rw [List.map_cons, run_cat_cons]
    simp only [List.cons_append, run_cls_cons, CharSet.test, decide_True, if_true]
    rw [ih, prevAfter_cons]

theorem run_lits_self {α : Type} (ic : Bool) (s : String) (r : Str) (p : Option Nat)
    (c : Caps) (k : Cursor → Caps → Option α) :
    (Regex.lits s).run ic ⟨p, js s ++ r⟩ c k = k ⟨prevAfter p (js s), r⟩ c :=
  run_literal_self ic (js s) r p c k

/-- Greedy `+` of a class takes the whole run when the continuation accepts there. -/
theorem run_plus_cls_all {α : Type} (ic : Bool) (s : CharSet) (w r : Str) (p : Option Nat)
    (c : Caps) (k : Cursor → Caps → Option α) (v : α) (hne : w ≠ [])
    (hw : ∀ u ∈ w, s.test ic u = true) (hr : ∀ u ∈ r.head?, s.test ic u = false)
    (hk : k ⟨prevAfter p w, r⟩ c = some v) :
    (Regex.plus (.cls s)).run ic ⟨p, w ++ r⟩ c k = some v := by
  cases w with
  | nil => exact absurd rfl hne
  | cons u w =>
    rw [Regex.plus, run_seq, List.cons_append, run_cls_cons,
      if_pos (hw u (List.mem_cons_self _ _))]
    exact run_star_cls_all ic s w r (some u) c k v
      (fun x hx => hw x (List.mem_cons_of_mem _ hx)) hr (by rw [← prevAfter_cons]; exact hk)

/-- A group around a greedy `+` of a class captures the whole run. -/
theorem run_group_plus_cls_all {α : Type} (ic : Bool) (s : CharSet) (n : Nat) (w r : Str)
    (p : Option Nat) (c : Caps) (k : Cursor → Caps → Option α) (v : α) (hne : w ≠ [])
    (hw : ∀ u ∈ w, s.test ic u = true) (hr : ∀ u ∈ r.head?, s.test ic u = false)
    (hk : k ⟨prevAfter p w, r⟩ ((n, w) :: c) = some v) :
    (Regex.group n (Regex.plus (.cls s))).run ic ⟨p, w ++ r⟩ c k = some v := by
  rw [run_group]
  apply run_plus_cls_all ic s w r p c _ v hne hw hr
  simp only [take_captured]
  exact hk

/-- Lazy repetition of a class stops at the first place where the continuation
    accepts. -/
theorem run_lazyStar_cls_first {α : Type} (ic : Bool) (s : CharSet) (w r : Str)
    (p : Option Nat) (c : Caps) (k : Cursor → Caps → Option α) (v : α)
    (hw : ∀ u ∈ w, s.test ic u = true)
    (hnone : ∀ w1 w2, w = w1 ++ w2 → w2 ≠ [] → k ⟨prevAfter p w1, w2 ++ r⟩ c = none)
    (hk : k ⟨prevAfter p w, r⟩ c = some v) :
    (Regex.lazyStar (.cls s)).run ic ⟨p, w ++ r⟩ c k = some v := by
  induction w generalizing p with
  | nil =>
    cases r with
    | nil => exact hk
    | cons u r =>
      by_cases hu : s.test ic u = true
      · rw [List.nil_append, run_lazyStar_cls_cons ic s p u r c k hu]
        have : k ⟨p, u :: r⟩ c = some v := hk
        rw [this]
      · rw [List.nil_append, run_lazyStar_cls_stop ic s p (u :: r) c k
          (by intro x hx; simp at hx; subst hx; simpa using hu)]
        exact hk
  | cons u w ih =>
    rw [List.cons_append, run_lazyStar_cls_cons ic s p u _ c k (hw u (List.mem_cons_self _ _))]
    have h0 := hnone [] (u :: w) rfl (by simp)
    simp only [prevAfter_nil, List.cons_append] at h0
    rw [h0]
    simp only
    apply ih (some u) (fun x hx => hw x (List.mem_cons_of_mem _ hx))
    · intro w1 w2 hw12 hne
      have := hnone (u :: w1) w2 (by rw [hw12]; rfl) hne
      rw [prevAfter_cons] at this
      exact this
    · rw [← prevAfter_cons]; exact hk

/-- A group around a lazy `+` of a class captures up to the first place where the
    continuation accepts. -/
theorem run_group_lazyPlus_cls_first {α : Type} (ic : Bool) (s : CharSet) (n : Nat) (u : Nat)
    (w r : Str) (p : Option Nat) (c : Caps) (k : Cursor → Caps → Option α) (v : α)
    (hu : s.test ic u = true) (hw : ∀ x ∈ w, s.test ic x = true)
    (hnone : ∀ w1 w2, w = w1 ++ w2 → w2 ≠ [] →
      k ⟨prevAfter (some u) w1, w2 ++ r⟩ ((n, u :: w1) :: c) = none)
    (hk : k ⟨prevAfter (some u) w, r⟩ ((n, u :: w) :: c) = some v) :
    (Regex.group n (Regex.lazyPlus (.cls s))).run ic ⟨p, u :: w ++ r⟩ c k = some v := by
  rw [run_group, Regex.lazyPlus, run_seq, List.cons_append, run_cls_cons, if_pos hu]
  apply run_lazyStar_cls_first ic s w r (some u) c _ v hw
  · intro w1 w2 hw12 hne
    have := hnone w1 w2 hw12 hne
    simp only
    have ht : (u :: (w ++ r)).take ((u :: (w ++ r)).length - (w2 ++ r).length) = u :: w1 := by
      rw [hw12]
      have := take_captured (u :: w1) (w2 ++ r)
      simpa [List.append_assoc] using this
    rw [ht]
    exact this
  · simp only
    have ht : (u :: (w ++ r)).take ((u :: (w ++ r)).length - r.length) = u :: w := by
      have := take_captured (u :: w) r
      simpa using this
    rw [ht]
    exact hk

/-! ## The format `Name S01E02` -/

theorem js_S : js "S" = [83] := by decide!

theorem js_E : js "E" = [69] := by decide!

theorem js_space_S : js " S" = [32, 83] := by decide!

theorem parseInt_digits (s : Str) (hs : ∀ u ∈ s, isDigit u = true) :
    parseInt s = (parseDigits s : Nat) := by
  have hhead : s.head? ≠ some 45 := by
    cases s with
    | nil => simp
    | cons u s =>
      simp only [List.head?_cons, ne_eq, Option.some.injEq]
      rintro rfl
      exact absurd (hs 45 (List.mem_cons_self _ _)) (by decide)
  have htake : s.takeWhile isDigit = s := by
    rw [List.takeWhile_eq_self_iff]
    exact hs
  simp only [parseInt, if_neg hhead, htake]

/-- The tail `\s+S(\d+)E(\d+)` of the first pattern on the text ` S<s>E<e>`. -/
theorem run_tail_SE {α : Type} (s e : Str) (p : Option Nat) (c : Caps)
    (k : Cursor → Caps → Option α) (v : α)
    (hs : s ≠ []) (hsd : ∀ u ∈ s, isDigit u = true)
    (he : e ≠ []) (hed : ∀ u ∈ e, isDigit u = true)
    (hk : k ⟨prevAfter (some 69) e, []⟩ ((3, e) :: (2, s) :: c) = some v) :
    (Regex.cat [.plus (.cls .space), .lits "S", .group 2 (.plus (.cls .digit)), .lits "E",
        .group 3 (.plus (.cls .digit))]).run true ⟨p, 32 :: 83 :: (s ++ 69 :: e)⟩ c k
      = some v := by
  rw [run_cat_cons]
  apply run_plus_cls_all true .space [32] (83 :: (s ++ 69 :: e)) p c _ v (by simp)
    (by intro u hu; simp at hu; subst hu; decide) (by intro u hu; simp at hu; subst hu; decide)
  rw [run_cat_cons]
  have h1 := run_lits_self true "S" (s ++ 69 :: e) (prevAfter p [32]) c
    (fun y c1 => (Regex.cat [.group 2 (.plus (.cls .digit)), .lits "E",
        .group 3 (.plus (.cls .digit))]).run true y c1 k)
  rw [js_S] at h1
  rw [show (83 :: (s ++ 69 :: e)) = [83] ++ (s ++ 69 :: e) from rfl, h1]
  rw [run_cat_cons]
  apply run_group_plus_cls_all true .digit 2 s (69 :: e) _ c _ v hs hsd
    (by intro u hu; simp at hu; subst hu; decide)
  rw [run_cat_cons]
  have h2 := run_lits_self true "E" e (prevAfter (prevAfter (prevAfter p [32]) [83]) s)
    ((2, s) :: c)
    (fun y c1 => (Regex.cat [.group 3 (.plus (.cls .digit))]).run true y c1 k)
  rw [js_E] at h2
  rw [show (69 :: e) = [69] ++ e from rfl, h2]
  have h3 := run_group_plus_cls_all true .digit 3 e [] (prevAfter
    (prevAfter (prevAfter (prevAfter p [32]) [83]) s) [69]) ((2, s) :: c) k v he hed (by simp)
    (by
      have : prevAfter (prevAfter (prevAfter (prevAfter (prevAfter p [32]) [83]) s) [69]) e
          = prevAfter (some 69) e := by
        cases e with
        | nil => exact absurd rfl he
        | cons d e => rw [prevAfter_cons, prevAfter_cons]
      rw [this]
      exact hk)
  rw [List.append_nil] at h3
  exact h3

/-- The tail `\s+S(\d+)…` does not match inside a name without digits that ends with
    a character that is not white space. -/
theorem run_tail_SE_none {α : Type} (w2 rest : Str) (p : Option Nat) (c : Caps)
    (k : Cursor → Caps → Option α) (tailPattern : List Regex)
    (hne : w2 ≠ []) (hnd : ∀ u ∈ w2, isDigit u = false)
    (hlast : ∀ u ∈ w2.getLast?, isWhiteSpace u = false) :
    (Regex.cat (.plus (.cls .space) :: .lits "S" :: .group 2 (.plus (.cls .digit)) ::
        tailPattern)).run true ⟨p, w2 ++ 32 :: 83 :: rest⟩ c k = none := by
  cases hrun : (Regex.cat (.plus (.cls .space) :: .lits "S" ::
      .group 2 (.plus (.cls .digit)) :: tailPattern)).run true
        ⟨p, w2 ++ 32 :: 83 :: rest⟩ c k with
  | none => rfl
  | some v =>
    exfalso
    obtain ⟨y, c1, hm, -⟩ := run_sound true _ _ _ _ _ hrun
    obtain ⟨y1, c2, h1, hm1⟩ := matches_cat_cons hm
    obtain ⟨y2, c3, h2, hm2⟩ := matches_cat_cons hm1
    obtain ⟨y3, c4, h3, -⟩ := matches_cat_cons hm2
    obtain ⟨u, ws, hu1, hu2, hu3, -, -⟩ := matches_plus_cls h1
    obtain ⟨t, ht1, ht2, -, -⟩ := matches_lits "S" h2
    obtain ⟨c5, h4, -⟩ := matches_group h3
    obtain ⟨d, ds, hd1, hd2, -, -, -⟩ := matches_plus_cls h4
    rw [js_S] at ht2
    obtain ⟨ch, rfl⟩ : ∃ ch, t = [ch] := by
      cases t with
      | nil => simp at ht2
      | cons ch t =>
        cases t with
        | nil => exact ⟨ch, rfl⟩
        | cons _ _ => simp at ht2
    simp only [List.map_cons, List.map_nil, List.cons.injEq, and_true] at ht2
    simp only at hu1
    rw [ht1, hd1] at hu1
    -- w2 ++ ' ' :: 'S' :: rest = (u :: ws) ++ ch :: d :: ds ++ y3.rest
    have heq : w2 ++ 32 :: 83 :: rest = (u :: ws) ++ (ch :: d :: (ds ++ y3.rest)) := by
      simpa using hu1
    rcases List.append_eq_append_iff.mp heq with ⟨t2, hA, hB⟩ | ⟨t2, hA, hB⟩
    · -- the white space covers all of `w2`
      have hl : ∀ x ∈ w2, isWhiteSpace x = true := by
        intro x hx
        have hx2 : x ∈ u :: ws := by rw [hA]; exact List.mem_append_left _ hx
        rcases List.mem_cons.mp hx2 with rfl | hx2
        · simpa [CharSet.test] using hu2
        · simpa [CharSet.test] using hu3 x hx2
      have hmem := List.getLast_mem hne
      have h1 := hl _ hmem
      have h2 := hlast (w2.getLast hne) (by simp [List.getLast?_eq_getLast _ hne])
      rw [h1] at h2
      exact absurd h2 (by simp)
    · -- `ch` and `d` lie in `w2` or at its end
      cases t2 with
      | nil =>
        simp only [List.nil_append] at hB
        have h32 : ch = 32 := by
          have := congrArg List.head? hB
          simpa using this
        subst h32
        exact absurd ht2 (by decide)
      | cons a t2 =>
        cases t2 with
        | nil =>
          have h2 : d = 32 := by
            have := congrArg (fun l => (l.drop 1).head?) hB
            simpa using this
          subst h2
          simp [CharSet.test, isDigit] at hd2
        | cons b t2 =>
          have hb : b = d := by
            have := congrArg (fun l => (l.drop 1).head?) hB
            simpa using this.symm
          subst hb
          have hmem : b ∈ w2 := by rw [hA]; simp
          have := hnd b hmem
          simp only [CharSet.test] at hd2
          rw [this] at hd2
          exact absurd hd2 (by simp)

theorem run_bol_start {α : Type} (ic : Bool) (rest : Str) (c : Caps)
    (k : Cursor → Caps → Option α) :
    Regex.bol.run ic ⟨none, rest⟩ c k = k ⟨none, rest⟩ c := rfl

/-- A trimmed text that is not empty ends with a character that is not white space. -/
theorem trim_eq_self_last (n : Str) (h : trim n = n) (hne : n ≠ []) :
    isWhiteSpace (n.getLast hne) = false := by
  have h1 : (n.dropWhile isWhiteSpace).rdropWhile isWhiteSpace = n := h
  have hlen1 : ((n.dropWhile isWhiteSpace).rdropWhile isWhiteSpace).length ≤
      (n.dropWhile isWhiteSpace).length :=
    (List.rdropWhile_prefix _ _).length_le
  have hlen2 : (n.dropWhile isWhiteSpace).length ≤ n.length :=
    (List.dropWhile_suffix _).length_le
  rw [h1] at hlen1
  have hd : n.dropWhile isWhiteSpace = n :=
    (List.dropWhile_suffix _).eq_of_length (le_antisymm hlen2 hlen1)
  rw [hd] at h1
  have := (List.rdropWhile_eq_self_iff.mp h1) hne
  simpa using this

theorem trim_eq_self_of_last (n : Str) (hfirst : ∀ u ∈ n.head?, isWhiteSpace u = false)
    (hlast : ∀ u ∈ n.getLast?, isWhiteSpace u = false) : trim n = n := by
  have hd : n.dropWhile isWhiteSpace = n := by
    cases n with
    | nil => rfl
    | cons u n => simp [List.dropWhile, hfirst u (by simp)]
  rw [trim, hd, List.rdropWhile_eq_self_iff]
  intro hne
  simp [hlast (n.getLast hne) (by simp [List.getLast?_eq_getLast _ hne])]

/-- The first pattern on the name `n S<s>E<e>`. -/
theorem exec_first_pattern (n s e : Str) (hn : n ≠ [])
    (hnd : ∀ u ∈ n, isDigit u = false) (hnl : ∀ u ∈ n, isLineTerminator u = false)
    (htrim : trim n = n)
    (hs : s ≠ []) (hsd : ∀ u ∈ s, isDigit u = true)
    (he : e ≠ []) (hed : ∀ u ∈ e, isDigit u = true) :
    (Regex.cat [.bol, .group 1 (.lazyPlus (.cls .dot)), .plus (.cls .space), .lits "S",
        .group 2 (.plus (.cls .digit)), .lits "E", .group 3 (.plus (.cls .digit))]).exec true
        (n ++ 32 :: 83 :: (s ++ 69 :: e)) =
      some ⟨[], n ++ 32 :: 83 :: (s ++ 69 :: e), [(3, e), (2, s), (1, n)],
        ⟨prevAfter (some 69) e, []⟩⟩ := by
  apply searchFrom_here
  cases n with
  | nil => exact absurd rfl hn
  | cons u0 n1 =>
    have hlastn := trim_eq_self_last (u0 :: n1) htrim hn
    rw [Regex.matchHere, run_cat_cons, run_bol_start, run_cat_cons]
    apply run_group_lazyPlus_cls_first true .dot 1 u0 n1 (32 :: 83 :: (s ++ 69 :: e)) none []
    · simp [CharSet.test, hnl u0 (List.mem_cons_self _ _)]
    · intro x hx
      simp [CharSet.test, hnl x (List.mem_cons_of_mem _ hx)]
    · intro w1 w2 hw hne
      apply run_tail_SE_none w2 (s ++ 69 :: e) _ _ _ _ hne
      · intro x hx
        exact hnd x (by rw [hw]; simp [hx])
      · intro x hx
        have hl : (u0 :: n1).getLast? = w2.getLast? := by
          have : u0 :: n1 = (u0 :: w1) ++ w2 := by rw [hw]; rfl
          rw [this]
          exact List.getLast?_append_of_ne_nil _ hne
        rw [← hl, List.getLast?_eq_getLast _ hn] at hx
        simp only [Option.mem_def, Option.some.injEq] at hx
        rw [← hx]
        exact hlastn
    · apply run_tail_SE s e _ _ _ _ hs hsd he hed
      simp

/-- C12: on the name `n S<s>E<e>`, for a show name `n` that is not empty, holds no
    digit and no line terminator and has no white space at its ends, and for non-empty
    strings of digits `s` and `e` whose decimal values are below `2^53` (where a number
    of the language is the exact integer), `parseSeriesInfo` returns the show name `n`,
    the season `s` and the episode `e` read as decimal numbers. -/
theorem parseSeriesInfo_season_episode (n s e : Str) (hn : n ≠ [])
    (hnd : ∀ u ∈ n, isDigit u = false) (hnl : ∀ u ∈ n, isLineTerminator u = false)
    (htrim : trim n = n)
    (hs : s ≠ []) (hsd : ∀ u ∈ s, isDigit u = true)
    (he : e ≠ []) (hed : ∀ u ∈ e, isDigit u = true)
    (hexact : parseDigits s < 9007199254740992 ∧ parseDigits e < 9007199254740992) :
    parseSeriesInfo (n ++ js " S" ++ s ++ js "E" ++ e) =
      { seriesName := n, season := (parseDigits s : Nat), episode := (parseDigits e : Nat) } := by
  have _ := hexact
  have hname : n ++ js " S" ++ s ++ js "E" ++ e = n ++ 32 :: 83 :: (s ++ 69 :: e) := by
    rw [js_space_S, js_E]
    simp
  rw [hname]
  have hexec := exec_first_pattern n s e hn hnd hnl htrim hs hsd he hed
  have hloop : seriesLoop (n ++ 32 :: 83 :: (s ++ 69 :: e)) seriesPatterns
      { seriesName := n ++ 32 :: 83 :: (s ++ 69 :: e), season := 1, episode := 1 } =
      { seriesName := n, season := (parseDigits s : Nat), episode := (parseDigits e : Nat) } := by
    simp only [seriesPatterns, seriesLoop, hexec, Match.group, List.lookup]
    simp [htrim, parseInt_digits s hsd, parseInt_digits e hed]
  have hneq : ¬ n = n ++ 32 :: 83 :: (s ++ 69 :: e) := by
    intro h
    have := congrArg List.length h
    simp at this
  simp only [parseSeriesInfo, hloop, if_neg hneq]

/-- Witness of C12: `Breaking Bad S01E03` gives `Breaking Bad`, season 1, episode 3. -/
theorem parseSeriesInfo_season_episode_witness :
    parseSeriesInfo (js "Breaking Bad" ++ js " S" ++ js "01" ++ js "E" ++ js "03") =
      { seriesName := js "Breaking Bad", season := (parseDigits (js "01") : Nat),
        episode := (parseDigits (js "03") : Nat) } :=
  parseSeriesInfo_season_episode (js "Breaking Bad") (js "01") (js "03") (by decide!)
    (by decide!) (by decide!) (by decide!) (by decide!) (by decide!) (by decide!) (by decide!)
    (by decide!)

/-! ## The serializer -/

theorem foldl_append_flatten {α : Type} (f : α → Str) (l : List α) (init : Str) :
    l.foldl (fun acc x => acc ++ f x) init = init ++ (l.map f).flatten := by
  induction l generalizing init with
  | nil => simp
  | cons a l ih => simp [List.foldl_cons, ih, List.append_assoc]

theorem truthy_iff (s : Str) : truthy s = true ↔ s ≠ [] := by
  cases s <;> simp [truthy]

theorem generateEXTINF_eq (item : Item) :
    generateEXTINF item = headerLineSpec item ++ js "\n" := by
  have hfold : ∀ (l : List (Str × Str)) (init : Str),
      l.foldl (fun extinf p => extinf ++ js " " ++ p.1 ++ js "=\"" ++ p.2 ++ js "\"") init =
        init ++ (l.map (fun p => renderAttribute p.1 p.2)).flatten := by
    intro l init
    have := foldl_append_flatten (fun p : Str × Str => renderAttribute p.1 p.2) l init
    simpa [renderAttribute, List.append_assoc] using this
  have k1 : js " tvg-id=\"" = js " " ++ (js "tvg-id" ++ js "=\"") := by decide!
  have k2 : js " tvg-name=\"" = js " " ++ (js "tvg-name" ++ js "=\"") := by decide!
  have k3 : js " tvg-logo=\"" = js " " ++ (js "tvg-logo" ++ js "=\"") := by decide!
  have k4 : js " group-title=\"" = js " " ++ (js "group-title" ++ js "=\"") := by decide!
  simp only [generateEXTINF, headerLineSpec, renderNamed, hfold]
  by_cases h1 : item.tvgId = [] <;> by_cases h2 : item.tvgName = [] <;>
    by_cases h3 : item.logo = [] <;> by_cases h4 : item.group = [] <;>
    simp [h1, h2, h3, h4, truthy, renderAttribute, List.append_assoc, k1, k2, k3, k4]

/-- C21: the output of `generate` is the line `#EXTM3U` followed, for each item in
    order, by its header line and its url line; the header line is `#EXTINF:` with the
    duration, then `tvg-id`, `tvg-name`, `tvg-logo` and `group-title` in this order, each
    written if and only if its field is not empty, then the extra attributes as
    `key="value"`, then a comma and the name. -/
theorem generate_layout (items : List Item) (title : Str) :
    generate items title =
      js "#EXTM3U" ++ js "\n" ++
        (items.map (fun item => headerLineSpec item ++ js "\n" ++ (item.url ++ js "\n"))).flatten := by
  have h := foldl_append_flatten
    (fun item : Item => generateEXTINF item ++ (item.url ++ js "\n")) items (js "#EXTM3U\n")
  have hg : generate items title =
      items.foldl (fun acc item => acc ++ (generateEXTINF item ++ (item.url ++ js "\n")))
        (js "#EXTM3U\n") := by
    simp only [generate, List.append_assoc]
  rw [hg, h]
  have h0 : js "#EXTM3U\n" = js "#EXTM3U" ++ js "\n" := by decide!
  rw [h0]
  congr 1
  apply congrArg
  apply List.map_congr_left
  intro item _
  rw [generateEXTINF_eq]

/-- C22, failing input: an item with duration 0.  Both serializers write `#EXTINF:-1`
    for it, as for an item without duration, and not `#EXTINF:0`. -/
theorem generate_zero_duration :
    generateEXTINF { itemNamed "A" "" with duration := Decimal.ofInt 0 } = js "#EXTINF:-1,A\n" ∧
    generateM3UItem
      { BItem.empty with
        duration := some 0
        name := some (js "A")
        url := some (js "http://x") } = js "#EXTINF:-1,A\nhttp://x\n" ∧
    generateEXTINF { itemNamed "A" "" with duration := Decimal.ofInt 7 } = js "#EXTINF:7,A\n" := by
  refine ⟨by decide!, by decide!, by decide!⟩

/-- C23, failing input: two items that differ in name and url and have the same id:
    both give the text `a-b-c-g` to the hash. -/
theorem generateId_collision :
    generateId { itemNamed "a-b" "g" with url := js "c" } =
      generateId { itemNamed "a" "g" with url := js "b-c" } ∧
    ({ itemNamed "a-b" "g" with url := js "c" } : Item).name ≠
      ({ itemNamed "a" "g" with url := js "b-c" } : Item).name ∧
    ({ itemNamed "a-b" "g" with url := js "c" } : Item).url ≠
      ({ itemNamed "a" "g" with url := js "b-c" } : Item).url := by
  refine ⟨by decide!, by decide!, by decide!⟩

/-- C24, failing input: any list with at least one item.  `categorizeContent` throws a
    `TypeError`, because `M3UManager` has no method `detectCategory`; only the empty list
    is categorized. -/
theorem categorizeContent_throws (item : BItem) (rest : List BItem) :
    categorizeContent (item :: rest) =
      .error "TypeError: this.detectCategory is not a function" ∧
    categorizeContent [] =
      .ok { channels := [], movies := [], series := [], cartoons := [] } :=
  ⟨rfl, rfl⟩

/-! ## Categories -/

theorem detectCategory_mem_categories (toLowerCase : Str → Str) (item : Item) :
    detectCategory toLowerCase item ∈ categories := by
  have hkeys : patterns.map Prod.fst =
      ["movies", "series", "cartoons", "sports", "news", "music", "documentaries", "adult"] := rfl
  rcases detectLoop_spec
      (toLowerCase item.name ++ js " " ++ toLowerCase item.group) patterns with
    ⟨before, c, ps, after, htab, -, -, hres⟩ | ⟨-, hres⟩
  · have hc : c ∈ patterns.map Prod.fst := by
      rw [htab]; simp
    have hres2 : detectCategory toLowerCase item = c := hres
    rw [hres2]
    rw [hkeys] at hc
    simp only [categories]
    simp only [List.mem_cons] at hc ⊢
    tauto
  · have hres2 : detectCategory toLowerCase item = "channels" := hres
    rw [hres2]
    simp [categories]

theorem getKey_isSome_of_mem {κ β : Type} [DecidableEq κ] (k : κ) (m : List (κ × β))
    (h : k ∈ m.map Prod.fst) : ∃ v, getKey k m = some v := by
  induction m with
  | nil => simp at h
  | cons q rest ih =>
    obtain ⟨k1, v⟩ := q
    by_cases hk : k1 = k
    · exact ⟨v, by simp [getKey, hk]⟩
    · simp only [List.map_cons, List.mem_cons] at h
      rcases h with h | h
      · exact absurd h.symm hk
      · obtain ⟨w, hw⟩ := ih h
        exact ⟨w, by simp [getKey, hk, hw]⟩

/-- One insertion adds one entry to the lists of a dictionary. -/
theorem sum_alterKey {κ β : Type} [DecidableEq κ] (w : β → Nat) (k : κ) (d : β) (f : β → β)
    (hd : w d = 0) (hf : ∀ v, w (f v) = w v + 1) (m : List (κ × β)) :
    ((alterKey k d f m).map (fun p => w p.2)).sum = (m.map (fun p => w p.2)).sum + 1 := by
  induction m with
  | nil => simp [alterKey, hf, hd]
  | cons q rest ih =>
    obtain ⟨k1, v⟩ := q
    by_cases hk : k1 = k
    · simp [alterKey, hk, hf]
      omega
    · simp [alterKey, hk, ih]
      omega

theorem categorizeStep_eq (toLowerCase : Str → Str) (acc : List (String × List Item))
    (item : Item) (hkeys : acc.map Prod.fst = categorizeInit.map Prod.fst) :
    categorizeStep toLowerCase acc item =
      alterKey (detectCategory toLowerCase item) [] (fun l => l ++ [item]) acc := by
  have hmem : detectCategory toLowerCase item ∈ acc.map Prod.fst := by
    rw [hkeys]
    have := detectCategory_mem_categories toLowerCase item
    simp only [categories, List.mem_cons, List.mem_singleton, List.not_mem_nil, or_false] at this
    simp only [categorizeInit, List.map_cons, List.map_nil, List.mem_cons, List.mem_singleton,
      List.not_mem_nil, or_false]
    tauto
  obtain ⟨v, hv⟩ := getKey_isSome_of_mem _ _ hmem
  simp only [categorizeStep, hv]

theorem categorize_foldl (toLowerCase : Str → Str) (items : List Item) :
    ∀ acc : List (String × List Item), acc.map Prod.fst = categorizeInit.map Prod.fst →
      (∀ k, getKey k (items.foldl (categorizeStep toLowerCase) acc) =
        (getKey k acc).map
          (fun l => l ++ items.filter (fun i => decide (detectCategory toLowerCase i = k)))) ∧
      ((items.foldl (categorizeStep toLowerCase) acc).map (fun p => p.2.length)).sum =
        (acc.map (fun p => p.2.length)).sum + items.length := by
  induction items with
  | nil =>
    intro acc _
    refine ⟨?_, by simp⟩
    intro k
    cases hg : getKey k acc <;> simp [hg]
  | cons item rest ih =>
    intro acc hkeys
    have hstep := categorizeStep_eq toLowerCase acc item hkeys
    have hmem : detectCategory toLowerCase item ∈ acc.map Prod.fst := by
      rw [hkeys]
      have := detectCategory_mem_categories toLowerCase item
      simp only [categories, List.mem_cons, List.mem_singleton, List.not_mem_nil, or_false]
        at this
      simp only [categorizeInit, List.map_cons, List.map_nil, List.mem_cons,
        List.mem_singleton, List.not_mem_nil, or_false]
      tauto
    have hkeys2 : (categorizeStep toLowerCase acc item).map Prod.fst =
        categorizeInit.map Prod.fst := by
      rw [hstep, keys_alterKey, if_pos hmem, hkeys]
    obtain ⟨ih1, ih2⟩ := ih (categorizeStep toLowerCase acc item) hkeys2
    rw [List.foldl_cons]
    constructor
    · intro k
      rw [ih1 k, hstep]
      by_cases hk : detectCategory toLowerCase item = k
      · subst hk
        rw [getKey_alterKey_self]
        obtain ⟨v, hv⟩ := getKey_isSome_of_mem _ _ hmem
        simp [hv, List.filter_cons]
      · rw [getKey_alterKey_ne _ _ _ _ _ hk]
        cases getKey k acc with
        | none => rfl
        | some v => simp [List.filter_cons, hk]
    · rw [ih2, hstep, sum_alterKey (fun l : List Item => l.length) _ [] _ rfl (by simp)]
      simp only [List.length_cons]
      omega

/-- C27: `categorize` partitions the items.  The list of each of the nine categories is
    the sub-list, in input order, of the items that `detectCategory` sends to it; the
    list `others` is empty; the lengths of the ten lists sum to the length of the input. -/
theorem categorize_partition (toLowerCase : Str → Str) (items : List Item) :
    (∀ c ∈ categories, getKey c (categorize toLowerCase items) =
      some (items.filter (fun i => decide (detectCategory toLowerCase i = c)))) ∧
    getKey "others" (categorize toLowerCase items) = some [] ∧
    ((categorize toLowerCase items).map (fun p => p.2.length)).sum = items.length ∧
    (categorize toLowerCase items).map Prod.fst =
      ["channels", "movies", "series", "cartoons", "sports", "news", "music", "documentaries",
       "adult", "others"] := by
  obtain ⟨h1, h2⟩ := categorize_foldl toLowerCase items categorizeInit rfl
  refine ⟨?_, ?_, ?_, ?_⟩
  · intro c hc
    have hinit : getKey c categorizeInit = some [] := by
      simp only [categories, List.mem_cons, List.mem_singleton, List.not_mem_nil, or_false] at hc
      rcases hc with rfl | rfl | rfl | rfl | rfl | rfl | rfl | rfl | rfl <;> rfl
    have := h1 c
    rw [hinit] at this
    simpa [categorize] using this
  · have := h1 "others"
    have hinit : getKey "others" categorizeInit = some [] := rfl
    rw [hinit] at this
    have hnone : items.filter (fun i => decide (detectCategory toLowerCase i = "others")) = [] := by
      rw [List.filter_eq_nil_iff]
      intro i _ hi
      have hm := detectCategory_mem_categories toLowerCase i
      simp only [decide_eq_true_eq] at hi
      rw [hi] at hm
      exact absurd hm (by decide)
    rw [hnone] at this
    simpa [categorize] using this
  · have hsum : (categorizeInit.map (fun p => p.2.length)).sum = 0 := rfl
    rw [hsum] at h2
    simpa [categorize] using h2
  · have hk : ∀ (l : List Item) (acc : List (String × List Item)),
        acc.map Prod.fst = categorizeInit.map Prod.fst →
        (l.foldl (categorizeStep toLowerCase) acc).map Prod.fst = categorizeInit.map Prod.fst := by
      intro l
      induction l with
      | nil => intro acc h; exact h
      | cons i l ih =>
        intro acc h
        rw [List.foldl_cons]
        apply ih
        have hmem : detectCategory toLowerCase i ∈ acc.map Prod.fst := by
          rw [h]
          have := detectCategory_mem_categories toLowerCase i
          simp only [categories, List.mem_cons, List.mem_singleton, List.not_mem_nil, or_false]
            at this
          simp only [categorizeInit, List.map_cons, List.map_nil, List.mem_cons,
            List.mem_singleton, List.not_mem_nil, or_false]
          tauto
        rw [categorizeStep_eq toLowerCase acc i h, keys_alterKey, if_pos hmem, h]
    rw [categorize, hk items categorizeInit rfl]
    rfl

/-! ## Ignored lines -/

theorem split_joinLines (ls : List Str) (h : ∀ l ∈ ls, 10 ∉ l) (hne : ls ≠ []) :
    split 10 (joinLines ls) = ls := by
  induction ls with
  | nil => exact absurd rfl hne
  | cons l ls ih =>
    cases ls with
    | nil => exact split_of_not_mem 10 l (h l (List.mem_cons_self _ _))
    | cons l2 ls =>
      have hj : joinLines (l :: l2 :: ls) = l ++ 10 :: joinLines (l2 :: ls) := rfl
      rw [hj, split_append 10 l _ (h l (List.mem_cons_self _ _)),
        ih (fun x hx => h x (List.mem_cons_of_mem _ hx)) (List.cons_ne_nil _ _)]

theorem parse_joinLines (ls : List Str) (h : ∀ l ∈ ls, 10 ∉ l) :
    parse (joinLines ls) =
      parseLoop (ls.filter (fun line => truthy (trim line))) none [] := by
  cases ls with
  | nil => rfl
  | cons l ls => rw [parse, split_joinLines _ h (List.cons_ne_nil _ _)]

/-- A line that is neither a header nor a URL line changes nothing in the loop. -/
theorem parseLoop_insert (a b : List Str) (L : Str)
    (h1 : startsWith (trim L) (js "#EXTINF:") = false)
    (h2 : startsWith (trim L) (js "http") = false) :
    ∀ (cur : Option Item) (items : List Item),
      parseLoop (a ++ L :: b) cur items = parseLoop (a ++ b) cur items := by
  induction a with
  | nil =>
    intro cur items
    rw [List.nil_append, List.nil_append, parseLoop_cons]
    simp [h1, h2]
  | cons l a ih =>
    intro cur items
    rw [List.cons_append, List.cons_append, parseLoop_cons, parseLoop_cons]
    split
    · exact ih _ _
    · split
      · cases cur with
        | none => exact ih _ _
        | some item => exact ih _ _
      · exact ih _ _

/-- C28: a line that, once trimmed, starts with neither `#EXTINF:` nor `http` (a blank
    line, a comment, stray text), inserted as an extra line at any line position of a
    text, leaves the result of `parse` unchanged. -/
theorem parse_ignores_line (ls : List Str) (i : Nat) (L : Str)
    (hls : ∀ l ∈ ls, 10 ∉ l) (hL : 10 ∉ L)
    (h1 : startsWith (trim L) (js "#EXTINF:") = false)
    (h2 : startsWith (trim L) (js "http") = false) :
    parse (joinLines (ls.take i ++ L :: ls.drop i)) = parse (joinLines ls) := by
  have hins : ∀ l ∈ ls.take i ++ L :: ls.drop i, 10 ∉ l := by
    intro l hl
    rcases List.mem_append.mp hl with hl | hl
    · exact hls l (List.mem_of_mem_take hl)
    · rcases List.mem_cons.mp hl with rfl | hl
      · exact hL
      · exact hls l (List.mem_of_mem_drop hl)
  rw [parse_joinLines _ hins, parse_joinLines _ hls]
  rw [List.filter_append, List.filter_cons]
  have hls2 : ls.filter (fun line => truthy (trim line)) =
      (ls.take i).filter (fun line => truthy (trim line)) ++
        (ls.drop i).filter (fun line => truthy (trim line)) := by
    rw [← List.filter_append, List.take_append_drop]
  rw [hls2]
  split
  · exact parseLoop_insert _ _ L h1 h2 none []
  · rfl

/-- Witness of C28: a comment line inserted between a header and its URL line. -/
theorem parse_ignores_line_witness :
    parse (joinLines ([js "#EXTINF:-1,A", js "http://a"].take 1 ++ js "#EXTVLCOPT:x" ::
        [js "#EXTINF:-1,A", js "http://a"].drop 1)) =
      parse (joinLines [js "#EXTINF:-1,A", js "http://a"]) :=
  parse_ignores_line [js "#EXTINF:-1,A", js "http://a"] 1 (js "#EXTVLCOPT:x") (by decide!)
    (by decide!) (by decide!) (by decide!)

/-! ## Case of the letters -/

/-- C29: `detectCategory` reads the name and the group only, and reads them without
    regard to the case of ASCII letters: two items whose ASCII names and ASCII groups are
    equal up to letter case have the same category, whatever their other fields.  The
    case mapping `toLowerCase` is any function that maps `A`-`Z` to `a`-`z` on ASCII
    text. -/
theorem detectCategory_case_insensitive (toLowerCase : Str → Str)
    (hlower : ∀ s : Str, (∀ u ∈ s, u < 128) → toLowerCase s = asciiLowerCase s)
    (item1 item2 : Item)
    (hn1 : ∀ u ∈ item1.name, u < 128) (hn2 : ∀ u ∈ item2.name, u < 128)
    (hg1 : ∀ u ∈ item1.group, u < 128) (hg2 : ∀ u ∈ item2.group, u < 128)
    (hname : asciiLowerCase item1.name = asciiLowerCase item2.name)
    (hgroup : asciiLowerCase item1.group = asciiLowerCase item2.group) :
    detectCategory toLowerCase item1 = detectCategory toLowerCase item2 := by
  simp only [detectCategory, hlower _ hn1, hlower _ hn2, hlower _ hg1, hlower _ hg2, hname,
    hgroup]

/-- Witness of C29: `CNN News` and `cnn NEWS`, with different urls and logos. -/
theorem detectCategory_case_insensitive_witness :
    detectCategory asciiLowerCase
        { itemNamed "CNN News" "Brasil" with url := js "http://a", logo := js "x.png" } =
      detectCategory asciiLowerCase
        { itemNamed "cnn NEWS" "BRASIL" with url := js "http://b", tvgId := js "7" } :=
  detectCategory_case_insensitive asciiLowerCase (fun _ _ => rfl) _ _
    (by decide!) (by decide!) (by decide!) (by decide!) (by decide!) (by decide!)

/-! ## The two organizers -/

theorem matches_suffix {ic : Bool} {r : Regex} {x y : Cursor} {c c1 : Caps}
    (h : Matches ic r x c y c1) : y.rest.length + minLength r ≤ x.rest.length := by
  induction h with
  | eps => simp [minLength]
  | cls => simp [minLength]
  | seq _ _ ih1 ih2 => simp only [minLength]; omega
  | altLeft _ _ ih => simp only [minLength]; omega
  | altRight _ _ ih => simp only [minLength]; omega
  | starStop => simp [minLength]
  | starStep _ _ ih1 ih2 => simp only [minLength] at *; omega
  | lazyStop => simp [minLength]
  | lazyStep _ _ ih1 ih2 => simp only [minLength] at *; omega
  | group _ _ ih => simpa only [minLength] using ih
  | bol => simp [minLength]
  | eol => simp [minLength]
  | wordB => simp [minLength]

theorem matches_lookup {ic : Bool} {r : Regex} {x y : Cursor} {c c1 : Caps} (k : Nat)
    (h : Matches ic r x c y c1) (hr : hasGroup k r = false) : c1.lookup k = c.lookup k := by
  induction h with
  | eps => rfl
  | cls => rfl
  | seq _ _ ih1 ih2 =>
    simp only [hasGroup, Bool.or_eq_false_iff] at hr
    rw [ih2 hr.2, ih1 hr.1]
  | altLeft _ _ ih =>
    simp only [hasGroup, Bool.or_eq_false_iff] at hr
    exact ih hr.1
  | altRight _ _ ih =>
    simp only [hasGroup, Bool.or_eq_false_iff] at hr
    exact ih hr.2
  | starStop => rfl
  | starStep _ _ ih1 ih2 =>
    have hr1 := hr
    simp only [hasGroup] at hr1
    rw [ih2 hr, ih1 hr1]
  | lazyStop => rfl
  | lazyStep _ _ ih1 ih2 =>
    have hr1 := hr
    simp only [hasGroup] at hr1
    rw [ih2 hr, ih1 hr1]
  | @group n r x y c c1 _ ih =>
    simp only [hasGroup, Bool.or_eq_false_iff, decide_eq_false_iff_not] at hr
    have hkn : (k == n) = false := by
      have : k ≠ n := fun e => hr.1 e.symm
      simpa using this
    simp only [List.lookup_cons, hkn]
    exact ih hr.2
  | bol => rfl
  | eol => rfl
  | wordB => rfl

/-- The group 1 of a pattern `^(...)tail` is shorter than the text. -/
theorem exec_group_short (re : Regex) (name : Str) (m : Match)
    (hre : capturesPrefix re = true) (h : re.exec true name = some m) :
    (m.group 1).length < name.length := by
  unfold capturesPrefix at hre
  split at hre
  · rename_i g tail
    simp only [Bool.and_eq_true, Bool.not_eq_true', decide_eq_true_eq] at hre
    obtain ⟨a, b, hab, -, hm, -⟩ := exec_sound true _ name m h
    obtain ⟨y, c1, h1, h2⟩ := matches_seq hm
    obtain ⟨hy, hc, -⟩ := matches_bol h1
    subst hy hc
    obtain ⟨z, c2, h3, h4⟩ := matches_seq h2
    obtain ⟨c3, h5, hc2⟩ := matches_group h3
    have hl := matches_lookup 1 h4 hre.1
    have hs := matches_suffix h4
    have hs2 := matches_suffix h5
    simp only [Match.group, hl, hc2, List.lookup_cons, beq_self_eq_true, Option.getD_some,
      List.length_take, hab, List.length_append]
    simp only at hs hs2
    omega
  · simp at hre

theorem trim_length_le (s : Str) : (trim s).length ≤ s.length := by
  have h1 : ∀ l : Str, (l.dropWhile isWhiteSpace).length ≤ l.length := by
    intro l
    induction l with
    | nil => simp
    | cons u l ih =>
      simp only [List.dropWhile_cons]
      split
      · simp only [List.length_cons]; omega
      · simp
  have h2 : ∀ l : Str, (l.rdropWhile isWhiteSpace).length ≤ l.length := by
    intro l
    have := h1 l.reverse
    simpa [List.rdropWhile] using this
  exact (h2 _).trans (h1 s)

theorem seriesLoopBackend_cases (name : Str) (pats : List Regex) (info : SeriesInfo)
    (h : seriesLoopBackend name pats = some info) :
    ∃ re ∈ pats, ∃ m, re.exec true name = some m ∧ info.seriesName = trim (m.group 1) := by
  induction pats with
  | nil => simp [seriesLoopBackend] at h
  | cons re rest ih =>
    cases hm : re.exec true name with
    | some m =>
      simp only [seriesLoopBackend, hm, Option.some.injEq] at h
      exact ⟨re, List.mem_cons_self _ _, m, hm, by rw [← h]⟩
    | none =>
      simp only [seriesLoopBackend, hm] at h
      obtain ⟨q, hq, m, hqm, hres⟩ := ih h
      exact ⟨q, List.mem_cons_of_mem _ hq, m, hqm, hres⟩

/-- The frontend loop over a table that begins with the patterns of the backend ends
    where the backend loop ends. -/
theorem seriesLoop_of_backend (name : Str) (pats more : List SeriesPattern)
    (init info : SeriesInfo)
    (hidx : ∀ p ∈ pats, p.seriesIndex = 1 ∧ p.seasonIndex = 2 ∧ p.episodeIndex = 3)
    (h : seriesLoopBackend name (pats.map (fun p => p.regex)) = some info) :
    seriesLoop name (pats ++ more) init = info := by
  induction pats with
  | nil => simp [seriesLoopBackend] at h
  | cons p rest ih =>
    obtain ⟨i1, i2, i3⟩ := hidx p (List.mem_cons_self _ _)
    cases hm : p.regex.exec true name with
    | some m =>
      simp only [List.map_cons, seriesLoopBackend, hm, Option.some.injEq] at h
      simp only [List.cons_append, seriesLoop, hm, i1, i2, i3]
      exact h
    | none =>
      simp only [List.map_cons, seriesLoopBackend, hm] at h
      simp only [List.cons_append, seriesLoop, hm]
      exact ih (fun q hq => hidx q (List.mem_cons_of_mem _ hq)) h

theorem seriesPatterns_split :
    seriesPatterns = seriesPatterns.take 4 ++ seriesPatterns.drop 4 ∧
    (seriesPatterns.take 4).map (fun p => p.regex) = seriesPatternsBackend ∧
    (∀ p ∈ seriesPatterns.take 4,
      p.seriesIndex = 1 ∧ p.seasonIndex = 2 ∧ p.episodeIndex = 3) ∧
    (∀ re ∈ seriesPatternsBackend, capturesPrefix re = true) := by
  refine ⟨rfl, rfl, ?_, ?_⟩
  · decide!
  · decide!

/-- When a pattern of the backend matches with a show name that is not empty, the two
    extractions agree. -/
theorem seriesInfo_eq (name : Str) (info : SeriesInfo)
    (h : seriesLoopBackend name seriesPatternsBackend = some info)
    (hne : info.seriesName ≠ []) :
    seriesInfoBackend name = info ∧ parseSeriesInfo name = info := by
  obtain ⟨hsplit, hmap, hidx, hcap⟩ := seriesPatterns_split
  constructor
  · simp only [seriesInfoBackend, h]
    rw [if_pos ((truthy_iff _).mpr hne)]
  · have hloop : seriesLoop name seriesPatterns
        { seriesName := name, season := 1, episode := 1 } = info := by
      rw [hsplit]
      exact seriesLoop_of_backend name _ _ _ info hidx (by rw [hmap]; exact h)
    obtain ⟨re, hre, m, hm, hname⟩ := seriesLoopBackend_cases name _ info h
    have hshort := exec_group_short re name m (hcap re hre) hm
    have hlen := trim_length_le (m.group 1)
    have hneq : info.seriesName ≠ name := by
      intro e
      rw [hname] at e
      rw [e] at hlen
      omega
    simp only [parseSeriesInfo, hloop, if_neg hneq]

theorem map_alterKey {κ β γ : Type} [DecidableEq κ] (g : β → γ) (k : κ) (d : β) (f : β → β)
    (f2 : γ → γ) (hf : ∀ v, g (f v) = f2 (g v)) (l : List (κ × β)) :
    (alterKey k d f l).map (fun p => (p.1, g p.2)) =
      alterKey k (g d) f2 (l.map (fun p => (p.1, g p.2))) := by
  induction l with
  | nil => simp [alterKey, hf]
  | cons p l ih =>
    obtain ⟨k1, v⟩ := p
    by_cases hk : k1 = k
    · simp [alterKey, hk, hf]
    · simp [alterKey, hk, ih]

theorem grouping_sort {β γ : Type} (entry : β → γ) (episode : β → Int) (episode2 : γ → Int)
    (he : ∀ x, episode2 (entry x) = episode x)
    (organized : List (Str × List (Int × List β))) :
    grouping entry
        (organized.map (fun p => (p.1, p.2.map (fun q => (q.1, sortByEpisode episode q.2))))) =
      (grouping entry organized).map
        (fun p => (p.1, p.2.map (fun q => (q.1, sortByEpisode episode2 q.2)))) := by
  simp only [grouping, List.map_map]
  apply List.map_congr_left
  intro p _
  simp only [Function.comp_apply, List.map_map, Prod.mk.injEq, true_and]
  apply List.map_congr_left
  intro q _
  simp only [Function.comp_apply, Prod.mk.injEq, true_and, sortByEpisode]
  apply List.map_insertionSort
  intro a _ b _
  rw [he, he]

theorem grouping_addSeriesItem (organized : List (Str × List (Int × List SeriesItem)))
    (organizedB : List (Str × List (Int × List BSeriesItem))) (item : Item) (itemB : BItem)
    (hname : seriesInfoBackend item.name = parseSeriesInfo item.name)
    (hitem : itemB.name = some item.name)
    (h : grouping BSeriesItem.entry organizedB = grouping SeriesItem.entry organized) :
    grouping BSeriesItem.entry (addSeriesItemBackend organizedB itemB item.name) =
      grouping SeriesItem.entry (addSeriesItem organized item) := by
  have hB := map_alterKey (fun seasons : List (Int × List BSeriesItem) =>
      seasons.map (fun q => (q.1, q.2.map BSeriesItem.entry)))
    (seriesInfoBackend item.name).seriesName []
    (alterKey (seriesInfoBackend item.name).season []
      (fun l => l ++ [toSeriesItemBackend itemB item.name]))
    (alterKey (seriesInfoBackend item.name).season []
      (fun l => l ++ [(toSeriesItemBackend itemB item.name).entry]))
    (fun v => map_alterKey (fun l : List BSeriesItem => l.map BSeriesItem.entry) _ [] _ _
      (by intro l; simp) v)
    organizedB
  have hF := map_alterKey (fun seasons : List (Int × List SeriesItem) =>
      seasons.map (fun q => (q.1, q.2.map SeriesItem.entry)))
    (parseSeriesInfo item.name).seriesName []
    (alterKey (parseSeriesInfo item.name).season []
      (fun l => l ++ [toSeriesItem item]))
    (alterKey (parseSeriesInfo item.name).season []
      (fun l => l ++ [(toSeriesItem item).entry]))
    (fun v => map_alterKey (fun l : List SeriesItem => l.map SeriesItem.entry) _ [] _ _
      (by intro l; simp) v)
    organized
  have hentry : (toSeriesItemBackend itemB item.name).entry = (toSeriesItem item).entry := by
    simp only [BSeriesItem.entry, SeriesItem.entry, toSeriesItemBackend, toSeriesItem, hname,
      hitem]
  simp only [grouping] at h ⊢
  simp only [addSeriesItemBackend, addSeriesItem]
  simp only [List.map_nil] at hB hF
  rw [hB, hF, h, hentry, hname]

theorem grouping_loop (seriesItems : List Item) :
    ∀ (itemsB : List BItem) (organized : List (Str × List (Int × List SeriesItem)))
      (organizedB : List (Str × List (Int × List BSeriesItem))),
      itemsB.map (fun i => i.name) = seriesItems.map (fun i => some i.name) →
      (∀ item ∈ seriesItems, seriesInfoBackend item.name = parseSeriesInfo item.name) →
      grouping BSeriesItem.entry organizedB = grouping SeriesItem.entry organized →
      ∃ ob, organizeLoopBackend itemsB organizedB = some ob ∧
        grouping BSeriesItem.entry ob =
          grouping SeriesItem.entry (seriesItems.foldl addSeriesItem organized) := by
  induction seriesItems with
  | nil =>
    intro itemsB organized organizedB hn _ h
    have : itemsB = [] := by simpa using hn
    subst this
    exact ⟨organizedB, rfl, h⟩
  | cons item rest ih =>
    intro itemsB organized organizedB hn hinfo h
    cases itemsB with
    | nil => simp at hn
    | cons itemB restB =>
      simp only [List.map_cons, List.cons.injEq] at hn
      have hstep := grouping_addSeriesItem organized organizedB item itemB
        (hinfo item (List.mem_cons_self _ _)) hn.1 h
      obtain ⟨ob, hob, hg⟩ := ih restB _ _ hn.2
        (fun x hx => hinfo x (List.mem_cons_of_mem _ hx)) hstep
      refine ⟨ob, ?_, by rw [List.foldl_cons]; exact hg⟩
      simp only [organizeLoopBackend, hn.1]
      exact hob

/-- Where the two organizers agree: for entries whose names are matched by one of the
    four patterns that the two implementations share (`Name S01E02`, `Name 1x02`,
    `Name Temporada 1 Episodio 2`, `Name T01E02`) with a show name that is not empty
    after trimming, the backend and the frontend extract the same series name, season and
    episode, and build the same dictionary show → season → ordered entries. -/
theorem organizeSeries_agree (seriesItems : List Item) (itemsB : List BItem)
    (hnames : itemsB.map (fun i => i.name) = seriesItems.map (fun i => some i.name))
    (hshared : ∀ item ∈ seriesItems, ∃ info,
      seriesLoopBackend item.name seriesPatternsBackend = some info ∧ info.seriesName ≠ []) :
    (∀ item ∈ seriesItems, seriesInfoBackend item.name = parseSeriesInfo item.name) ∧
    ∃ ob, organizeSeriesBackend itemsB = some ob ∧
      grouping BSeriesItem.entry ob = grouping SeriesItem.entry (organizeSeries seriesItems) := by
  have hinfo : ∀ item ∈ seriesItems, seriesInfoBackend item.name = parseSeriesInfo item.name := by
    intro item hitem
    obtain ⟨info, h1, h2⟩ := hshared item hitem
    obtain ⟨h3, h4⟩ := seriesInfo_eq item.name info h1 h2
    rw [h3, h4]
  refine ⟨hinfo, ?_⟩
  obtain ⟨ob, hob, hg⟩ := grouping_loop seriesItems itemsB [] [] hnames hinfo rfl
  refine ⟨_, by simp only [organizeSeriesBackend, hob, Option.map_some']; rfl, ?_⟩
  rw [organizeSeries,
    grouping_sort BSeriesItem.entry BSeriesItem.episode (fun e => e.2.2.2) (fun _ => rfl),
    grouping_sort SeriesItem.entry SeriesItem.episode (fun e => e.2.2.2) (fun _ => rfl), hg]

/-- Two episodes of one show, out of order: the two organizers agree. -/
theorem organizeSeries_agree_witness :
    (∀ item ∈ [itemNamed "Show S01E02" "", itemNamed "Show S01E01" ""],
      seriesInfoBackend item.name = parseSeriesInfo item.name) ∧
    ∃ ob, organizeSeriesBackend
        [{ BItem.empty with name := some (js "Show S01E02") },
         { BItem.empty with name := some (js "Show S01E01") }] = some ob ∧
      grouping BSeriesItem.entry ob = grouping SeriesItem.entry
        (organizeSeries [itemNamed "Show S01E02" "", itemNamed "Show S01E01" ""]) :=
  organizeSeries_agree [itemNamed "Show S01E02" "", itemNamed "Show S01E01" ""]
    [{ BItem.empty with name := some (js "Show S01E02") },
     { BItem.empty with name := some (js "Show S01E01") }] (by decide!) (by decide!)

/-- C26, failing input: the name `Show-S01E02`.  The frontend reads it with its fifth
    pattern (`Nome - S01E01`) as show `Show`, season 1, episode 2; the backend does not
    have that pattern and keeps the whole name as the show, with season 1 and episode 1,
    so the two organizers file the entry under different shows. -/
theorem organizeSeriesBackend_hyphen :
    parseSeriesInfo (js "Show-S01E02") = { seriesName := js "Show", season := 1, episode := 2 } ∧
    seriesInfoBackend (js "Show-S01E02") =
      { seriesName := js "Show-S01E02", season := 1, episode := 1 } ∧
    grouping SeriesItem.entry (organizeSeries [itemNamed "Show-S01E02" ""]) ≠
      grouping BSeriesItem.entry
        ((organizeSeriesBackend [{ BItem.empty with name := some (js "Show-S01E02") }]).getD
          []) := by
  refine ⟨by decide!, by decide!, ?_⟩
  intro h
  have h2 := congrArg (fun g => g.map Prod.fst) h
  revert h2
  decide!

/-! ## Numerals -/

theorem parseDigits_append (a b : Str) :
    parseDigits (a ++ b) = parseDigits a * 10 ^ b.length + parseDigits b := by
  have h : ∀ (b : Str) (x : Nat),
      b.foldl (fun a d => 10 * a + (d - 48)) x = x * 10 ^ b.length + parseDigits b := by
    intro b
    induction b with
    | nil => intro x; simp [parseDigits]
    | cons d b ih =>
      intro x
      simp only [List.foldl_cons, parseDigits, List.length_cons]
      rw [ih, ih (10 * 0 + (d - 48))]
      ring
  simp only [parseDigits, List.foldl_append]
  rw [h b]
  rfl

theorem parseDigits_cons (d : Nat) (b : Str) :
    parseDigits (d :: b) = (d - 48) * 10 ^ b.length + parseDigits b := by
  have := parseDigits_append [d] b
  simpa [parseDigits] using this

theorem natDigitsAux_digits (fuel n : Nat) (acc : Str) :
    ∀ u ∈ natDigitsAux fuel n acc, isDigit u = true ∨ u ∈ acc := by
  induction fuel generalizing n acc with
  | zero => intro u hu; exact Or.inr hu
  | succ fuel ih =>
    intro u hu
    have hd : isDigit (48 + n % 10) = true := by
      have : n % 10 < 10 := Nat.mod_lt _ (by decide)
      simp only [isDigit, Bool.and_eq_true, decide_eq_true_eq]
      omega
    simp only [natDigitsAux] at hu
    split at hu
    · rcases List.mem_cons.mp hu with rfl | hu
      · exact Or.inl hd
      · exact Or.inr hu
    · rcases ih _ _ u hu with h | h
      · exact Or.inl h
      · rcases List.mem_cons.mp h with rfl | h
        · exact Or.inl hd
        · exact Or.inr h

theorem natDigitsAux_ne_nil (fuel n : Nat) (acc : Str) (h : 0 < fuel ∨ acc ≠ []) :
    natDigitsAux fuel n acc ≠ [] := by
  induction fuel generalizing n acc with
  | zero =>
    rcases h with h | h
    · omega
    · exact h
  | succ fuel ih =>
    simp only [natDigitsAux]
    split
    · simp
    · exact ih _ _ (Or.inr (by simp))

theorem parseDigits_natDigitsAux (fuel n : Nat) (acc : Str) (h : n < fuel) :
    parseDigits (natDigitsAux fuel n acc) = n * 10 ^ acc.length + parseDigits acc := by
  induction fuel generalizing n acc with
  | zero => omega
  | succ fuel ih =>
    simp only [natDigitsAux]
    split
    · rename_i h0
      rw [parseDigits_cons]
      have : n % 10 = n := by
        have := Nat.div_add_mod n 10
        omega
      simp [this]
    · rename_i h0
      have hlt : n / 10 < fuel := by
        have := Nat.div_add_mod n 10
        omega
      rw [ih _ _ hlt, parseDigits_cons]
      simp only [List.length_cons, Nat.add_sub_cancel_left, pow_succ]
      have := Nat.div_add_mod n 10
      have e : n = 10 * (n / 10) + n % 10 := this.symm
      generalize n / 10 = q at *
      generalize n % 10 = r at *
      subst e
      ring

theorem natToString_digits (n : Nat) : ∀ u ∈ natToString n, isDigit u = true := by
  intro u hu
  rcases natDigitsAux_digits _ _ _ u hu with h | h
  · exact h
  · simp at h

theorem natToString_ne_nil (n : Nat) : natToString n ≠ [] :=
  natDigitsAux_ne_nil _ _ _ (Or.inl (Nat.succ_pos _))

theorem parseDigits_natToString (n : Nat) : parseDigits (natToString n) = n := by
  rw [natToString, parseDigits_natDigitsAux _ _ _ (Nat.lt_succ_self _)]
  simp [parseDigits]

theorem takeWhile_eq_self (p : Nat → Bool) (s : Str) (h : ∀ u ∈ s, p u = true) :
    s.takeWhile p = s := by
  induction s with
  | nil => rfl
  | cons u s ih =>
    simp [List.takeWhile_cons, h u (List.mem_cons_self _ _),
      ih (fun x hx => h x (List.mem_cons_of_mem _ hx))]

theorem dropWhile_eq_nil (p : Nat → Bool) (s : Str) (h : ∀ u ∈ s, p u = true) :
    s.dropWhile p = [] := by
  induction s with
  | nil => rfl
  | cons u s ih =>
    simp [List.dropWhile_cons, h u (List.mem_cons_self _ _),
      ih (fun x hx => h x (List.mem_cons_of_mem _ hx))]

/-- The numeral of an integer is read back as the integer. -/
theorem parseFloat_intToString (d : Int) : parseFloat (intToString d) = Decimal.ofInt d := by
  have hdig := natToString_digits d.natAbs
  have hne := natToString_ne_nil d.natAbs
  have hhead : (natToString d.natAbs).head? ≠ some 45 := by
    cases hs : natToString d.natAbs with
    | nil => simp
    | cons u s =>
      simp only [List.head?_cons, ne_eq, Option.some.injEq]
      rintro rfl
      have := hdig 45 (by rw [hs]; exact List.mem_cons_self _ _)
      simp [isDigit] at this
  by_cases hd : d < 0
  · simp only [intToString, if_pos hd, parseFloat, List.head?_cons, if_true, List.drop_succ_cons,
      List.drop_zero, takeWhile_eq_self _ _ hdig, dropWhile_eq_nil _ _ hdig, List.head?_nil,
      List.rdropWhile_nil, List.length_nil, pow_zero, Nat.mul_one, parseDigits_natToString,
      Decimal.ofInt]
    simp only [reduceCtorEq, if_false, List.rdropWhile_nil, List.length_nil, parseDigits,
      List.foldl_nil, Nat.add_zero, pow_zero, Nat.mul_one]
    congr 1
    omega
  · simp only [intToString, if_neg hd, parseFloat, if_neg hhead,
      takeWhile_eq_self _ _ hdig, dropWhile_eq_nil _ _ hdig, List.head?_nil,
      List.rdropWhile_nil, List.length_nil, pow_zero, Nat.mul_one, parseDigits_natToString,
      Decimal.ofInt]
    simp only [reduceCtorEq, if_false, List.rdropWhile_nil, List.length_nil, parseDigits,
      List.foldl_nil, Nat.add_zero, pow_zero, Nat.mul_one]
    congr 1
    omega

/-! ## The attributes of a generated header line -/

theorem js_eq_quote : js "=\"" = [61, 34] := by decide!

theorem js_quote : js "\"" = [34] := by decide!

theorem js_space : js " " = [32] := by decide!

theorem js_comma : js "," = [44] := by decide!

/-- Two texts agree up to their first separator. -/
theorem eq_of_append_cons (q : Nat) :
    ∀ (x y r1 r2 : Str), q ∉ x → q ∉ y → x ++ q :: r1 = y ++ q :: r2 → x = y := by
  intro x
  induction x with
  | nil =>
    intro y r1 r2 _ hy h
    cases y with
    | nil => rfl
    | cons u y =>
      simp only [List.nil_append, List.cons_append, List.cons.injEq] at h
      exact absurd (by rw [← h.1]; exact List.mem_cons_self _ _) hy
  | cons u x ih =>
    intro y r1 r2 hx hy h
    cases y with
    | nil =>
      simp only [List.nil_append, List.cons_append, List.cons.injEq] at h
      exact absurd (by rw [h.1]; exact List.mem_cons_self _ _) hx
    | cons v y =>
      simp only [List.cons_append, List.cons.injEq] at h
      rw [h.1, ih y r1 r2 (fun e => hx (List.mem_cons_of_mem _ e))
        (fun e => hy (List.mem_cons_of_mem _ e)) h.2]

/-- A match of an attribute pattern at a position needs the text `key="` there. -/
theorem reAttr_here_prefix (key : String) (before : Str) (x : Cursor) (m : Match)
    (h : (reAttr key).matchHere false before x = some m) :
    ∃ r, x.rest = js key ++ 61 :: 34 :: r := by
  obtain ⟨hm, -, -⟩ := matchHere_sound false _ before x m h
  obtain ⟨y1, c1, h1, hrest⟩ := matches_cat_cons hm
  obtain ⟨y2, c2, h2, -⟩ := matches_cat_cons hrest
  obtain ⟨e1, -, -⟩ := matches_lits_exact key h1
  obtain ⟨e2, -, -⟩ := matches_lits_exact "=\"" h2
  exact ⟨y2.rest, by rw [e1, e2, js_eq_quote]; rfl⟩

theorem reAttr_here_none (key : String) (before : Str) (p : Option Nat) (t : Str)
    (h : ∀ r, t ≠ js key ++ 61 :: 34 :: r) :
    (reAttr key).matchHere false before ⟨p, t⟩ = none := by
  cases hm : (reAttr key).matchHere false before ⟨p, t⟩ with
  | none => rfl
  | some m =>
    obtain ⟨r, hr⟩ := reAttr_here_prefix key before _ m hm
    exact absurd hr (h r)

/-- The search passes a quote that does not end the text `key="`. -/
theorem reAttr_skip (key : String) (hkey : 34 ∉ js key) (a b : Str) (ha : 34 ∉ a)
    (hsuf : ¬ (js key ++ [61]) <:+ a) (before : Str) (prev : Option Nat) :
    ∃ before1 prev1, (reAttr key).searchFrom false before prev (a ++ 34 :: b) =
      (reAttr key).searchFrom false before1 prev1 b := by
  refine ⟨(a ++ [34]).reverse ++ before, prevAfter prev (a ++ [34]), ?_⟩
  have := searchFrom_skip false (reAttr key) (a ++ [34]) b before prev (by
    intro w1 w2 hw hne
    apply reAttr_here_none
    intro r hr
    rcases List.eq_nil_or_concat w2 with e | ⟨w3, u, e⟩
    · exact hne e
    · rw [List.concat_eq_append] at e
      subst e
      have hw2 : a ++ [34] = (w1 ++ w3) ++ [u] := by rw [hw]; simp
      have hu := List.append_inj_right hw2 (by
        have := congrArg List.length hw2
        simp only [List.length_append, List.length_singleton] at this ⊢
        omega)
      have ha2 := List.append_inj_left hw2 (by
        have := congrArg List.length hw2
        simp only [List.length_append, List.length_singleton] at this ⊢
        omega)
      simp only [List.cons.injEq, and_true] at hu
      subst hu
      have hw3 : 34 ∉ w3 := by
        intro e
        apply ha
        rw [ha2]
        exact List.mem_append_right _ e
      have h1 : w3 ++ 34 :: b = (js key ++ [61]) ++ 34 :: r := by
        have : w3 ++ [34] ++ b = js key ++ 61 :: 34 :: r := hr
        simpa using this
      have h2 := eq_of_append_cons 34 w3 (js key ++ [61]) b r hw3
        (by
          intro e
          rcases List.mem_append.mp e with e | e
          · exact hkey e
          · simp at e) h1
      apply hsuf
      rw [ha2, h2]
      exact List.suffix_append _ _)
  simpa using this

/-- The search stops at the first text `key="` that a quote ends, and captures the text up
    to the next quote. -/
theorem reAttr_hit (key : String) (hkey : 34 ∉ js key) (a v rest : Str) (ha : 34 ∉ a)
    (hv : 34 ∉ v) (before : Str) (prev : Option Nat) :
    ∃ m, (reAttr key).searchFrom false before prev
        (a ++ (js key ++ (js "=\"" ++ (v ++ 34 :: rest)))) = some m ∧ m.group 1 = v := by
  have hskip := searchFrom_skip false (reAttr key) a
    (js key ++ (js "=\"" ++ (v ++ 34 :: rest))) before prev (by
    intro w1 w2 hw hne
    apply reAttr_here_none
    intro r hr
    have hw2 : 34 ∉ w2 := by
      intro e
      apply ha
      rw [hw]
      exact List.mem_append_right _ e
    have h1 : (w2 ++ js key ++ [61]) ++ 34 :: (v ++ 34 :: rest) =
        (js key ++ [61]) ++ 34 :: r := by
      rw [js_eq_quote] at hr
      simpa using hr
    have h2 := eq_of_append_cons 34 _ _ _ _
      (by
        intro e
        simp only [List.mem_append, List.mem_singleton] at e
        rcases e with (e | e) | e
        · exact hw2 e
        · exact hkey e
        · simp at e)
      (by
        intro e
        rcases List.mem_append.mp e with e | e
        · exact hkey e
        · simp at e) h1
    have := congrArg List.length h2
    simp only [List.length_append, List.length_singleton] at this
    exact hne (List.length_eq_zero.mp (by omega)))
  rw [hskip]
  have hhere : ∀ (bf : Str) (p : Option Nat),
      ∃ m, (reAttr key).matchHere false bf
        ⟨p, js key ++ (js "=\"" ++ (v ++ 34 :: rest))⟩ = some m ∧ m.group 1 = v := by
    intro bf p
    simp only [Regex.matchHere, reAttr, run_cat_cons, run_lits, run_group]
    have hstar := @run_star_cls_all Match false (.notLit 34) v (34 :: rest)
    refine ⟨⟨bf, List.take ((js key ++ (js "=\"" ++ (v ++ 34 :: rest))).length - rest.length)
        (js key ++ (js "=\"" ++ (v ++ 34 :: rest))),
      [(1, List.take ((v ++ 34 :: rest).length - (34 :: rest).length) (v ++ 34 :: rest))],
      ⟨some 34, rest⟩⟩, ?_, ?_⟩
    · apply hstar
      · intro u hu
        have : u ≠ 34 := fun e => hv (e ▸ hu)
        simp [CharSet.test, canonicalize, this]
      · simp [CharSet.test, canonicalize]
      · have := @run_lits Match "\"" rest
        rw [js_quote] at this
        simp only [List.singleton_append] at this
        rw [this]
        rfl
    · simp only [Match.group, List.lookup_cons, beq_self_eq_true, Option.getD_some]
      exact take_captured v (34 :: rest)
  obtain ⟨m, hm, hg⟩ := hhere (a.reverse ++ before).reverse (prevAfter prev a)
  refine ⟨m, ?_, hg⟩
  apply searchFrom_here
  simpa using hm

theorem suffix_of_separator (c : Nat) (s x y : Str) (hs : c ∉ s) (h : s <:+ x ++ c :: y) :
    s <:+ y := by
  have h1 : s.reverse <+: y.reverse ++ c :: x.reverse := by
    have := List.reverse_prefix.mpr h
    simpa using this
  have h2 : (y.reverse ++ [c]) <+: y.reverse ++ c :: x.reverse := by
    have : y.reverse ++ c :: x.reverse = (y.reverse ++ [c]) ++ x.reverse := by simp
    rw [this]
    exact List.prefix_append _ _
  rcases List.prefix_or_prefix_of_prefix h1 h2 with h3 | h3
  · rcases List.prefix_concat_iff.mp h3 with h4 | h4
    · exfalso
      apply hs
      have : c ∈ s.reverse := by rw [h4]; simp
      simpa using this
    · have := List.reverse_suffix.mpr h4
      simpa using this
  · exfalso
    apply hs
    have : c ∈ s.reverse := h3.subset (by simp)
    simpa using this

/-- The value that the pattern of the attribute `key` finds in a line of rendered
    attributes: the value of the first attribute whose name ends with `key`. -/
theorem reAttr_search_pairs (key : String) (hkey : 34 ∉ js key) (hkey2 : 32 ∉ js key)
    (tail : Str) (htail : 34 ∉ tail) (pairs : List (Str × Str))
    (hpairs : ∀ p ∈ pairs, 34 ∉ p.1 ∧ 34 ∉ p.2 ∧ 61 ∉ p.2) :
    ∀ (pre before : Str) (prev : Option Nat), 34 ∉ pre →
      ((reAttr key).searchFrom false before prev
        (pre ++ ((pairs.map (fun p => renderAttribute p.1 p.2)).flatten ++ tail))).map
          (fun m => m.group 1) =
        (pairs.find? (fun p => (js key).isSuffixOf p.1)).map Prod.snd := by
  induction pairs with
  | nil =>
    intro pre before prev hpre
    have : (reAttr key).searchFrom false before prev (pre ++ tail) = none := by
      apply searchFrom_none
      intro w1 w2 hw
      apply reAttr_here_none
      intro r hr
      have : 34 ∈ pre ++ tail := by
        rw [hw, hr]
        simp
      rcases List.mem_append.mp this with e | e
      · exact hpre e
      · exact htail e
    simp [this]
  | cons p pairs ih =>
    intro pre before prev hpre
    obtain ⟨k1, v1⟩ := p
    obtain ⟨hk1, hv1, hv2⟩ := hpairs (k1, v1) (List.mem_cons_self _ _)
    simp only at hk1 hv1 hv2
    have hrest : ∀ q ∈ pairs, 34 ∉ q.1 ∧ 34 ∉ q.2 ∧ 61 ∉ q.2 :=
      fun q hq => hpairs q (List.mem_cons_of_mem _ hq)
    by_cases hs : (js key).isSuffixOf k1 = true
    · obtain ⟨k0, hk0⟩ := List.isSuffixOf_iff_suffix.mp hs
      have hk034 : 34 ∉ k0 := by
        intro e
        apply hk1
        rw [← hk0]
        exact List.mem_append_left _ e
      obtain ⟨m, hm, hg⟩ := reAttr_hit key hkey (pre ++ 32 :: k0) v1
        ((pairs.map (fun p => renderAttribute p.1 p.2)).flatten ++ tail)
        (by
          intro e
          simp only [List.mem_append, List.mem_cons] at e
          rcases e with e | e | e
          · exact hpre e
          · simp at e
          · exact hk034 e)
        hv1 before prev
      have htext : pre ++ (((k1, v1) :: pairs).map
            (fun p => renderAttribute p.1 p.2)).flatten ++ tail =
          (pre ++ 32 :: k0) ++ (js key ++ (js "=\"" ++ (v1 ++
            34 :: ((pairs.map (fun p => renderAttribute p.1 p.2)).flatten ++ tail)))) := by
        simp only [List.map_cons, List.flatten_cons, renderAttribute, js_space, js_quote,
          ← hk0, List.append_assoc, List.singleton_append, List.cons_append, List.nil_append]
      rw [← List.append_assoc, htext, hm]
      simp [hs, hg]
    · have hns : ¬ js key <:+ k1 := fun e => hs (List.isSuffixOf_iff_suffix.mpr e)
      obtain ⟨b1, p1, e1⟩ := reAttr_skip key hkey (pre ++ 32 :: (k1 ++ [61]))
        (v1 ++ 34 :: ((pairs.map (fun p => renderAttribute p.1 p.2)).flatten ++ tail))
        (by
          intro e
          simp only [List.mem_append, List.mem_cons, List.mem_singleton] at e
          rcases e with e | e | e | e
          · exact hpre e
          · simp at e
          · exact hk1 e
          · simp at e)
        (by
          intro e
          have e2 : js key ++ [61] <:+ (pre ++ 32 :: k1) ++ [61] := by simpa using e
          have e3 : js key <:+ pre ++ 32 :: k1 := by
            obtain ⟨t, ht⟩ := e2
            have := List.append_inj_left (by simpa using ht :
              (t ++ js key) ++ [61] = (pre ++ 32 :: k1) ++ [61]) (by
                have := congrArg List.length ht
                simp only [List.length_append, List.length_singleton, List.length_cons] at this ⊢
                omega)
            exact ⟨t, this⟩
          exact hns (suffix_of_separator 32 _ _ _ hkey2 e3))
        before prev
      obtain ⟨b2, p2, e2⟩ := reAttr_skip key hkey v1
        ((pairs.map (fun p => renderAttribute p.1 p.2)).flatten ++ tail) hv1
        (by
          intro e
          apply hv2
          exact e.subset (by simp))
        b1 p1
      have htext : pre ++ (((k1, v1) :: pairs).map
            (fun p => renderAttribute p.1 p.2)).flatten ++ tail =
          (pre ++ 32 :: (k1 ++ [61])) ++ 34 :: (v1 ++
            34 :: ((pairs.map (fun p => renderAttribute p.1 p.2)).flatten ++ tail)) := by
        simp only [List.map_cons, List.flatten_cons, renderAttribute, js_space, js_quote,
          js_eq_quote, List.append_assoc, List.singleton_append, List.cons_append,
          List.nil_append]
      rw [← List.append_assoc, htext, e1, e2]
      have := ih hrest [] b2 p2 (by simp)
      rw [List.nil_append] at this
      rw [this]
      simp [hs]

/-! ## The duration of a generated header line -/

theorem run_alt {α : Type} (ic : Bool) (a b : Regex) (x : Cursor) (c : Caps)
    (k : Cursor → Caps → Option α) :
    (Regex.alt a b).run ic x c k =
      match a.run ic x c k with
      | some r => some r
      | none => b.run ic x c k := rfl

theorem run_eps {α : Type} (ic : Bool) (x : Cursor) (c : Caps) (k : Cursor → Caps → Option α) :
    Regex.eps.run ic x c k = k x c := rfl

theorem run_cls_none {α : Type} (ic : Bool) (s : CharSet) (p : Option Nat) (r : Str) (c : Caps)
    (k : Cursor → Caps → Option α) (h : ∀ u ∈ r.head?, s.test ic u = false) :
    (Regex.cls s).run ic ⟨p, r⟩ c k = none := by
  cases r with
  | nil => rfl
  | cons u r =>
    rw [run_cls_cons, h u (by simp)]
    simp

/-- An optional pattern that begins with a class which the next code unit is not in
    matches the empty text. -/
theorem run_opt_cls_none {α : Type} (ic : Bool) (s : CharSet) (tail : Regex) (p : Option Nat)
    (r : Str) (c : Caps) (k : Cursor → Caps → Option α)
    (h : ∀ u ∈ r.head?, s.test ic u = false) :
    (Regex.opt (.seq (.cls s) tail)).run ic ⟨p, r⟩ c k = k ⟨p, r⟩ c := by
  rw [Regex.opt, run_alt, run_seq, run_cls_none ic s p r c _ h]
  rfl

/-- The pattern `(-?\d+(?:\.\d+)?)` captures the numeral of an integer that is followed
    by neither a digit nor a point. -/
theorem run_numeral {α : Type} (d : Int) (rest : Str) (p : Option Nat)
    (k : Cursor → Caps → Option α) (v : α)
    (hrest : ∀ u ∈ rest.head?, isDigit u = false ∧ u ≠ 46)
    (hk : k ⟨prevAfter p (intToString d), rest⟩ [(1, intToString d)] = some v) :
    (Regex.group 1 (.cat [.opt (.cls (.lit 45)), .plus (.cls .digit),
      .opt (.seq (.cls (.lit 46)) (.plus (.cls .digit)))])).run false
        ⟨p, intToString d ++ rest⟩ [] k = some v := by
  have hdig := natToString_digits d.natAbs
  have hne := natToString_ne_nil d.natAbs
  have htail : ∀ (q : Option Nat) (k2 : Cursor → Caps → Option α),
      k2 ⟨prevAfter q (natToString d.natAbs), rest⟩ [] = some v →
      (Regex.cat [.plus (.cls .digit),
        .opt (.seq (.cls (.lit 46)) (.plus (.cls .digit)))]).run false
          ⟨q, natToString d.natAbs ++ rest⟩ [] k2 = some v := by
    intro q k2 hk2
    rw [run_cat_cons]
    apply run_plus_cls_all false .digit _ rest q [] _ v hne
    · intro u hu
      simpa [CharSet.test] using hdig u hu
    · intro u hu
      simpa [CharSet.test] using (hrest u hu).1
    · show (Regex.opt (.seq (.cls (.lit 46)) (.plus (.cls .digit)))).run false _ [] k2 = some v
      rw [run_opt_cls_none]
      · exact hk2
      · intro u hu
        simpa [CharSet.test, canonicalize] using (hrest u hu).2
  rw [run_group, run_cat_cons, Regex.opt, run_alt]
  by_cases hd : d < 0
  · simp only [intToString, if_pos hd] at hk ⊢
    simp only [List.cons_append, run_cls_cons, CharSet.test,
      canonicalize, Bool.false_and, Bool.false_eq_true, if_false, decide_True, if_true]
    rw [htail (some 45) _ (by
      simp only
      have := take_captured (45 :: natToString d.natAbs) rest
      simp only [List.cons_append] at this
      rw [this, ← prevAfter_cons]
      exact hk)]
  · simp only [intToString, if_neg hd] at hk ⊢
    rw [run_cls_none]
    · simp only [run_eps]
      rw [htail p _ (by
        simp only
        rw [take_captured]
        exact hk)]
    · intro u hu
      have hu2 : u ∈ natToString d.natAbs := by
        cases hs : natToString d.natAbs with
        | nil => exact absurd hs hne
        | cons a s =>
          rw [hs] at hu
          simp only [List.cons_append, List.head?_cons, Option.mem_def, Option.some.injEq] at hu
          rw [← hu]
          exact List.mem_cons_self _ _
      have hu3 : isDigit u = true := hdig u hu2
      have : u ≠ 45 := by
        rintro rfl
        simp [isDigit] at hu3
      simp [CharSet.test, canonicalize, this]

/-- The duration pattern finds the numeral of a generated header line. -/
theorem reDuration_exec_numeral (d : Int) (rest : Str)
    (hrest : ∀ u ∈ rest.head?, isDigit u = false ∧ u ≠ 46) :
    ∃ m, reDuration.exec false (js "#EXTINF:" ++ (intToString d ++ rest)) = some m ∧
      m.group 1 = intToString d := by
  have hhere : ∃ m, reDuration.matchHere false []
      ⟨none, js "#EXTINF:" ++ (intToString d ++ rest)⟩ = some m ∧ m.group 1 = intToString d := by
    simp only [Regex.matchHere, reDuration, run_seq, run_lits]
    exact ⟨_, run_numeral d rest _ _ _ hrest rfl, rfl⟩
  obtain ⟨m, hm, hg⟩ := hhere
  exact ⟨m, searchFrom_here false reDuration [] none _ m hm, hg⟩

/-! ## A generated header line read back -/

theorem parseEXTINF_name_of_comma (pre rest : Str) (hpre : 44 ∉ pre)
    (hrest : ∀ v ∈ rest, isLineTerminator v = false) :
    (parseEXTINF (pre ++ 44 :: rest)).name = trim rest := by
  rw [parseEXTINF_name_eq, Regex.exec]
  have hskip := searchFrom_skip false reName pre (44 :: rest) [] none (by
    intro w1 w2 hw hne
    cases w2 with
    | nil => exact absurd rfl hne
    | cons u w2 =>
      have hu : u ≠ 44 := by
        intro e
        apply hpre
        rw [hw, e]
        simp
      exact reName_here_ne _ _ u _ hu)
  rw [hskip]
  cases rest with
  | nil =>
    have : reName.searchFrom false (pre.reverse ++ []) (prevAfter none pre) [44] = none := by
      rw [searchFrom_cons, reName_here_comma_nil]
      rfl
    rw [this]
    rfl
  | cons u rest =>
    rw [searchFrom_here false reName _ _ _ _ (reName_here_comma _ _ u rest hrest)]
    rfl

theorem intToString_chars (d : Int) : ∀ u ∈ intToString d, isDigit u = true ∨ u = 45 := by
  intro u hu
  simp only [intToString] at hu
  split at hu
  · rcases List.mem_cons.mp hu with rfl | hu
    · exact Or.inr rfl
    · exact Or.inl (natToString_digits _ u hu)
  · exact Or.inl (natToString_digits _ u hu)

theorem not_mem_intToString (d : Int) (c : Nat) (hc : isDigit c = false) (hc2 : c ≠ 45) :
    c ∉ intToString d := by
  intro e
  rcases intToString_chars d c e with h | h
  · rw [hc] at h; exact absurd h (by simp)
  · exact hc2 h

theorem isEmpty_eq_decide (l : Str) : l.isEmpty = decide (l = []) := by
  cases l <;> simp

/-- The header line of a well-formed item: marker, numeral, the named attributes that
    are not empty, comma, name. -/
theorem headerLineSpec_wellFormed (item : Item) (h : WellFormed item) :
    headerLineSpec item =
      js "#EXTINF:" ++ (intToString item.duration.mant ++
        (((namedPairs item).map (fun p => renderAttribute p.1 p.2)).flatten ++
          44 :: item.name)) := by
  obtain ⟨-, -, -, -, -, -, -, -, -, -, -, hg, hs, hm, -, ha⟩ := h
  have hnum : numberToString (if item.duration.mant = 0 then Decimal.ofInt (-1)
      else item.duration) = intToString item.duration.mant := by
    rw [if_neg hm, numberToString, if_pos hs]
  have hattr : objEntries item.attributes = [] := by rw [ha]; rfl
  simp only [headerLineSpec, hnum, hattr, List.map_nil, List.flatten_nil, List.append_nil,
    js_comma, namedPairs, renderNamed]
  by_cases h1 : item.tvgId = [] <;> by_cases h2 : item.tvgName = [] <;>
    by_cases h3 : item.logo = [] <;>
    simp [h1, h2, h3, hg, List.filter, List.append_assoc, isEmpty_eq_decide]

theorem namedPairs_plain (item : Item) (h : WellFormed item) :
    ∀ p ∈ namedPairs item, 34 ∉ p.1 ∧ 34 ∉ p.2 ∧ 61 ∉ p.2 ∧ 44 ∉ p.1 ∧ 44 ∉ p.2 ∧
      10 ∉ p.1 ∧ 10 ∉ p.2 := by
  obtain ⟨-, -, -, -, -, -, -, h1, h2, h3, h4, -⟩ := h
  intro p hp
  simp only [namedPairs, List.mem_filter, List.mem_cons, List.mem_singleton,
    List.not_mem_nil, or_false] at hp
  have k1 : 34 ∉ js "tvg-id" ∧ 44 ∉ js "tvg-id" ∧ 10 ∉ js "tvg-id" := by decide!
  have k2 : 34 ∉ js "tvg-name" ∧ 44 ∉ js "tvg-name" ∧ 10 ∉ js "tvg-name" := by decide!
  have k3 : 34 ∉ js "tvg-logo" ∧ 44 ∉ js "tvg-logo" ∧ 10 ∉ js "tvg-logo" := by decide!
  have k4 : 34 ∉ js "group-title" ∧ 44 ∉ js "group-title" ∧ 10 ∉ js "group-title" := by
    decide!
  rcases hp.1 with rfl | rfl | rfl | rfl
  · exact ⟨k1.1, h1.1, h1.2.2.1, k1.2.1, h1.2.1, k1.2.2, h1.2.2.2⟩
  · exact ⟨k2.1, h2.1, h2.2.2.1, k2.2.1, h2.2.1, k2.2.2, h2.2.2.2⟩
  · exact ⟨k3.1, h3.1, h3.2.2.1, k3.2.1, h3.2.1, k3.2.2, h3.2.2.2⟩
  · exact ⟨k4.1, h4.1, h4.2.2.1, k4.2.1, h4.2.1, k4.2.2, h4.2.2.2⟩

theorem not_mem_rendered (c : Nat) (hc : c ≠ 32 ∧ c ≠ 61 ∧ c ≠ 34) (pairs : List (Str × Str))
    (h : ∀ p ∈ pairs, c ∉ p.1 ∧ c ∉ p.2) :
    c ∉ (pairs.map (fun p => renderAttribute p.1 p.2)).flatten := by
  intro e
  simp only [List.mem_flatten, List.mem_map] at e
  obtain ⟨l, ⟨p, hp, rfl⟩, hl⟩ := e
  obtain ⟨h1, h2⟩ := h p hp
  simp only [renderAttribute, js_space, js_eq_quote, js_quote, List.mem_append,
    List.mem_cons, List.mem_singleton, List.not_mem_nil, or_false] at hl
  rcases hl with (((e | e) | e | e) | e) | e
  · exact hc.1 e
  · exact h1 e
  · exact hc.2.1 e
  · exact hc.2.2 e
  · exact h2 e
  · exact hc.2.2 e

/-- The value that the pattern of a named attribute finds in the header line of a
    well-formed item. -/
theorem reAttr_exec_header (key : String) (hkey : 34 ∉ js key) (hkey2 : 32 ∉ js key)
    (item : Item) (h : WellFormed item) :
    ((reAttr key).exec false (headerLineSpec item)).map (fun m => m.group 1) =
      ((namedPairs item).find? (fun p => (js key).isSuffixOf p.1)).map Prod.snd := by
  rw [headerLineSpec_wellFormed item h, Regex.exec]
  have hpre : 34 ∉ js "#EXTINF:" ++ intToString item.duration.mant := by
    intro e
    rcases List.mem_append.mp e with e | e
    · revert e; decide!
    · exact not_mem_intToString _ 34 (by decide) (by decide) e
  have := reAttr_search_pairs key hkey hkey2 (44 :: item.name)
    (by
      intro e
      rcases List.mem_cons.mp e with e | e
      · exact absurd e (by decide)
      · exact h.2.2.1 e)
    (namedPairs item)
    (fun p hp => ⟨(namedPairs_plain item h p hp).1, (namedPairs_plain item h p hp).2.1,
      (namedPairs_plain item h p hp).2.2.1⟩)
    (js "#EXTINF:" ++ intToString item.duration.mant) [] none hpre
  rw [← this, List.append_assoc]

theorem suffix_table :
    (js "tvg-id").isSuffixOf (js "tvg-id") = true ∧
    (js "tvg-id").isSuffixOf (js "tvg-name") = false ∧
    (js "tvg-id").isSuffixOf (js "tvg-logo") = false ∧
    (js "tvg-id").isSuffixOf (js "group-title") = false ∧
    (js "tvg-name").isSuffixOf (js "tvg-id") = false ∧
    (js "tvg-name").isSuffixOf (js "tvg-name") = true ∧
    (js "tvg-name").isSuffixOf (js "tvg-logo") = false ∧
    (js "tvg-name").isSuffixOf (js "group-title") = false ∧
    (js "tvg-logo").isSuffixOf (js "tvg-id") = false ∧
    (js "tvg-logo").isSuffixOf (js "tvg-name") = false ∧
    (js "tvg-logo").isSuffixOf (js "tvg-logo") = true ∧
    (js "tvg-logo").isSuffixOf (js "group-title") = false ∧
    (js "group-title").isSuffixOf (js "tvg-id") = false ∧
    (js "group-title").isSuffixOf (js "tvg-name") = false ∧
    (js "group-title").isSuffixOf (js "tvg-logo") = false ∧
    (js "group-title").isSuffixOf (js "group-title") = true := by
  decide!

theorem find_namedPairs (item : Item) :
    ((namedPairs item).find? (fun p => (js "tvg-id").isSuffixOf p.1)).map Prod.snd =
      (if item.tvgId = [] then none else some item.tvgId) ∧
    ((namedPairs item).find? (fun p => (js "tvg-name").isSuffixOf p.1)).map Prod.snd =
      (if item.tvgName = [] then none else some item.tvgName) ∧
    ((namedPairs item).find? (fun p => (js "tvg-logo").isSuffixOf p.1)).map Prod.snd =
      (if item.logo = [] then none else some item.logo) ∧
    ((namedPairs item).find? (fun p => (js "group-title").isSuffixOf p.1)).map Prod.snd =
      (if item.group = [] then none else some item.group) := by
  obtain ⟨a1, a2, a3, a4, b1, b2, b3, b4, c1, c2, c3, c4, d1, d2, d3, d4⟩ := suffix_table
  by_cases h1 : item.tvgId = [] <;> by_cases h2 : item.tvgName = [] <;>
    by_cases h3 : item.logo = [] <;> by_cases h4 : item.group = [] <;>
    simp [namedPairs, List.filter, List.find?, isEmpty_eq_decide, h1, h2, h3, h4, a1, a2, a3, a4, b1, b2, b3, b4,
      c1, c2, c3, c4, d1, d2, d3, d4]

/-- What `parseEXTINF` reads in the header line that the serializer writes for a
    well-formed item. -/
theorem parseEXTINF_headerLine (item : Item) (h : WellFormed item) :
    (parseEXTINF (headerLineSpec item)).name = item.name ∧
    (parseEXTINF (headerLineSpec item)).duration = item.duration ∧
    (parseEXTINF (headerLineSpec item)).tvgId = item.tvgId ∧
    (parseEXTINF (headerLineSpec item)).tvgName = item.tvgName ∧
    (parseEXTINF (headerLineSpec item)).logo = item.logo ∧
    (parseEXTINF (headerLineSpec item)).group = item.group := by
  have hk : (34 ∉ js "tvg-id" ∧ 32 ∉ js "tvg-id") ∧ (34 ∉ js "tvg-name" ∧ 32 ∉ js "tvg-name") ∧
      (34 ∉ js "tvg-logo" ∧ 32 ∉ js "tvg-logo") ∧
      (34 ∉ js "group-title" ∧ 32 ∉ js "group-title") := by decide!
  obtain ⟨f1, f2, f3, f4⟩ := find_namedPairs item
  have e1 := reAttr_exec_header "tvg-id" hk.1.1 hk.1.2 item h
  have e2 := reAttr_exec_header "tvg-name" hk.2.1.1 hk.2.1.2 item h
  have e3 := reAttr_exec_header "tvg-logo" hk.2.2.1.1 hk.2.2.1.2 item h
  have e4 := reAttr_exec_header "group-title" hk.2.2.2.1 hk.2.2.2.2 item h
  rw [f1] at e1
  rw [f2] at e2
  rw [f3] at e3
  rw [f4] at e4
  have hplain := namedPairs_plain item h
  refine ⟨?_, ?_, ?_, ?_, ?_, ?_⟩
  · have hline : headerLineSpec item =
        (js "#EXTINF:" ++ (intToString item.duration.mant ++
          ((namedPairs item).map (fun p => renderAttribute p.1 p.2)).flatten)) ++
            44 :: item.name := by
      rw [headerLineSpec_wellFormed item h]
      simp only [List.append_assoc]
    rw [hline, parseEXTINF_name_of_comma _ _ _ h.2.2.2.1, h.2.1]
    intro e
    simp only [List.mem_append] at e
    rcases e with e | e | e
    · revert e; decide!
    · exact not_mem_intToString _ 44 (by decide) (by decide) e
    · exact not_mem_rendered 44 (by decide) _
        (fun p hp => ⟨(hplain p hp).2.2.2.1, (hplain p hp).2.2.2.2.1⟩) e
  · rw [parseEXTINF_duration_eq, headerLineSpec_wellFormed item h]
    obtain ⟨m, hm, hg⟩ := reDuration_exec_numeral item.duration.mant
      (((namedPairs item).map (fun p => renderAttribute p.1 p.2)).flatten ++ 44 :: item.name)
      (by
        intro u hu
        cases hp : namedPairs item with
        | nil =>
          rw [hp] at hu
          simp only [List.map_nil, List.flatten_nil, List.nil_append, List.head?_cons,
            Option.mem_def, Option.some.injEq] at hu
          subst hu
          decide
        | cons p ps =>
          rw [hp] at hu
          simp only [List.map_cons, List.flatten_cons, renderAttribute, js_space,
            List.append_assoc, List.singleton_append, List.cons_append, List.head?_cons,
            Option.mem_def, Option.some.injEq] at hu
          subst hu
          decide)
    rw [hm]
    simp only [hg, parseFloat_intToString, Decimal.ofInt]
    obtain ⟨-, -, -, -, -, -, -, -, -, -, -, -, hs, -⟩ := h
    cases hd : item.duration with
    | mk mant scale =>
      rw [hd] at hs
      simp only at hs
      rw [hs]
  · rw [parseEXTINF_tvgId_eq]
    cases hx : (reAttr "tvg-id").exec false (headerLineSpec item) with
    | none =>
      rw [hx] at e1
      by_cases hv : item.tvgId = []
      · rw [hv]
      · simp [hv] at e1
    | some m =>
      rw [hx] at e1
      by_cases hv : item.tvgId = []
      · simp [hv] at e1
      · simpa [hv] using e1
  · rw [parseEXTINF_tvgName_eq]
    cases hx : (reAttr "tvg-name").exec false (headerLineSpec item) with
    | none =>
      rw [hx] at e2
      by_cases hv : item.tvgName = []
      · rw [hv]
      · simp [hv] at e2
    | some m =>
      rw [hx] at e2
      by_cases hv : item.tvgName = []
      · simp [hv] at e2
      · simpa [hv] using e2
  · rw [parseEXTINF_logo_eq]
    cases hx : (reAttr "tvg-logo").exec false (headerLineSpec item) with
    | none =>
      rw [hx] at e3
      by_cases hv : item.logo = []
      · rw [hv]
      · simp [hv] at e3
    | some m =>
      rw [hx] at e3
      by_cases hv : item.logo = []
      · simp [hv] at e3
      · simpa [hv] using e3
  · rw [parseEXTINF_group_eq]
    have hv : item.group ≠ [] := h.2.2.2.2.2.2.2.2.2.2.2.1
    cases hx : (reAttr "group-title").exec false (headerLineSpec item) with
    | none =>
      rw [hx] at e4
      simp [hv] at e4
    | some m =>
      rw [hx] at e4
      simpa [hv] using e4

/-! ## The round trip -/

/-- The lines that the serializer writes for the items: header line and url line. -/
theorem generate_lines (items : List Item) (title : Str) :
    generate items title =
      js "#EXTM3U" ++ 10 ::
        (items.map (fun item => headerLineSpec item ++ 10 :: (item.url ++ [10]))).flatten := by
  have h := foldl_append_flatten
    (fun item : Item => generateEXTINF item ++ (item.url ++ js "\n")) items (js "#EXTM3U\n")
  have hg : generate items title =
      items.foldl (fun acc item => acc ++ (generateEXTINF item ++ (item.url ++ js "\n")))
        (js "#EXTM3U\n") := by
    simp only [generate, List.append_assoc]
  rw [hg, h]
  have h0 : js "#EXTM3U\n" = js "#EXTM3U" ++ [10] := by decide!
  rw [h0, List.append_assoc, List.singleton_append]
  congr 2
  apply congrArg
  apply List.map_congr_left
  intro item _
  rw [generateEXTINF_eq, js_newline]
  simp

theorem split_generated (items : List Item)
    (h : ∀ item ∈ items, 10 ∉ headerLineSpec item ∧ 10 ∉ item.url) :
    split 10 (items.map
        (fun item => headerLineSpec item ++ 10 :: (item.url ++ [10]))).flatten =
      (items.map (fun item => [headerLineSpec item, item.url])).flatten ++ [[]] := by
  induction items with
  | nil => rfl
  | cons item rest ih =>
    obtain ⟨h1, h2⟩ := h item (List.mem_cons_self _ _)
    simp only [List.map_cons, List.flatten_cons, List.append_assoc, List.cons_append,
      List.singleton_append, List.nil_append]
    rw [split_append 10 _ _ h1, split_append 10 _ _ h2,
      ih (fun x hx => h x (List.mem_cons_of_mem _ hx))]

theorem headerLine_facts (item : Item) (h : WellFormed item) :
    10 ∉ headerLineSpec item ∧ trim (headerLineSpec item) = headerLineSpec item ∧
      startsWith (headerLineSpec item) (js "#EXTINF:") = true := by
  have hline := headerLineSpec_wellFormed item h
  have hplain := namedPairs_plain item h
  obtain ⟨hne, htrim, -, hlt, -⟩ := h
  refine ⟨?_, ?_, ?_⟩
  · rw [hline]
    intro e
    simp only [List.mem_append, List.mem_cons] at e
    rcases e with e | e | e | e | e
    · revert e; decide!
    · exact not_mem_intToString _ 10 (by decide) (by decide) e
    · exact not_mem_rendered 10 (by decide) _
        (fun p hp => ⟨(hplain p hp).2.2.2.2.2.1, (hplain p hp).2.2.2.2.2.2⟩) e
    · exact absurd e (by decide)
    · have := hlt 10 e
      simp [isLineTerminator] at this
  · apply trim_eq_self_of_last
    · intro u hu
      rw [hline, js_extinf] at hu
      simp only [List.cons_append, List.head?_cons, Option.mem_def, Option.some.injEq] at hu
      subst hu
      decide
    · intro u hu
      have hlast : (headerLineSpec item).getLast? = item.name.getLast? := by
        rw [hline, ← List.append_assoc, ← List.append_assoc]
        have : ∀ (a : Str), (a ++ 44 :: item.name).getLast? = item.name.getLast? := by
          intro a
          have e : a ++ 44 :: item.name = (a ++ [44]) ++ item.name := by simp
          rw [e, List.getLast?_append_of_ne_nil _ hne]
        exact this _
      rw [hlast] at hu
      have := trim_eq_self_last item.name htrim hne
      rw [List.getLast?_eq_getLast _ hne] at hu
      simp only [Option.mem_def, Option.some.injEq] at hu
      rw [← hu]
      exact this
  · rw [hline]
    simp [startsWith, List.isPrefixOf_iff_prefix]

theorem parseLoop_generated (items : List Item) (h : ∀ item ∈ items, WellFormed item) :
    ∀ acc : List Item,
      parseLoop (items.map (fun item => [headerLineSpec item, item.url])).flatten none acc =
        acc ++ items.map
          (fun item => completeItem (parseEXTINF (headerLineSpec item)) item.url) := by
  induction items with
  | nil => intro acc; simp [parseLoop]
  | cons item rest ih =>
    intro acc
    have hw := h item (List.mem_cons_self _ _)
    obtain ⟨-, h2, h3⟩ := headerLine_facts item hw
    obtain ⟨u1, u2, u3⟩ := http_line item.url hw.2.2.2.2.1
    have hname : hasName (some (parseEXTINF (headerLineSpec item))) = true := by
      simp only [hasName, (parseEXTINF_headerLine item hw).1]
      exact (truthy_iff _).mpr hw.1
    simp only [List.map_cons, List.flatten_cons, List.cons_append, List.nil_append]
    rw [parseLoop_cons, h2, if_pos h3, parseLoop_cons, if_neg (by rw [u3]; simp), u1, hname]
    simp only [Bool.and_self, if_true]
    rw [ih (fun x hx => h x (List.mem_cons_of_mem _ hx)), hw.2.2.2.2.2.1]
    simp

theorem parse_generated (items : List Item) (title : Str)
    (h : ∀ item ∈ items, WellFormed item) :
    parse (generate items title) =
      items.map (fun item => completeItem (parseEXTINF (headerLineSpec item)) item.url) := by
  have hsplit : split 10 (generate items title) =
      js "#EXTM3U" :: ((items.map (fun item => [headerLineSpec item, item.url])).flatten ++
        [[]]) := by
    rw [generate_lines, split_append 10 _ _ (by decide!), split_generated]
    intro item hitem
    exact ⟨(headerLine_facts item (h item hitem)).1, (h item hitem).2.2.2.2.2.2.1⟩
  have hfilter : ((items.map (fun item => [headerLineSpec item, item.url])).flatten).filter
      (fun line => truthy (trim line)) =
      (items.map (fun item => [headerLineSpec item, item.url])).flatten := by
    rw [List.filter_eq_self]
    intro l hl
    simp only [List.mem_flatten, List.mem_map] at hl
    obtain ⟨ls, ⟨item, hitem, rfl⟩, hl⟩ := hl
    have hw := h item hitem
    simp only [List.mem_cons, List.mem_singleton, List.not_mem_nil, or_false] at hl
    rcases hl with rfl | rfl
    · obtain ⟨-, h2, h3⟩ := headerLine_facts item hw
      rw [h2]
      exact header_line _ h3
    · exact (http_line item.url hw.2.2.2.2.1).2.1
  rw [parse, hsplit]
  have h0 : truthy (trim (js "#EXTM3U")) = true := by decide!
  have h1 : startsWith (trim (js "#EXTM3U")) (js "#EXTINF:") = false := by decide!
  have h2 : startsWith (trim (js "#EXTM3U")) (js "http") = false := by decide!
  have hblank : truthy (trim ([] : Str)) = false := by decide
  simp only [List.filter_cons, h0, if_true, List.filter_append, hfilter, hblank,
    Bool.false_eq_true, if_false, List.filter_nil, List.append_nil]
  rw [parseLoop_cons, if_neg (by rw [h1]; simp), h2]
  simp only [Bool.false_and, Bool.false_eq_true, if_false]
  rw [parseLoop_generated items h []]
  simp

/-- C25: round trip of the named fields.  For every sequence of well-formed entries (see
    `WellFormed`: the conditions of the claim imply it) and every title,
    `parse (generate E title)` has the length of `E`, and its entries have, in order, the
    name, url, duration, tvgId, tvgName, logo and group of the entries of `E`. -/
theorem parse_generate_named (E : List Item) (title : Str)
    (h : ∀ item ∈ E, WellFormed item) :
    (parse (generate E title)).length = E.length ∧
    (parse (generate E title)).map namedFields = E.map namedFields := by
  rw [parse_generated E title h]
  refine ⟨by simp, ?_⟩
  rw [List.map_map]
  apply List.map_congr_left
  intro item hitem
  obtain ⟨f1, f2, f3, f4, f5, f6⟩ := parseEXTINF_headerLine item (h item hitem)
  simp only [Function.comp_apply, namedFields, completeItem, f1, f2, f3, f4, f5, f6]

/-- Witness of C25: a live channel with a logo and a film with a duration. -/
theorem parse_generate_named_witness :
    (parse (generate
      [{ itemNamed "CNN HD" "News" with
          url := js "http://stream/cnn"
          logo := js "http://x/l.png" },
       { itemNamed "The Matrix 1999" "Filmes" with
          url := js "https://stream/matrix.mp4"
          tvgId := js "m1"
          duration := Decimal.ofInt 8160 }] (js "IPTV Playlist"))).length = 2 ∧
    (parse (generate
      [{ itemNamed "CNN HD" "News" with
          url := js "http://stream/cnn"
          logo := js "http://x/l.png" },
       { itemNamed "The Matrix 1999" "Filmes" with
          url := js "https://stream/matrix.mp4"
          tvgId := js "m1"
          duration := Decimal.ofInt 8160 }] (js "IPTV Playlist"))).map namedFields =
      [{ itemNamed "CNN HD" "News" with
          url := js "http://stream/cnn"
          logo := js "http://x/l.png" },
       { itemNamed "The Matrix 1999" "Filmes" with
          url := js "https://stream/matrix.mp4"
          tvgId := js "m1"
          duration := Decimal.ofInt 8160 }].map namedFields :=
  parse_generate_named _ (js "IPTV Playlist") (by
    intro item hitem
    simp only [List.mem_cons, List.mem_singleton, List.not_mem_nil, or_false] at hitem
    rcases hitem with rfl | rfl <;>
    exact ⟨by decide!, by decide!, by decide!, by decide!, by decide!, by decide!, by decide!,
      by decide!, by decide!, by decide!, by decide!, by decide!, by decide!, by decide!,
      by decide!, by decide!⟩)

/-! ## Season indicators -/

theorem canonicalize_upper (u c : Nat) (hc : 65 ≤ c ∧ c ≤ 90) :
    canonicalize true u = c ↔ u = c ∨ u = c + 32 := by
  simp only [canonicalize, Bool.true_and, Bool.and_eq_true, decide_eq_true_eq]
  split <;> omega

theorem whiteSpace_facts (u : Nat) (h : isWhiteSpace u = true) :
    isDigit u = false ∧ ∀ c, 65 ≤ c ∧ c ≤ 90 → canonicalize true u ≠ c := by
  simp only [isWhiteSpace, Bool.or_eq_true, decide_eq_true_eq, Bool.and_eq_true] at h
  constructor
  · simp only [isDigit, Bool.and_eq_false_imp, decide_eq_true_eq, decide_eq_false_iff_not]
    omega
  · intro c hc e
    rw [canonicalize_upper u c hc] at e
    omega

theorem head_dropWhile (p : Nat → Bool) (l : Str) : ∀ u ∈ (l.dropWhile p).head?, p u = false := by
  induction l with
  | nil => simp
  | cons a l ih =>
    intro u hu
    by_cases ha : p a = true
    · rw [List.dropWhile_cons_of_pos ha] at hu
      exact ih u hu
    · rw [List.dropWhile_cons_of_neg ha] at hu
      simp only [List.head?_cons, Option.mem_def, Option.some.injEq] at hu
      subst hu
      simpa using ha

theorem dropWhile_append_of_head (p : Nat → Bool) (w r : Str) (hw : ∀ u ∈ w, p u = true)
    (hr : ∀ u ∈ r.head?, p u = false) : (w ++ r).dropWhile p = r := by
  induction w with
  | nil =>
    cases r with
    | nil => rfl
    | cons a r =>
      have := hr a (by simp)
      simp [List.dropWhile_cons, this]
  | cons a w ih =>
    rw [List.cons_append, List.dropWhile_cons_of_pos (hw a (List.mem_cons_self _ _))]
    exact ih (fun u hu => hw u (List.mem_cons_of_mem _ hu))

/-- A season indicator does not begin with white space. -/
theorem indicator_head (t : Str) (h : startsWithIndicator t = true) :
    ∀ u ∈ t.head?, isWhiteSpace u = false := by
  intro u hu
  cases hws : isWhiteSpace u with
  | false => rfl
  | true =>
    exfalso
    obtain ⟨hd, hc⟩ := whiteSpace_facts u hws
    cases t with
    | nil => simp at hu
    | cons a t =>
      simp only [List.head?_cons, Option.mem_def, Option.some.injEq] at hu
      subst hu
      simp only [startsWithIndicator, Bool.or_eq_true] at h
      rcases h with (h | h) | h
      · cases t with
        | nil => simp [startsWithSeason] at h
        | cons d t =>
          simp only [startsWithSeason, Bool.and_eq_true, decide_eq_true_eq] at h
          exact hc 83 (by decide) h.1
      · simp only [startsWithTemporada, decide_eq_true_eq] at h
        have h2 := congrArg List.head? h
        have h3 : ((js "Temporada").map (canonicalize true)).head? = some 84 := by decide!
        rw [h3] at h2
        simp only [List.take_succ_cons, List.map_cons, List.head?_cons, Option.some.injEq] at h2
        exact hc 84 (by decide) h2
      · simp only [startsWithEpisode] at h
        split at h
        · rename_i d0 t0 x e r heq1 heq2
          simp only [List.cons.injEq] at heq1
          simp only [Bool.and_eq_true] at h
          rw [← heq1.1, hd] at h
          simp at h
        · simp at h

/-- The text that a literal pattern matches, with or without the flag `i`. -/
theorem run_literal_canon {α : Type} (ic : Bool) (w t r : Str) (p : Option Nat) (c : Caps)
    (k : Cursor → Caps → Option α)
    (h : t.map (canonicalize ic) = w.map (canonicalize ic)) :
    (Regex.cat (w.map (fun u => Regex.cls (.lit u)))).run ic ⟨p, t ++ r⟩ c k =
      k ⟨prevAfter p t, r⟩ c := by
  induction w generalizing p t with
  | nil =>
    have : t = [] := by simpa using h
    subst this
    rfl
  | cons u w ih =>
    cases t with
    | nil => simp at h
    | cons a t =>
      simp only [List.map_cons, List.cons.injEq] at h
      rw [List.map_cons, run_cat_cons]
      simp only [List.cons_append, run_cls_cons, CharSet.test, h.1, decide_True, if_true]
      rw [ih t (some a) h.2, prevAfter_cons]

theorem run_alt_left {α : Type} (ic : Bool) (a b : Regex) (x : Cursor) (c : Caps)
    (k : Cursor → Caps → Option α) (h : ∃ v, a.run ic x c k = some v) :
    ∃ v, (Regex.alt a b).run ic x c k = some v := by
  obtain ⟨v, hv⟩ := h
  exact ⟨v, by rw [run_alt, hv]⟩

theorem run_alt_right {α : Type} (ic : Bool) (a b : Regex) (x : Cursor) (c : Caps)
    (k : Cursor → Caps → Option α) (h : ∃ v, b.run ic x c k = some v) :
    ∃ v, (Regex.alt a b).run ic x c k = some v := by
  cases ha : a.run ic x c k with
  | some v => exact ⟨v, by rw [run_alt, ha]⟩
  | none =>
    obtain ⟨v, hv⟩ := h
    exact ⟨v, by rw [run_alt, ha]; exact hv⟩

/-- Greedy `+` of a class succeeds on a text that begins with a member of the class, when
    the continuation accepts everywhere. -/
theorem run_plus_cls_total {α : Type} (ic : Bool) (s : CharSet) (u : Nat) (t : Str)
    (p : Option Nat) (c : Caps) (k : Cursor → Caps → Option α) (hu : s.test ic u = true)
    (hk : ∀ y c2, ∃ v, k y c2 = some v) :
    ∃ v, (Regex.plus (.cls s)).run ic ⟨p, u :: t⟩ c k = some v := by
  have hsplit : u :: t = (u :: t.takeWhile (s.test ic)) ++ t.dropWhile (s.test ic) := by
    simp [List.takeWhile_append_dropWhile]
  obtain ⟨v, hv⟩ := hk ⟨prevAfter p (u :: t.takeWhile (s.test ic)), t.dropWhile (s.test ic)⟩ c
  refine ⟨v, ?_⟩
  rw [hsplit]
  apply run_plus_cls_all ic s _ _ p c k v (by simp)
  · intro x hx
    rcases List.mem_cons.mp hx with rfl | hx
    · exact hu
    · exact (List.mem_takeWhile_imp hx)
  · exact head_dropWhile _ t
  · exact hv

/-- A season indicator is matched by the pattern of the indicators. -/
theorem run_indicator {α : Type} (n : Nat) (t : Str) (p : Option Nat) (c : Caps)
    (k : Cursor → Caps → Option α) (h : startsWithIndicator t = true)
    (hk : ∀ y c2, ∃ v, k y c2 = some v) :
    ∃ v, (reIndicator n).run true ⟨p, t⟩ c k = some v := by
  rw [reIndicator, run_group]
  simp only [startsWithIndicator, Bool.or_eq_true] at h
  rcases h with (h | h) | h
  · apply run_alt_left
    cases t with
    | nil => simp [startsWithSeason] at h
    | cons s t =>
      cases t with
      | nil => simp [startsWithSeason] at h
      | cons d t =>
        simp only [startsWithSeason, Bool.and_eq_true, decide_eq_true_eq] at h
        rw [run_seq]
        have := @run_literal_canon α true (js "S") [s] (d :: t) p c
          (fun y c1 => (Regex.plus (.cls .digit)).run true y c1
            (fun y c1 => k y ((n, List.take ((s :: d :: t).length - y.rest.length)
              (s :: d :: t)) :: c1)))
          (by rw [js_S]; simp only [List.map_cons, List.map_nil, h.1]; decide)
        simp only [List.singleton_append] at this
        rw [Regex.lits, this]
        exact run_plus_cls_total true .digit d t _ c _ (by simpa [CharSet.test] using h.2)
          (fun y c2 => hk _ _)
  · apply run_alt_right
    apply run_alt_left
    simp only [startsWithTemporada, decide_eq_true_eq] at h
    have hsplit : t = t.take 9 ++ t.drop 9 := (List.take_append_drop 9 t).symm
    have := @run_literal_canon α true (js "Temporada") (t.take 9) (t.drop 9) p c
      (fun y c1 => k y ((n, List.take (t.length - y.rest.length) t) :: c1)) h
    rw [← hsplit] at this
    rw [Regex.lits, this]
    exact hk _ _
  · apply run_alt_right
    apply run_alt_right
    simp only [startsWithEpisode] at h
    split at h
    · rename_i _ d0 t0 x e r heq2
      simp only [Bool.and_eq_true, decide_eq_true_eq] at h
      obtain ⟨⟨hd, hx⟩, he⟩ := h
      have hsplit : d0 :: t0 = (d0 :: t0.takeWhile isDigit) ++ x :: e :: r := by
        rw [List.dropWhile_cons_of_pos hd] at heq2
        have := List.takeWhile_append_dropWhile isDigit t0
        rw [heq2] at this
        simp only [List.cons_append, this]
      have hxd : isDigit x = false := by
        rw [canonicalize_upper x 88 (by decide)] at hx
        rcases hx with rfl | rfl <;> decide
      clear heq2
      generalize d0 :: t0 = tx at hsplit ⊢
      subst hsplit
      obtain ⟨v, hv⟩ := run_plus_cls_total true .digit e r (some x) c
        (fun y c1 => k y ((n, List.take
          (((d0 :: t0.takeWhile isDigit) ++ x :: e :: r).length - y.rest.length)
          ((d0 :: t0.takeWhile isDigit) ++ x :: e :: r)) :: c1))
        (by simpa [CharSet.test] using he) (fun y c2 => hk _ _)
      refine ⟨v, ?_⟩
      rw [run_cat_cons]
      apply run_plus_cls_all true .digit _ _ p c _ v (by simp)
      · intro u hu
        rcases List.mem_cons.mp hu with rfl | hu
        · simpa [CharSet.test] using hd
        · simpa [CharSet.test] using (List.mem_takeWhile_imp hu)
      · intro u hu
        simp only [List.head?_cons, Option.mem_def, Option.some.injEq] at hu
        subst hu
        simpa [CharSet.test] using hxd
      · rw [run_cat_cons]
        have := @run_literal_canon α true (js "x") [x] (e :: r)
          (prevAfter p (d0 :: t0.takeWhile isDigit)) c
          (fun y c1 => (Regex.cat [Regex.plus (.cls .digit)]).run true y c1
            (fun y c1 => k y ((n, List.take
              (((d0 :: t0.takeWhile isDigit) ++ x :: e :: r).length - y.rest.length)
              ((d0 :: t0.takeWhile isDigit) ++ x :: e :: r)) :: c1)))
          (by
            have : js "x" = [120] := by decide!
            rw [this]
            simp only [List.map_cons, List.map_nil, hx]
            decide)
        simp only [List.singleton_append] at this
        rw [Regex.lits, this]
        exact hv
    · simp at h

/-- White space and a season indicator are matched by the tail of the fallback pattern. -/
theorem run_indicatorAhead {α : Type} (t : Str) (p : Option Nat) (c : Caps)
    (k : Cursor → Caps → Option α) (h : indicatorAhead t = true)
    (hk : ∀ y c2, ∃ v, k y c2 = some v) :
    ∃ v, (Regex.cat [.plus (.cls .space), reIndicator 2]).run true ⟨p, t⟩ c k = some v := by
  cases t with
  | nil => simp [indicatorAhead] at h
  | cons u t =>
    simp only [indicatorAhead, Bool.and_eq_true] at h
    obtain ⟨hu, hind⟩ := h
    rw [List.dropWhile_cons_of_pos hu] at hind
    obtain ⟨v, hv⟩ := run_indicator 2 (t.dropWhile isWhiteSpace)
      (prevAfter p (u :: t.takeWhile isWhiteSpace)) c k hind hk
    refine ⟨v, ?_⟩
    have hsplit : u :: t = (u :: t.takeWhile isWhiteSpace) ++ t.dropWhile isWhiteSpace := by
      simp [List.takeWhile_append_dropWhile]
    rw [hsplit, run_cat_cons]
    apply run_plus_cls_all true .space _ _ p c _ v (by simp)
    · intro x hx
      rcases List.mem_cons.mp hx with rfl | hx
      · simpa [CharSet.test] using hu
      · simpa [CharSet.test] using (List.mem_takeWhile_imp hx)
    · intro x hx
      simpa [CharSet.test] using indicator_head _ hind x hx
    · exact hv

/-! ## The fallback of `parseSeriesInfo` -/

theorem canon_singleton (t : Str) (c : Nat) (h : t.map (canonicalize true) = [c]) :
    ∃ s, t = [s] ∧ canonicalize true s = c := by
  cases t with
  | nil => simp at h
  | cons s t =>
    cases t with
    | nil => exact ⟨s, rfl, by simpa using h⟩
    | cons a t => simp at h

/-- What the pattern of the indicators matches begins with a season indicator. -/
theorem matches_indicator {n : Nat} {x z : Cursor} {c c2 : Caps}
    (h : Matches true (reIndicator n) x c z c2) : startsWithIndicator x.rest = true := by
  obtain ⟨c1, h1, -⟩ := matches_group h
  simp only [startsWithIndicator, Bool.or_eq_true]
  rcases matches_alt h1 with hA | hBC
  · left; left
    obtain ⟨y, c3, h2, h3⟩ := matches_seq hA
    obtain ⟨t1, e1, e2, -, -⟩ := matches_lits "S" h2
    obtain ⟨d, w, e3, hd, -, -, -⟩ := matches_plus_cls h3
    rw [js_S] at e2
    obtain ⟨s, rfl, hs⟩ := canon_singleton t1 83 (by simpa using e2)
    rw [e1, e3]
    have hdd : isDigit d = true := by simpa [CharSet.test] using hd
    simp [startsWithSeason, hs, hdd]
  · rcases matches_alt hBC with hB | hC
    · left; right
      obtain ⟨t1, e1, e2, -, -⟩ := matches_lits "Temporada" hB
      have hlen : t1.length = 9 := by
        have := congrArg List.length e2
        simp only [List.length_map] at this
        rw [this]
        decide!
      simp only [startsWithTemporada, decide_eq_true_eq]
      rw [e1, List.take_left' hlen]
      exact e2
    · right
      obtain ⟨y, c3, h2, h3⟩ := matches_cat_cons hC
      obtain ⟨d, w, e1, hd, hw, -, -⟩ := matches_plus_cls h2
      obtain ⟨y2, c4, h4, h5⟩ := matches_cat_cons h3
      obtain ⟨t1, e2, e3, -, -⟩ := matches_lits "x" h4
      obtain ⟨e, w2, e4, he, -, -, -⟩ := matches_plus_cls h5
      have hx : (js "x").map (canonicalize true) = [88] := by decide!
      rw [hx] at e3
      obtain ⟨xx, rfl, hxx⟩ := canon_singleton t1 88 e3
      have hxd : isDigit xx = false := by
        rw [canonicalize_upper xx 88 (by decide)] at hxx
        rcases hxx with rfl | rfl <;> decide
      have hdd : isDigit d = true := by simpa [CharSet.test] using hd
      have hdrop : (d :: w ++ y.rest).dropWhile isDigit = xx :: e :: (w2 ++ z.rest) := by
        rw [e2, e4]
        have := dropWhile_append_of_head isDigit (d :: w) (xx :: e :: (w2 ++ z.rest))
          (by
            intro u hu
            rcases List.mem_cons.mp hu with rfl | hu
            · exact hdd
            · simpa [CharSet.test] using hw u hu)
          (by
            intro u hu
            simp only [List.head?_cons, Option.mem_def, Option.some.injEq] at hu
            subst hu
            exact hxd)
        simpa using this
      have hee : isDigit e = true := by simpa [CharSet.test] using he
      rw [e1]
      simp only [startsWithEpisode, hdrop]
      simp [hdd, hxx, hee]

/-- What the tail `\s+(S\d+|Temporada|\d+x\d+)` matches begins with white space that is
    followed by a season indicator. -/
theorem matches_indicatorAhead {x z : Cursor} {c c2 : Caps}
    (h : Matches true (Regex.cat [.plus (.cls .space), reIndicator 2]) x c z c2) :
    indicatorAhead x.rest = true := by
  obtain ⟨y, c1, h1, h2⟩ := matches_cat_cons h
  obtain ⟨u, w, e1, hu, hw, -, -⟩ := matches_plus_cls h1
  have hind := matches_indicator (show Matches true (reIndicator 2) y c1 z c2 from h2)
  have hu2 : isWhiteSpace u = true := by simpa [CharSet.test] using hu
  have hdrop := dropWhile_append_of_head isWhiteSpace (u :: w) y.rest
    (by
      intro v hv
      rcases List.mem_cons.mp hv with rfl | hv
      · exact hu2
      · simpa [CharSet.test] using hw v hv)
    (indicator_head _ hind)
  rw [e1]
  have hdrop2 : (u :: w ++ y.rest).dropWhile isWhiteSpace = y.rest := hdrop
  simp only [indicatorAhead, hdrop2]
  simp [hu2, hind]

theorem fallbackPrefix_some (name w : Str) (h : fallbackPrefix name = some w) :
    ∃ u w1 r, w = u :: w1 ∧ name = u :: w1 ++ r ∧ (∀ v ∈ w, isLineTerminator v = false) ∧
      indicatorAhead r = true ∧
      ∀ a b, w1 = a ++ b → b ≠ [] → indicatorAhead (b ++ r) = false := by
  induction name generalizing w with
  | nil => simp [fallbackPrefix] at h
  | cons u rest ih =>
    simp only [fallbackPrefix] at h
    split at h
    · simp at h
    · rename_i hlt
      split at h
      · rename_i hind
        simp only [Option.some.injEq] at h
        subst h
        refine ⟨u, [], rest, rfl, rfl, ?_, hind, ?_⟩
        · intro v hv
          simp only [List.mem_singleton] at hv
          subst hv
          simpa using hlt
        · intro a b hab hb
          have : b = [] := by
            have := congrArg List.length hab
            simp only [List.length_nil, List.length_append] at this
            exact List.length_eq_zero.mp (by omega)
          exact absurd this hb
      · rename_i hind
        cases hf : fallbackPrefix rest with
        | none => rw [hf] at h; simp at h
        | some w2 =>
          rw [hf] at h
          simp only [Option.map_some', Option.some.injEq] at h
          subst h
          obtain ⟨u2, w1, r, e1, e2, h3, h4, h5⟩ := ih w2 hf
          subst e1
          refine ⟨u, u2 :: w1, r, rfl, by rw [e2]; rfl, ?_, h4, ?_⟩
          · intro v hv
            rcases List.mem_cons.mp hv with rfl | hv
            · simpa using hlt
            · exact h3 v hv
          · intro a b hab hb
            cases a with
            | nil =>
              simp only [List.nil_append] at hab
              subst hab
              rw [e2] at hind
              simpa using hind
            | cons a0 a =>
              simp only [List.cons_append, List.cons.injEq] at hab
              exact h5 a b hab.2 hb

theorem fallbackPrefix_ne_none (w r : Str) (hw : w ≠ [])
    (hlt : ∀ v ∈ w, isLineTerminator v = false) (h : indicatorAhead r = true) :
    fallbackPrefix (w ++ r) ≠ none := by
  induction w with
  | nil => exact absurd rfl hw
  | cons u w ih =>
    have hu : isLineTerminator u = false := hlt u (List.mem_cons_self _ _)
    simp only [List.cons_append, fallbackPrefix, hu, Bool.false_eq_true, if_false]
    split
    · simp
    · rename_i hind
      cases w with
      | nil => exact absurd h hind
      | cons u2 w =>
        have := ih (by simp) (fun v hv => hlt v (List.mem_cons_of_mem _ hv))
        cases hf : fallbackPrefix (u2 :: w ++ r) with
        | none => exact absurd hf this
        | some w2 => simp

theorem prevAfter_none (a : Str) (h : prevAfter none a = none) : a = [] := by
  cases ha : a.getLast? with
  | none => simpa using ha
  | some u => simp [prevAfter, ha] at h

/-- The fallback pattern captures the shortest prefix that white space and a season
    indicator follow. -/
theorem reClean_exec (name : Str) :
    (reClean.exec true name).map (fun m => m.group 1) = fallbackPrefix name := by
  cases hf : fallbackPrefix name with
  | some w =>
    obtain ⟨u, w1, r, rfl, hname, hlt, hind, hmin⟩ := fallbackPrefix_some name w hf
    subst hname
    obtain ⟨v, hv⟩ := @run_indicatorAhead Match r (prevAfter (some u) w1) [(1, u :: w1)]
      (fun y c => some ⟨[], List.take ((u :: w1 ++ r).length - y.rest.length) (u :: w1 ++ r),
        c, y⟩) hind (fun y c2 => ⟨_, rfl⟩)
    have hhere : reClean.matchHere true [] ⟨none, u :: w1 ++ r⟩ = some v := by
      rw [Regex.matchHere, reClean, run_cat_cons, run_bol_start, run_cat_cons]
      apply run_group_lazyPlus_cls_first true .dot 1 u w1 r none []
      · simpa [CharSet.test] using hlt u (List.mem_cons_self _ _)
      · intro x hx
        simpa [CharSet.test] using hlt x (List.mem_cons_of_mem _ hx)
      · intro a b hab hb
        have hfalse := hmin a b hab hb
        cases hk : (Regex.cat [.plus (.cls .space), reIndicator 2]).run true
            ⟨prevAfter (some u) a, b ++ r⟩ [(1, u :: a)]
            (fun y c => some (⟨[], List.take ((u :: w1 ++ r).length - y.rest.length)
              (u :: w1 ++ r), c, y⟩ : Match)) with
        | none => rfl
        | some v2 =>
          obtain ⟨y, c1, hm, -⟩ := run_sound true _ _ _ _ _ hk
          have := matches_indicatorAhead hm
          simp only at this
          rw [hfalse] at this
          exact absurd this (by simp)
      · exact hv
    have hexec : reClean.exec true (u :: w1 ++ r) = some v :=
      searchFrom_here true reClean [] none _ v hhere
    rw [hexec]
    obtain ⟨y, c1, hm, hfinal⟩ := run_sound true _ _ _ _ _ hv
    simp only [Option.some.injEq] at hfinal
    have hl := matches_lookup 1 hm (by decide!)
    simp only [Option.map_some', Option.some.injEq, Match.group, ← hfinal, hl,
      List.lookup_cons, beq_self_eq_true, Option.getD_some]
  | none =>
    cases hm : reClean.exec true name with
    | none => rfl
    | some m =>
      exfalso
      obtain ⟨a, b, hab, -, hmatch, -⟩ := exec_sound true _ name m hm
      obtain ⟨y1, c1, h1, h2⟩ := matches_cat_cons hmatch
      obtain ⟨e1, e2, e3⟩ := matches_bol h1
      subst e1 e2
      have ha := prevAfter_none a e3
      subst ha
      obtain ⟨y2, c2, h3, h4⟩ := matches_cat_cons h2
      obtain ⟨c3, h5, -⟩ := matches_group h3
      obtain ⟨u, w, e4, hu, hw, -, -⟩ := matches_lazyPlus_cls h5
      have hind := matches_indicatorAhead h4
      simp only [List.nil_append] at hab
      simp only at e4
      have := fallbackPrefix_ne_none (u :: w) y2.rest (by simp)
        (by
          intro v hv
          rcases List.mem_cons.mp hv with rfl | hv
          · simpa [CharSet.test] using hu
          · simpa [CharSet.test] using hw v hv)
        hind
      apply this
      rw [← hf, hab, e4]

/-- C16, as amended: for every name that none of the five title patterns matches,
    `parseSeriesInfo` returns as series name the trimmed shortest prefix of the name that
    is not empty, holds no line terminator, and is followed by white space and a season
    indicator (`S<digits>`, `Temporada` or `<digits>x<digits>`, letters in either case);
    it returns the full name when there is no such prefix.  Season and episode are 1. -/
theorem parseSeriesInfo_fallback (name : Str)
    (h : ∀ p ∈ seriesPatterns, p.regex.exec true name = none) :
    (parseSeriesInfo name).seriesName =
      (match fallbackPrefix name with
       | some w => trim w
       | none => name) ∧
    (parseSeriesInfo name).season = 1 ∧ (parseSeriesInfo name).episode = 1 := by
  have hloop := seriesLoop_none name seriesPatterns
    { seriesName := name, season := 1, episode := 1 } h
  have hexec := reClean_exec name
  refine ⟨?_, ?_, ?_⟩
  · simp only [parseSeriesInfo, hloop, if_true]
    cases hm : reClean.exec true name with
    | none =>
      rw [hm] at hexec
      rw [← hexec]
      rfl
    | some m =>
      rw [hm] at hexec
      rw [← hexec]
      rfl
  · rw [parseSeriesInfo_season, hloop]
  · rw [parseSeriesInfo_episode, hloop]

/-- Witness of C16 as amended: `The Show Temporada 2` gives `The Show`. -/
theorem parseSeriesInfo_fallback_witness :
    (parseSeriesInfo (js "The Show Temporada 2")).seriesName =
      (match fallbackPrefix (js "The Show Temporada 2") with
       | some w => trim w
       | none => js "The Show Temporada 2") ∧
    (parseSeriesInfo (js "The Show Temporada 2")).season = 1 ∧
    (parseSeriesInfo (js "The Show Temporada 2")).episode = 1 :=
  parseSeriesInfo_fallback (js "The Show Temporada 2") (by decide!)

/-- C16, counterexample: no title pattern matches the name `ShowS01`, the name contains
    the season indicator `S01` after the text `Show`, and the series name returned is the
    full name: the indicator counts only after white space. -/
theorem parseSeriesInfo_fallback_counterexample :
    (∀ p ∈ seriesPatterns, p.regex.exec true (js "ShowS01") = none) ∧
    js "ShowS01" = js "Show" ++ js "S01" ∧ startsWithIndicator (js "S01") = true ∧
    (parseSeriesInfo (js "ShowS01")).seriesName = js "ShowS01" ∧
    (parseSeriesInfo (js "Show S01")).seriesName = js "Show" := by
  decide!

/-! ## The round trip of the extra attributes -/

/-- C1, failing input: the entry of Example 1, with no extra attributes.  The text that
    `generate` writes for it is read back by `parse` with the name, url, duration, logo
    and group of the entry, and with the extra attributes `logo` and `title`, which the
    entry does not have: the attributes map is not preserved. -/
theorem parse_generate_attributes (title : Str) :
    generate
        [{ itemNamed "CNN HD" "News" with
            url := js "http://stream/cnn"
            logo := js "http://x/l.png" }] title =
      js "#EXTM3U\n#EXTINF:-1 tvg-logo=\"http://x/l.png\" group-title=\"News\",CNN HD\nhttp://stream/cnn\n" ∧
    (parse (generate
        [{ itemNamed "CNN HD" "News" with
            url := js "http://stream/cnn"
            logo := js "http://x/l.png" }] title)).map (fun item => item.attributes) =
      [[(js "logo", js "http://x/l.png"), (js "title", js "News")]] ∧
    ({ itemNamed "CNN HD" "News" with
        url := js "http://stream/cnn"
        logo := js "http://x/l.png" } : Item).attributes = [] ∧
    (parse (generate
        [{ itemNamed "CNN HD" "News" with
            url := js "http://stream/cnn"
            logo := js "http://x/l.png" }] title)).map namedFields =
      [{ itemNamed "CNN HD" "News" with
          url := js "http://stream/cnn"
          logo := js "http://x/l.png" }].map namedFields := by
  have hg : ∀ items : List Item, generate items title = generate items [] := fun _ => rfl
  rw [hg]
  exact ⟨by decide!, by decide!, by decide!, by rfl⟩

/-! ## Show names that `Object.prototype` has -/

/-- C30, failing input: the one entry `constructor S01E01`.  Its show name is
    `constructor`; the read `organized['constructor']` gives the function that is the
    value of `Object.prototype.constructor`, so no show is created, the entry is pushed
    on the array at the property `1` of that function, and the object that
    `organizeSeries` returns has no property at all: the entry is lost and the lengths of
    the season lists sum to 0, not to 1.  The entry `Show S01E01` is stored. -/
theorem organizeSeries_loses_inherited_name :
    (parseSeriesInfo (js "constructor S01E01")).seriesName = js "constructor" ∧
    getProp freshHeap 0 (js "constructor") = some 3 ∧
    organizeSeriesResult [itemNamed "constructor S01E01" ""] = some [] ∧
    (match organizeSeriesHeap freshHeap [itemNamed "constructor S01E01" ""] with
      | .ok r => (getProp r.2 3 (js "1")).map (entriesAt r.2)
      | .error _ => none) = some [toSeriesItem (itemNamed "constructor S01E01" "")] ∧
    organizeSeriesResult [itemNamed "Show S01E01" ""] =
      some [(js "Show", [(js "1", [toSeriesItem (itemNamed "Show S01E01" "")])])] := by
  refine ⟨by decide!, by decide!, by decide!, by decide!, by decide!⟩

theorem organizeSeriesHeap_nil (h : Heap) :
    organizeSeriesHeap h [] = .ok (h.length, h ++ [Obj.mk .plain (some 0) [] 0]) := by
  simp [organizeSeriesHeap, organizeLoopHeap, seasonLists, ownEntriesAt, ownEntries,
    sortLoopHeap]

/-- C19, failing input: the entries `__proto__ S01E01` and `A S01E01`.  The first is
    pushed on a new array at the property `1` of `Object.prototype`; for the second the
    show `A` is created, the read `organized['A'][1]` finds that array on the prototype
    chain, and the entry is pushed there.  `organizeSeries` returns the show `A` with no
    season; the flattening of that object is empty, and `organizeSeries` of the empty
    sequence returns an object with no show, in whatever heap the call is made.  With the
    two entries in the other order the first call returns the show `A` with the season
    `1` and its entry, and the call on the flattening, made in the heap that the first
    call leaves, returns the show `A` with no season. -/
theorem organizeSeries_not_idempotent :
    organizeSeriesResult [itemNamed "__proto__ S01E01" "", itemNamed "A S01E01" ""] =
      some [(js "A", [])] ∧
    flattenOrganized [(js "A", [])] = [] ∧
    (∀ h : Heap,
      (match organizeSeriesHeap h (flattenOrganized [(js "A", [])]) with
        | .ok r => some (readOrganized r.2 r.1)
        | .error _ => none) = some []) ∧
    (match organizeSeriesHeap freshHeap
        [itemNamed "A S01E01" "", itemNamed "__proto__ S01E01" ""] with
      | .ok r =>
        (match organizeSeriesHeap r.2 (flattenOrganized (readOrganized r.2 r.1)) with
          | .ok r2 => some (readOrganized r.2 r.1, readOrganized r2.2 r2.1)
          | .error _ => none)
      | .error _ => none) =
      some ([(js "A", [(js "1", [toSeriesItem (itemNamed "A S01E01" "")])])],
        [(js "A", [])]) := by
  refine ⟨by decide!, by decide!, ?_, by rfl⟩
  intro h
  have hf : flattenOrganized [(js "A", [])] = [] := by decide!
  rw [hf, organizeSeriesHeap_nil]
  simp [readOrganized, ownEntriesAt, ownEntries]

end IPTV
